import Mathlib

/-!
Verification of the fractal-labyrinth shortest-path engine
(`template.py`, `dist_matrix.py`, and the combined `main.py`).

The Python code is shallowly embedded: the `Template` dataclass becomes a
structure holding the insertion-ordered adjacency dictionary, and the
stateful `DistMatrix` class becomes explicit state passing over a `St`
structure (triangular distance data plus the `updated_outer_links`
frontier).  The debug-only `_counter` field and `LOG` printing are not
modelled: they never influence the computed distances.
-/

/-- Node index `(room, door)`, as in `template.py`.  Room 0 is the outer
house, rooms `1..R` are the inner copies. -/
structure NodeIndex where
  room : Nat
  door : Nat
deriving DecidableEq, Repr

/-- Python tuple comparison `(room1, door1) < (room2, door2)`
(lexicographic), used by `Template.all_links` to canonicalize edges. -/
def NodeIndex.ltb (a b : NodeIndex) : Bool :=
  a.room < b.room || (a.room == b.room && a.door < b.door)

/-- The insertion-ordered dictionary `links : dict[NodeIndex, list[NodeIndex]]`. -/
abbrev LinksDict : Type := List (NodeIndex × List NodeIndex)

/-- `d.setdefault(k, []).append(v)`: append `v` to the list of the first
entry with key `k`, or add a fresh entry `(k, [v])` at the end. -/
def dictAppend (d : LinksDict) (k v : NodeIndex) : LinksDict :=
  match d with
  | [] => [(k, [v])]
  | (k0, vs) :: rest =>
      if k0 = k then (k0, vs ++ [v]) :: rest
      else (k0, vs) :: dictAppend rest k v

/-- The loop body of `Template.__post_init__`: record one undirected link
in both directions. -/
def dictAddLink (d : LinksDict) (e : NodeIndex × NodeIndex) : LinksDict :=
  dictAppend (dictAppend d e.1 e.2) e.2 e.1

/-- `Template.__post_init__`: build the adjacency dictionary from the
plain link list.  No validation of any kind is performed by the source. -/
def buildLinks (plainLinks : List (NodeIndex × NodeIndex)) : LinksDict :=
  plainLinks.foldl dictAddLink []

/-- The `Template` dataclass: inner-room count, outer-door count and the
adjacency dictionary. -/
structure Template where
  rooms : Nat
  doors : Nat
  links : LinksDict

/-- `Template(rooms, doors, plain_links)` — dataclass construction plus
`__post_init__`.  The source performs no range checks. -/
def Template.make (rooms doors : Nat) (plainLinks : List (NodeIndex × NodeIndex)) : Template :=
  ⟨rooms, doors, buildLinks plainLinks⟩

/-- Dictionary lookup `t.links[n]`, with `[]` for a missing key. -/
def Template.linksOf (t : Template) (n : NodeIndex) : List NodeIndex :=
  match t.links.find? (fun p => p.1 = n) with
  | some p => p.2
  | none => []

/-- `Template.all_links`: iterate the dictionary in insertion order and
yield `(node1, node2)` for each stored neighbour `node2` with
`¬ (node2 < node1)`. -/
def Template.all_links (t : Template) : List (NodeIndex × NodeIndex) :=
  t.links.flatMap (fun p =>
    (p.2.filter (fun n2 => ! NodeIndex.ltb n2 p.1)).map (fun n2 => (p.1, n2)))

/-- The validity conditions the spec (section 4.1) attaches to template
construction: `D ∈ [2,20]`, `R ∈ [0,5]`, every edge endpoint has
`room ∈ [0,R]` and `door ∈ [0,D)`.  (The source never checks them.) -/
def validInput (rooms doors : Nat) (plainLinks : List (NodeIndex × NodeIndex)) : Prop :=
  2 ≤ doors ∧ doors ≤ 20 ∧ rooms ≤ 5 ∧
  ∀ e ∈ plainLinks,
    e.1.room ≤ rooms ∧ e.1.door < doors ∧ e.2.room ≤ rooms ∧ e.2.door < doors

instance (rooms doors : Nat) (plainLinks : List (NodeIndex × NodeIndex)) :
    Decidable (validInput rooms doors plainLinks) := by
  unfold validInput; infer_instance

/-! ## DistMatrix state and primitive operations (`dist_matrix.py`) -/

/-- The mutable state of `DistMatrix` during `_fill`: the flat triangular
`_data` array and the `updated_outer_links` frontier.  The Python
frontier is a `set` of int pairs; we keep it as a duplicate-free list so
that the (implementation-defined) pop order can be quantified over. -/
structure St where
  data : List (Option Nat)
  S : List (Nat × Nat)
deriving DecidableEq, Repr

/-- `DistMatrix._get_node_index`: flatten `(room, door)` to
`room * doors + door`. -/
def nodeIdx (doors : Nat) (n : NodeIndex) : Nat :=
  n.room * doors + n.door

/-- `DistMatrix._is_outer_node`. -/
def isOuter (doors idx : Nat) : Bool :=
  idx < doors

/-- `DistMatrix._get_location`: index of the cell for a pair of distinct
node indices in the flat upper-triangle array.  The source first swaps so
that `node1_index ≤ node2_index`; with `i := min`, `j := max` the result
is `total*i - i*(i+1)/2 + (j - i - 1)`.
(For `i = j` the Python expression would be off by one, but the source
never evaluates it there: `_get` short-circuits the diagonal and `_set`
is never called with equal indices.) -/
def getLocation (total n1 n2 : Nat) : Nat :=
  total * min n1 n2 - min n1 n2 * (min n1 n2 + 1) / 2 + (max n1 n2 - min n1 n2 - 1)

/-- `DistMatrix._get`: 0 on the diagonal, else the stored cell. -/
def dmGet (total : Nat) (data : List (Option Nat)) (n1 n2 : Nat) : Option Nat :=
  if n1 = n2 then some 0 else data.getD (getLocation total n1 n2) none

/-- `DistMatrix._set`. -/
def dmSet (total : Nat) (data : List (Option Nat)) (n1 n2 dist : Nat) : List (Option Nat) :=
  data.set (getLocation total n1 n2) (some dist)

/-- Python `set.add`: insert a pair into the frontier unless present. -/
def sAdd (S : List (Nat × Nat)) (p : Nat × Nat) : List (Nat × Nat) :=
  if p ∈ S then S else S ++ [p]

/-- The shared write step of `_add_road` and `_propagate`: store the new
distance and, when both endpoints are outer doors, record the pair in
`updated_outer_links`. -/
def commitSet (doors total n1 n2 dist : Nat) (st : St) : St :=
  ⟨dmSet total st.data n1 n2 dist,
   if isOuter doors n1 && isOuter doors n2 then sAdd st.S (n1, n2) else st.S⟩

/-- The guard `cur_dist is not None and cur_dist <= length` (negated):
`true` when the new length strictly improves the cell. -/
def improves (cur : Option Nat) (len : Nat) : Bool :=
  match cur with
  | some c => len < c
  | none => true

/-- One iteration of the inner (`j`) loop of `DistMatrix._propagate`,
for the fixed row `i` whose distance to `a` is `left`. -/
def propInner (doors total a b len i left : Nat) (st : St) (j : Nat) : St :=
  if j = a ∨ (i = a ∧ j = b) then st
  else
    match dmGet total st.data b j with
    | none => st
    | some right =>
        let dist := left + len + right
        if improves (dmGet total st.data i j) dist
        then commitSet doors total i j dist st
        else st

/-- One iteration of the outer (`i`) loop of `DistMatrix._propagate`:
skip `i = b`, read `left_dist = W[i, a]` once, then run the inner loop. -/
def propRow (doors total a b len : Nat) (st : St) (i : Nat) : St :=
  if i = b then st
  else
    match dmGet total st.data i a with
    | none => st
    | some left => (List.range total).foldl (propInner doors total a b len i left) st

/-- `DistMatrix._propagate(node1_index, node2_index, updated_outer_links, length)`. -/
def propagate (doors total a b len : Nat) (st : St) : St :=
  (List.range total).foldl (propRow doors total a b len) st

/-- `DistMatrix._add_road`: no-op when the current distance is already
known and no larger, otherwise write, push to the frontier when outer,
and propagate. -/
def addRoad (doors total a b len : Nat) (st : St) : St :=
  if improves (dmGet total st.data a b) len
  then propagate doors total a b len (commitSet doors total a b len st)
  else st

/-- The body of the inner-room loop of `_update`: push the popped outer
distance `d` into room `r + 1`. -/
def roomStep (doors total q1 q2 d : Nat) (s : St) (r : Nat) : St :=
  addRoad doors total ((r + 1) * doors + q1) ((r + 1) * doors + q2) d s

/-- `DistMatrix._update`: pop one frontier pair (the pop position is
chosen by the `pick` policy, modelling the arbitrary order of Python
`set.pop`), then push its current distance into every inner room.
(`_update` is only ever invoked with a non-empty frontier; the empty
case is an unreachable guard.) -/
def update (rooms doors total : Nat) (pick : List (Nat × Nat) → Nat) (st : St) : St :=
  if st.S = [] then st
  else
    let k := pick st.S % st.S.length
    let p := st.S.getD k (0, 0)
    let st1 : St := ⟨st.data, st.S.eraseIdx k⟩
    match dmGet total st.data p.1 p.2 with
    | none => st1
    | some d => (List.range rooms).foldl (roomStep doors total p.1 p.2 d) st1

/-- The initial `_data`: `total*(total-1)/2` unknown cells, empty frontier. -/
def initSt (total : Nat) : St :=
  ⟨List.replicate (total * (total - 1) / 2) none, []⟩

/-- The seeding phase of `DistMatrix._fill`: `addRoad(u, v, 1)` for every
explicit template link. -/
def seedPhase (t : Template) : St :=
  t.all_links.foldl
    (fun s e => addRoad t.doors ((t.rooms + 1) * t.doors) (nodeIdx t.doors e.1) (nodeIdx t.doors e.2) 1 s)
    (initSt ((t.rooms + 1) * t.doors))

/-- The `while updated_outer_links:` loop of `_fill`, with explicit fuel;
`none` means the fuel ran out before the frontier drained. -/
def fillLoop (rooms doors total : Nat) (pick : List (Nat × Nat) → Nat) :
    Nat → St → Option St
  | 0, st => if st.S = [] then some st else none
  | n + 1, st => if st.S = [] then some st else fillLoop rooms doors total pick n (update rooms doors total pick st)

/-- `DistMatrix.__init__` / `_fill`: seed, then drain the frontier. -/
def fill (t : Template) (pick : List (Nat × Nat) → Nat) (fuel : Nat) : Option St :=
  fillLoop t.rooms t.doors ((t.rooms + 1) * t.doors) pick fuel (seedPhase t)

/-- `DistMatrix.get(node1, node2)`: the public query on a computed state. -/
def dmGetNode (t : Template) (st : St) (n1 n2 : NodeIndex) : Option Nat :=
  dmGet ((t.rooms + 1) * t.doors) st.data (nodeIdx t.doors n1) (nodeIdx t.doors n2)

/-- The trivial deterministic pop policy (always position 0), used for
concrete runs. -/
def pick0 : List (Nat × Nat) → Nat := fun _ => 0

/-! ## Auxiliary notions used by the statements -/

/-- Addition of optional distances: undefined when either side is. -/
def oadd (x y : Option Nat) : Option Nat :=
  match x, y with
  | some a, some b => some (a + b)
  | _, _ => none

/-- Minimum of optional distances, `none` acting as infinity. -/
def omin (x y : Option Nat) : Option Nat :=
  match x, y with
  | some a, some b => some (min a b)
  | some a, none => some a
  | none, y => y

/-- The relaxation the spec ascribes to one `propagate(a, b, length)`
call, following its words: apply
`W[i,j] = min(W[i,j], W[i,a]+W[a,b]+W[b,j], W[i,b]+W[b,a]+W[a,j])`
to the matrix as it stood on entry, with `W[a,b] = W[b,a] = length`. -/
def specRelax (total : Nat) (data : List (Option Nat)) (a b len i j : Nat) : Option Nat :=
  omin (dmGet total data i j)
    (omin (oadd (dmGet total data i a) (oadd (some len) (dmGet total data b j)))
          (oadd (dmGet total data i b) (oadd (some len) (dmGet total data a j))))

/-- Boolean version of the downward cell order (`none` = unknown acts as
infinity on the right). -/
def oLEb (x y : Option Nat) : Bool :=
  match x, y with
  | _, none => true
  | some w, some v => w ≤ v
  | none, some _ => false

/-- Triangle-closedness of a distance table over indices below `total`:
whenever two sides of a triangle are known, the third is known and at
most their sum.  This is the invariant every matrix reached by the
construction satisfies between `_add_road` calls. -/
def Closed (total : Nat) (data : List (Option Nat)) : Prop :=
  ∀ x, x < total → ∀ y, y < total → ∀ z, z < total →
    oLEb (dmGet total data x z) (oadd (dmGet total data x y) (dmGet total data y z)) = true

instance (total : Nat) (data : List (Option Nat)) : Decidable (Closed total data) := by
  unfold Closed; infer_instance

/-- Start of row `i` inside the flat triangular array (the number of
cells strictly above row `i`). -/
def rowStart (total i : Nat) : Nat :=
  total * i - i * (i + 1) / 2

/-- Order on a single cell: `cellLE x y` says the cell `x` refines `y`
downwards — whatever was known in `y` is still known in `x` and is no
larger ("once set, never unset, never increased"). -/
def cellLE (x y : Option Nat) : Prop :=
  ∀ v, y = some v → ∃ w, x = some w ∧ w ≤ v

/-- Pointwise downward order of two data arrays. -/
def dataLE (d1 d2 : List (Option Nat)) : Prop :=
  ∀ k, cellLE (d1.getD k none) (d2.getD k none)

/-- Properties every write-step of the construction enjoys, relative to
its input state: the matrix only refines downwards, the frontier only
grows, and any change to an outer-pair cell pushes that pair onto the
frontier. -/
def StepOK (doors total : Nat) (st st2 : St) : Prop :=
  dataLE st2.data st.data ∧
  (∀ p, p ∈ st.S → p ∈ st2.S) ∧
  (∀ u v, u < doors → v < doors →
    dmGet total st2.data u v ≠ dmGet total st.data u v →
    (u, v) ∈ st2.S ∨ (v, u) ∈ st2.S) ∧
  (∀ p, p ∈ st2.S → p ∈ st.S ∨ (p.1 < doors ∧ p.2 < doors))

/-- The frontier invariant behind the self-similarity propagation: any
known outer distance is either still pending on the frontier, or every
inner copy already has a distance no larger. -/
def InnerInv (rooms doors total : Nat) (st : St) : Prop :=
  ∀ u v d, u < doors → v < doors → dmGet total st.data u v = some d →
    (((u, v) ∈ st.S ∨ (v, u) ∈ st.S) ∨
     ∀ r, r < rooms →
       ∃ d2, dmGet total st.data ((r + 1) * doors + u) ((r + 1) * doors + v) = some d2 ∧ d2 ≤ d)

/-- Number of still-unknown cells of the flat array (first component of
the termination measure). -/
def countNone (l : List (Option Nat)) : Nat :=
  l.countP (fun x => x.isNone)

/-- Sum of all known distances (second component of the termination
measure). -/
def sumSome (l : List (Option Nat)) : Nat :=
  (l.filterMap id).sum

/-- Dictionary lookup `links[n]` on a bare `LinksDict` (the body of
`Template.linksOf`), with `[]` for a missing key. -/
def dictGet (d : LinksDict) (n : NodeIndex) : List NodeIndex :=
  match d.find? (fun p => p.1 = n) with
  | some p => p.2
  | none => []

/-- The keys of the insertion-ordered adjacency dictionary. -/
def dictKeys (d : LinksDict) : List NodeIndex :=
  d.map (fun p => p.1)

/-- The order-independent constraint system the construction solves:
every explicit link cell is at most 1, the matrix is triangle-closed,
and every inner copy of an outer-door pair is at most the outer pair.
(`cellLE x y` here reads "x is a defined value at most y whenever y is
defined".) -/
def IsSolution (rooms doors : Nat) (t : Template) (N : List (Option Nat)) : Prop :=
  (∀ e ∈ t.all_links,
    cellLE (dmGet ((rooms + 1) * doors) N (nodeIdx doors e.1) (nodeIdx doors e.2)) (some 1)) ∧
  Closed ((rooms + 1) * doors) N ∧
  (∀ u v r, u < doors → v < doors → r < rooms →
    cellLE (dmGet ((rooms + 1) * doors) N ((r + 1) * doors + u) ((r + 1) * doors + v))
      (dmGet ((rooms + 1) * doors) N u v))

/-- `N` lies below `data` in the downward refinement order, on every
in-range pair of node indices. -/
def Dominated (total : Nat) (N data : List (Option Nat)) : Prop :=
  ∀ x y, x < total → y < total → cellLE (dmGet total N x y) (dmGet total data x y)

/-- A second deterministic pop policy (always the last frontier
position), used to witness order-independence against `pick0`. -/
def pickLast : List (Nat × Nat) → Nat := fun l => l.length - 1

/-! ## Spec-side model of the infinite self-similar labyrinth

These definitions follow the problem statement the spec describes (not
the code): they exist solely to state and settle the refinement claim
that the computed matrix equals true shortest distances.  A node of the
infinite labyrinth is a nesting context — the finite sequence of
inner-room choices taken from the outermost level — plus a door
index. -/

abbrev INode : Type := List Nat × Nat

/-- Instantiation of a template node inside nesting context `c`: room 0
denotes the current level's own doors, room `r ≥ 1` a door of its inner
copy `r`. -/
def embed (c : List Nat) (n : NodeIndex) : INode :=
  if n.room = 0 then (c, n.door) else (c ++ [n.room], n.door)

/-- The labyrinth node a materialized flat matrix index denotes. -/
def embIdx (doors x : Nat) : INode :=
  if x / doors = 0 then ([], x % doors) else ([x / doors], x % doors)

/-- The self-similarity isomorphism sending the whole labyrinth onto
its inner copy `j`. -/
def prep (j : Nat) (p : INode) : INode :=
  (j :: p.1, p.2)

/-- A corridor of the infinite labyrinth: some template link
instantiated inside some context, traversable in either direction. -/
def IEdge (pl : List (NodeIndex × NodeIndex)) (x y : INode) : Prop :=
  ∃ c e, e ∈ pl ∧
    ((embed c e.1 = x ∧ embed c e.2 = y) ∨ (embed c e.1 = y ∧ embed c e.2 = x))

/-- A walk of exactly `n` corridors between two labyrinth nodes. -/
inductive Reach (pl : List (NodeIndex × NodeIndex)) : INode → INode → Nat → Prop where
  | refl (x : INode) : Reach pl x x 0
  | step {x y z : INode} {n : Nat} :
      IEdge pl x y → Reach pl y z n → Reach pl x z (n + 1)

/-- A walk all of whose nodes after the start have nesting depth at
most `k`. -/
inductive ReachD (pl : List (NodeIndex × NodeIndex)) (k : Nat) :
    INode → INode → Nat → Prop where
  | refl (x : INode) : ReachD pl k x x 0
  | step {x y z : INode} {n : Nat} :
      IEdge pl x y → y.1.length ≤ k → ReachD pl k y z n → ReachD pl k x z (n + 1)

/-- An undirected template link: the pair occurs in the plain link list
in one orientation or the other. -/
def OEdge (pl : List (NodeIndex × NodeIndex)) (p q : NodeIndex) : Prop :=
  (p, q) ∈ pl ∨ (q, p) ∈ pl

/-- Soundness of a matrix against the labyrinth: every known cell value
is matched by a real walk of at most that length between the denoted
materialized nodes. -/
def Sound (pl : List (NodeIndex × NodeIndex)) (doors total : Nat)
    (data : List (Option Nat)) : Prop :=
  ∀ x y, x < total → y < total → ∀ w, dmGet total data x y = some w →
    ∃ m, m ≤ w ∧ Reach pl (embIdx doors x) (embIdx doors y) m

/-- Concrete template used in several witnesses: one inner room, three
doors, outer path `0 - 2 - 1` plus a direct link between doors 0 and 1
of the inner room. -/
def tEx : Template :=
  Template.make 1 3 [(⟨0, 0⟩, ⟨0, 2⟩), (⟨0, 2⟩, ⟨0, 1⟩), (⟨1, 0⟩, ⟨1, 1⟩)]

/-- The converged state of `tEx` (fuel 100 amply suffices). -/
def stEx : St := (fill tEx pick0 100).getD (initSt 6)

/-- The converged state of `tEx` under the `pickLast` pop policy. -/
def stEx2 : St := (fill tEx pickLast 100).getD (initSt 6)

/-! # Theorems -/

/-- `_get_location` does not depend on the order of the two node indices
(the source swaps them into ascending order first). -/
theorem getLocation_comm (total n1 n2 : Nat) :
    getLocation total n1 n2 = getLocation total n2 n1 := by
  unfold getLocation
  rw [Nat.min_comm, Nat.max_comm]

/-- `_get` is symmetric in its two node indices. -/
theorem dmGet_comm (total : Nat) (data : List (Option Nat)) (n1 n2 : Nat) :
    dmGet total data n1 n2 = dmGet total data n2 n1 := by
  unfold dmGet
  rw [getLocation_comm]
  by_cases h : n1 = n2
  · simp [h]
  · have h2 : ¬ n2 = n1 := fun hc => h hc.symm
    simp [h, h2]

/-- `_set` writes the same array whichever way the pair is given. -/
theorem dmSet_comm (total : Nat) (data : List (Option Nat)) (n1 n2 d : Nat) :
    dmSet total data n1 n2 d = dmSet total data n2 n1 d := by
  unfold dmSet
  rw [getLocation_comm]

/-- Claim C6: at every point during and after construction the distance
table is symmetric — `_get(a, b)` equals `_get(b, a)` on any data array
(hence on every intermediate and final state), `_set` affects the
`(a, b)` and `(b, a)` views identically, and the public `get` inherits
the symmetry. -/
theorem dist_table_symmetric :
    (∀ total data n1 n2, dmGet total data n1 n2 = dmGet total data n2 n1) ∧
    (∀ total data n1 n2 d, dmSet total data n1 n2 d = dmSet total data n2 n1 d) ∧
    (∀ t st n1 n2, dmGetNode t st n1 n2 = dmGetNode t st n2 n1) := by
  refine ⟨dmGet_comm, dmSet_comm, ?_⟩
  intro t st n1 n2
  unfold dmGetNode
  exact dmGet_comm _ _ _ _

/-- Claim C10: the public query flattens both node addresses with
`room * doors + door` and performs no validation, so any two addresses
with the same flattened value are treated as the same node. -/
theorem get_aliases_same_flattened_index (t : Template) (st : St) (n1 n2 m : NodeIndex)
    (h : nodeIdx t.doors n1 = nodeIdx t.doors n2) :
    dmGetNode t st n1 m = dmGetNode t st n2 m := by
  unfold dmGetNode
  rw [h]

/-- Witness for C10, on the converged matrix of `tEx` (3 doors, 1 inner
room): the out-of-range address `(0, 3)` silently aliases `(1, 0)`. -/
theorem get_aliases_same_flattened_index_witness :
    nodeIdx tEx.doors ⟨0, 3⟩ = nodeIdx tEx.doors ⟨1, 0⟩ ∧
    dmGetNode tEx stEx ⟨0, 3⟩ ⟨0, 1⟩ = dmGetNode tEx stEx ⟨1, 0⟩ ⟨0, 1⟩ :=
  ⟨by decide, get_aliases_same_flattened_index tEx stEx ⟨0, 3⟩ ⟨1, 0⟩ ⟨0, 1⟩ (by decide)⟩

/-! ## Monotonicity of the matrix under every construction step -/

theorem cellLE_refl (x : Option Nat) : cellLE x x :=
  fun v hv => ⟨v, hv, Nat.le_refl v⟩

theorem cellLE_trans {x y z : Option Nat} (h1 : cellLE x y) (h2 : cellLE y z) : cellLE x z := by
  intro v hv
  obtain ⟨w, hw, hwv⟩ := h2 v hv
  obtain ⟨u, hu, huw⟩ := h1 w hw
  exact ⟨u, hu, Nat.le_trans huw hwv⟩

theorem dataLE_refl (d : List (Option Nat)) : dataLE d d :=
  fun _ => cellLE_refl _

theorem dataLE_trans {d1 d2 d3 : List (Option Nat)} (h1 : dataLE d1 d2) (h2 : dataLE d2 d3) :
    dataLE d1 d3 :=
  fun k => cellLE_trans (h1 k) (h2 k)

/-- What `_set` does to an arbitrary position of the flat array. -/
theorem getD_dmSet (total : Nat) (data : List (Option Nat)) (n1 n2 d k : Nat) :
    (dmSet total data n1 n2 d).getD k none =
      if getLocation total n1 n2 = k ∧ getLocation total n1 n2 < data.length
      then some d else data.getD k none := by
  unfold dmSet
  rw [List.getD_eq_getElem?_getD, List.getD_eq_getElem?_getD, List.getElem?_set]
  by_cases h1 : getLocation total n1 n2 = k
  · by_cases h2 : getLocation total n1 n2 < data.length
    · rw [if_pos h1, if_pos h2, if_pos ⟨h1, h2⟩]
      rfl
    · rw [if_pos h1, if_neg h2, if_neg (fun hc => h2 hc.2)]
      have hlen : data.length ≤ k := h1 ▸ Nat.le_of_not_lt h2
      rw [List.getElem?_eq_none hlen]
  · rw [if_neg h1, if_neg (fun hc => h1 hc.1)]

/-- If the guard of `_add_road` / the inner loop of `_propagate` passes,
the write refines the matrix downwards. -/
theorem commitSet_dataLE (doors total n1 n2 len : Nat) (st : St)
    (h : improves (dmGet total st.data n1 n2) len = true) :
    dataLE (commitSet doors total n1 n2 len st).data st.data := by
  intro k v hv
  have hd : (commitSet doors total n1 n2 len st).data = dmSet total st.data n1 n2 len := rfl
  rw [hd, getD_dmSet]
  by_cases hk : getLocation total n1 n2 = k ∧ getLocation total n1 n2 < st.data.length
  · refine ⟨len, if_pos hk, ?_⟩
    have hne : n1 ≠ n2 := by
      intro he
      rw [he] at h
      simp [dmGet, improves] at h
    have hget : dmGet total st.data n1 n2 = some v := by
      rw [dmGet, if_neg hne, hk.1, hv]
    rw [hget] at h
    simp only [improves] at h
    exact Nat.le_of_lt (by exact_mod_cast of_decide_eq_true h)
  · rw [if_neg hk]
    exact ⟨v, hv, Nat.le_refl v⟩

theorem propInner_dataLE (doors total a b len i left : Nat) (st : St) (j : Nat) :
    dataLE (propInner doors total a b len i left st j).data st.data := by
  unfold propInner
  by_cases hs : j = a ∨ (i = a ∧ j = b)
  · rw [if_pos hs]; exact dataLE_refl _
  · rw [if_neg hs]
    cases hr : dmGet total st.data b j with
    | none => exact dataLE_refl _
    | some right =>
        by_cases himp : improves (dmGet total st.data i j) (left + len + right) = true
        · simp only [himp, if_true]
          exact commitSet_dataLE doors total i j (left + len + right) st himp
        · simp only [himp, if_false]
          exact dataLE_refl _

/-- Folding a matrix-refining step over any list refines the matrix. -/
theorem foldl_dataLE {β : Type} (f : St → β → St)
    (h : ∀ st x, dataLE (f st x).data st.data) :
    ∀ (l : List β) (st : St), dataLE (l.foldl f st).data st.data := by
  intro l
  induction l with
  | nil => intro st; exact dataLE_refl _
  | cons x xs ih =>
      intro st
      exact dataLE_trans (ih (f st x)) (h st x)

theorem propRow_dataLE (doors total a b len : Nat) (st : St) (i : Nat) :
    dataLE (propRow doors total a b len st i).data st.data := by
  unfold propRow
  by_cases hb : i = b
  · rw [if_pos hb]; exact dataLE_refl _
  · rw [if_neg hb]
    cases hl : dmGet total st.data i a with
    | none => exact dataLE_refl _
    | some left => exact foldl_dataLE _ (propInner_dataLE doors total a b len i left) _ st

theorem propagate_dataLE (doors total a b len : Nat) (st : St) :
    dataLE (propagate doors total a b len st).data st.data :=
  foldl_dataLE _ (propRow_dataLE doors total a b len) _ st

theorem addRoad_dataLE (doors total a b len : Nat) (st : St) :
    dataLE (addRoad doors total a b len st).data st.data := by
  unfold addRoad
  by_cases h : improves (dmGet total st.data a b) len = true
  · rw [if_pos h]
    exact dataLE_trans (propagate_dataLE doors total a b len _)
      (commitSet_dataLE doors total a b len st h)
  · rw [if_neg h]
    exact dataLE_refl _

theorem update_dataLE (rooms doors total : Nat) (pick : List (Nat × Nat) → Nat) (st : St) :
    dataLE (update rooms doors total pick st).data st.data := by
  unfold update
  split
  · exact dataLE_refl _
  · dsimp only
    split
    · exact dataLE_refl _
    · exact foldl_dataLE _ (fun s r => addRoad_dataLE doors total _ _ _ s) _ _

/-! ## Triangular indexing: bounds and injectivity of `_get_location` -/

theorem tri_succ (i : Nat) : (i + 1) * (i + 2) / 2 = i * (i + 1) / 2 + (i + 1) := by
  have h : (i + 1) * (i + 2) = i * (i + 1) + 2 * (i + 1) := by ring
  rw [h, Nat.add_mul_div_left _ _ (by norm_num : (0:Nat) < 2)]

theorem tri_exact (i : Nat) : i * (i + 1) / 2 * 2 = i * (i + 1) :=
  Nat.div_mul_cancel (Nat.even_mul_succ_self i).two_dvd

theorem tri_le (N i : Nat) (h : i ≤ N) : i * (i + 1) / 2 ≤ N * i := by
  rcases Nat.eq_zero_or_pos i with hi | hi
  · subst hi; simp
  · have h1 : i + 1 ≤ 2 * N := by omega
    have h2 : i * (i + 1) ≤ i * (2 * N) := Nat.mul_le_mul_left i h1
    have h3 : i * (2 * N) = N * i * 2 := by ring
    calc i * (i + 1) / 2 ≤ i * (2 * N) / 2 := Nat.div_le_div_right h2
      _ = N * i := by rw [h3, Nat.mul_div_cancel _ (by norm_num)]

theorem rowStart_succ (N i : Nat) (h : i < N) :
    rowStart N (i + 1) = rowStart N i + (N - i - 1) := by
  unfold rowStart
  rw [tri_succ]
  have h2 : i * (i + 1) / 2 ≤ N * i := tri_le N i (Nat.le_of_lt h)
  have h3 : N * (i + 1) = N * i + N := by ring
  rw [h3]
  set m := N * i with hm
  set t := i * (i + 1) / 2 with ht
  omega

theorem rowStart_mono (N : Nat) :
    ∀ i2 i, i ≤ i2 → i2 ≤ N → rowStart N i ≤ rowStart N i2 := by
  intro i2
  induction i2 with
  | zero =>
      intro i h _
      have h0 : i = 0 := Nat.le_zero.mp h
      subst h0
      exact Nat.le_refl _
  | succ k ih =>
      intro i h h2
      by_cases hik : i = k + 1
      · subst hik; exact Nat.le_refl _
      · have hr := ih i (by omega) (by omega)
        rw [rowStart_succ N k (by omega)]
        omega

theorem rowStart_total (total : Nat) :
    rowStart total total = total * (total - 1) / 2 := by
  cases total with
  | zero => rfl
  | succ n =>
      unfold rowStart
      have h1 : (n + 1) * ((n + 1) + 1) / 2 = n * (n + 1) / 2 + (n + 1) := tri_succ n
      have h2 : (n + 1) * (n + 1 - 1) = n * (n + 1) := by
        simp [Nat.mul_comm]
      rw [h1, h2]
      have h3 : n * (n + 1) / 2 * 2 = n * (n + 1) := tri_exact n
      have h4 : (n + 1) * (n + 1) = n * (n + 1) + (n + 1) := by ring
      rw [h4]
      set t := n * (n + 1) / 2 with htdef
      set P := n * (n + 1) with hPdef
      omega

theorem getLocation_eq (total i j : Nat) (h : i < j) :
    getLocation total i j = rowStart total i + (j - i - 1) := by
  unfold getLocation rowStart
  rw [Nat.min_eq_left (Nat.le_of_lt h), Nat.max_eq_right (Nat.le_of_lt h)]

theorem getLocation_lt_next (total i j : Nat) (hij : i < j) (hj : j < total) :
    getLocation total i j < rowStart total (i + 1) := by
  rw [getLocation_eq total i j hij, rowStart_succ total i (by omega)]
  omega

theorem getLocation_lt (total i j : Nat) (hij : i ≠ j) (hi : i < total) (hj : j < total) :
    getLocation total i j < total * (total - 1) / 2 := by
  rcases Nat.lt_or_ge i j with h | h
  · have h1 := getLocation_lt_next total i j h hj
    have h2 := rowStart_mono total total (i + 1) (by omega) (Nat.le_refl total)
    rw [rowStart_total] at h2
    omega
  · have hji : j < i := by omega
    rw [getLocation_comm]
    have h1 := getLocation_lt_next total j i hji hi
    have h2 := rowStart_mono total total (j + 1) (by omega) (Nat.le_refl total)
    rw [rowStart_total] at h2
    omega

theorem getLocation_inj_sorted (total i j i2 j2 : Nat) (h1 : i < j) (h2 : j < total)
    (h3 : i2 < j2) (h4 : j2 < total)
    (heq : getLocation total i j = getLocation total i2 j2) : i = i2 ∧ j = j2 := by
  rcases Nat.lt_trichotomy i i2 with hlt | heqi | hgt
  · exfalso
    have b1 := getLocation_lt_next total i j h1 h2
    have b2 := rowStart_mono total i2 (i + 1) (by omega) (by omega)
    have b3 : rowStart total i2 ≤ getLocation total i2 j2 := by
      rw [getLocation_eq total i2 j2 h3]; omega
    omega
  · subst heqi
    rw [getLocation_eq total i j h1, getLocation_eq total i j2 h3] at heq
    exact ⟨rfl, by omega⟩
  · exfalso
    have b1 := getLocation_lt_next total i2 j2 h3 h4
    have b2 := rowStart_mono total i (i2 + 1) (by omega) (by omega)
    have b3 : rowStart total i ≤ getLocation total i j := by
      rw [getLocation_eq total i j h1]; omega
    omega

theorem getLocation_sorted (total x y : Nat) :
    getLocation total x y = getLocation total (min x y) (max x y) := by
  rcases Nat.le_total x y with h | h
  · rw [Nat.min_eq_left h, Nat.max_eq_right h]
  · rw [Nat.min_eq_right h, Nat.max_eq_left h, getLocation_comm]

/-- Full injectivity: two in-range pairs of distinct indices share a cell
only if they are the same unordered pair. -/
theorem getLocation_eq_iff (total x y a b : Nat) (hxy : x ≠ y) (hab : a ≠ b)
    (hx : x < total) (hy : y < total) (ha : a < total) (hb : b < total) :
    getLocation total x y = getLocation total a b ↔
      (x = a ∧ y = b) ∨ (x = b ∧ y = a) := by
  constructor
  · intro heq
    rw [getLocation_sorted total x y, getLocation_sorted total a b] at heq
    have hs := getLocation_inj_sorted total (min x y) (max x y) (min a b) (max a b)
      (by omega) (by omega) (by omega) (by omega) heq
    omega
  · intro hc
    rcases hc with ⟨hc1, hc2⟩ | ⟨hc1, hc2⟩
    · rw [hc1, hc2]
    · rw [hc1, hc2, getLocation_comm]

/-- Reading the matrix right after the `_set` performed by `_add_road`
(or by the inner loop of `_propagate`): the written pair reads back the
written length, every other in-range pair is untouched. -/
theorem dmGet_commitSet (doors total a b len x y : Nat) (st : St)
    (hlen : st.data.length = total * (total - 1) / 2)
    (ha : a < total) (hb : b < total) (hab : a ≠ b)
    (hx : x < total) (hy : y < total) :
    dmGet total (commitSet doors total a b len st).data x y =
      if (x = a ∧ y = b) ∨ (x = b ∧ y = a) then some len
      else dmGet total st.data x y := by
  have hdata : (commitSet doors total a b len st).data = dmSet total st.data a b len := rfl
  by_cases hxy : x = y
  · have hne : ¬ ((x = a ∧ y = b) ∨ (x = b ∧ y = a)) := by omega
    rw [if_neg hne]
    subst hxy
    unfold dmGet
    rw [if_pos rfl, if_pos rfl]
  · rw [hdata]
    unfold dmGet
    rw [if_neg hxy, if_neg hxy, getD_dmSet]
    by_cases hc : (x = a ∧ y = b) ∨ (x = b ∧ y = a)
    · rw [if_pos hc]
      have hloceq : getLocation total a b = getLocation total x y :=
        ((getLocation_eq_iff total a b x y hab hxy ha hb hx hy).mpr (by omega))
      have hrange : getLocation total a b < st.data.length := by
        rw [hlen]; exact getLocation_lt total a b hab ha hb
      rw [if_pos ⟨hloceq, hrange⟩]
    · rw [if_neg hc, if_neg ?hne]
      case hne =>
        intro hcc
        exact hc (((getLocation_eq_iff total a b x y hab hxy ha hb hx hy).mp hcc.1).imp
          (fun h => ⟨h.1.symm, h.2.symm⟩) (fun h => ⟨h.2.symm, h.1.symm⟩))

/-- `_get` respects the pointwise downward order. -/
theorem dmGet_cellLE (total : Nat) {d1 d2 : List (Option Nat)} (h : dataLE d1 d2) (i j : Nat) :
    cellLE (dmGet total d1 i j) (dmGet total d2 i j) := by
  by_cases hij : i = j
  · unfold dmGet
    rw [if_pos hij, if_pos hij]
    exact cellLE_refl _
  · unfold dmGet
    rw [if_neg hij, if_neg hij]
    exact h _

/-! ## Option arithmetic helpers -/

theorem oLEb_iff (x y : Option Nat) : oLEb x y = true ↔ cellLE x y := by
  cases x with
  | none =>
      cases y with
      | none => simp [oLEb, cellLE]
      | some v => simp [oLEb, cellLE]
  | some w =>
      cases y with
      | none => simp [oLEb, cellLE]
      | some v =>
          simp only [oLEb, decide_eq_true_eq, cellLE]
          constructor
          · intro h v2 hv2
            refine ⟨w, rfl, ?_⟩
            cases hv2
            exact h
          · intro h
            obtain ⟨w2, hw2, hle⟩ := h v rfl
            cases hw2
            exact hle

theorem omin_cellLE_left (x y : Option Nat) : cellLE (omin x y) x := by
  intro v hv
  cases x with
  | none => cases hv
  | some p =>
      cases hv
      cases y with
      | none => exact ⟨v, rfl, Nat.le_refl v⟩
      | some q => exact ⟨min v q, rfl, Nat.min_le_left v q⟩

theorem omin_cellLE_right (x y : Option Nat) : cellLE (omin x y) y := by
  intro v hv
  cases y with
  | none => cases hv
  | some q =>
      cases hv
      cases x with
      | none => exact ⟨v, rfl, Nat.le_refl v⟩
      | some p => exact ⟨min p v, rfl, Nat.min_le_right p v⟩

theorem omin_some (x y : Option Nat) (u : Nat) (h : omin x y = some u) :
    x = some u ∨ y = some u := by
  cases x with
  | none => right; simpa [omin] using h
  | some a =>
      cases y with
      | none => left; simpa [omin] using h
      | some b =>
          simp only [omin, Option.some.injEq] at h
          rcases Nat.le_total a b with hab | hab
          · left; rw [Nat.min_eq_left hab] at h; rw [h]
          · right; rw [Nat.min_eq_right hab] at h; rw [h]

theorem cellLE_omin {x y z : Option Nat} (hy : cellLE x y) (hz : cellLE x z) :
    cellLE x (omin y z) := by
  intro v hv
  rcases omin_some y z v hv with hc | hc
  · exact hy v hc
  · exact hz v hc

theorem oadd_some (x y : Option Nat) (u : Nat) :
    oadd x y = some u ↔ ∃ p q, x = some p ∧ y = some q ∧ u = p + q := by
  constructor
  · intro h
    cases x with
    | none => simp [oadd] at h
    | some p =>
        cases y with
        | none => simp [oadd] at h
        | some q =>
            simp only [oadd, Option.some.injEq] at h
            exact ⟨p, q, rfl, rfl, h.symm⟩
  · rintro ⟨p, q, rfl, rfl, rfl⟩
    rfl

theorem oadd3_comm (l : Nat) (x y : Option Nat) :
    oadd x (oadd (some l) y) = oadd y (oadd (some l) x) := by
  cases x with
  | none => cases y <;> rfl
  | some p =>
      cases y with
      | none => rfl
      | some q =>
          simp only [oadd, Option.some.injEq]
          omega

theorem improves_eq_false (x : Option Nat) (len : Nat) (h : improves x len = false) :
    ∃ c, x = some c ∧ c ≤ len := by
  cases x with
  | none => simp [improves] at h
  | some c =>
      simp only [improves, decide_eq_false_iff_not, Nat.not_lt] at h
      exact ⟨c, rfl, h⟩

theorem improves_self_ne (total : Nat) (data : List (Option Nat)) (i j len : Nat)
    (h : improves (dmGet total data i j) len = true) : i ≠ j := by
  intro he
  subst he
  unfold dmGet at h
  rw [if_pos rfl] at h
  simp [improves] at h

/-! ## Data length is preserved by every operation -/

theorem length_commitSet (doors total n1 n2 d : Nat) (st : St) :
    (commitSet doors total n1 n2 d st).data.length = st.data.length :=
  List.length_set st.data _ _

theorem foldl_length {β : Type} (f : St → β → St)
    (h : ∀ st x, (f st x).data.length = st.data.length) :
    ∀ (l : List β) (st : St), (l.foldl f st).data.length = st.data.length := by
  intro l
  induction l with
  | nil => intro st; rfl
  | cons x xs ih => intro st; rw [List.foldl_cons, ih (f st x), h st x]

theorem length_propInner (doors total a b len i left : Nat) (st : St) (j : Nat) :
    (propInner doors total a b len i left st j).data.length = st.data.length := by
  unfold propInner
  split
  · rfl
  · split
    · rfl
    · dsimp only
      split
      · exact length_commitSet _ _ _ _ _ _
      · rfl

theorem length_propRow (doors total a b len : Nat) (st : St) (i : Nat) :
    (propRow doors total a b len st i).data.length = st.data.length := by
  unfold propRow
  split
  · rfl
  · split
    · rfl
    · exact foldl_length _ (length_propInner doors total a b len i _) _ st

theorem length_propagate (doors total a b len : Nat) (st : St) :
    (propagate doors total a b len st).data.length = st.data.length :=
  foldl_length _ (length_propRow doors total a b len) _ st

theorem length_addRoad (doors total a b len : Nat) (st : St) :
    (addRoad doors total a b len st).data.length = st.data.length := by
  unfold addRoad
  split
  · rw [length_propagate, length_commitSet]
  · rfl

/-! ## Reduction equations for the loop bodies -/

theorem propInner_eq_of_some (doors total a b len i left : Nat) (st : St) (j right : Nat)
    (hskip : ¬(j = a ∨ (i = a ∧ j = b))) (hr : dmGet total st.data b j = some right) :
    propInner doors total a b len i left st j =
      if improves (dmGet total st.data i j) (left + len + right) = true
      then commitSet doors total i j (left + len + right) st else st := by
  unfold propInner
  rw [if_neg hskip, hr]

theorem propRow_eq_of_some (doors total a b len : Nat) (st : St) (i left : Nat)
    (hib : i ≠ b) (hl : dmGet total st.data i a = some left) :
    propRow doors total a b len st i =
      (List.range total).foldl (propInner doors total a b len i left) st := by
  unfold propRow
  rw [if_neg hib, hl]

theorem addRoad_eq_of_improves (doors total a b len : Nat) (st : St)
    (h : improves (dmGet total st.data a b) len = true) :
    addRoad doors total a b len st =
      propagate doors total a b len (commitSet doors total a b len st) := by
  unfold addRoad
  rw [if_pos h]

/-! ## Upper bound: `_propagate` relaxes at least as much as the spec formula -/

theorem colsFold_le (doors total a b len i va j : Nat)
    (hja : j ≠ a) (hnab : ¬(i = a ∧ j = b)) (hit : i < total) (hjt : j < total) :
    ∀ (cols : List Nat) (st : St), j ∈ cols →
      st.data.length = total * (total - 1) / 2 →
      ∀ vb, dmGet total st.data b j = some vb →
      ∃ w, dmGet total (cols.foldl (propInner doors total a b len i va) st).data i j = some w
            ∧ w ≤ va + len + vb := by
  intro cols
  induction cols with
  | nil => intro st hmem; exact absurd hmem (List.not_mem_nil j)
  | cons c rest ih =>
      intro st hmem hlen vb hvb
      rw [List.foldl_cons]
      by_cases hcr : j ∈ rest
      · have hlen2 : (propInner doors total a b len i va st c).data.length =
            total * (total - 1) / 2 := by
          rw [length_propInner]; exact hlen
        obtain ⟨vb2, hvb2, hvb2le⟩ :=
          dmGet_cellLE total
            (propInner_dataLE doors total a b len i va st c) b j vb hvb
        obtain ⟨w, hw, hwle⟩ := ih (propInner doors total a b len i va st c) hcr hlen2 vb2 hvb2
        exact ⟨w, hw, by omega⟩
      · have hc : j = c := by
          rcases List.mem_cons.mp hmem with h | h
          · exact h
          · exact absurd h hcr
        subst hc
        have hstep : ∃ u, dmGet total (propInner doors total a b len i va st j).data i j = some u
            ∧ u ≤ va + len + vb := by
          rw [propInner_eq_of_some doors total a b len i va st j vb (by tauto) hvb]
          by_cases himp : improves (dmGet total st.data i j) (va + len + vb) = true
          · rw [if_pos himp]
            have hij : i ≠ j := improves_self_ne total st.data i j _ himp
            have hget := dmGet_commitSet doors total i j (va + len + vb) i j st hlen
              hit hjt hij hit hjt
            rw [if_pos (Or.inl ⟨rfl, rfl⟩)] at hget
            exact ⟨va + len + vb, hget, Nat.le_refl _⟩
          · rw [if_neg himp]
            obtain ⟨cur, hcur, hcurle⟩ :=
              improves_eq_false _ _ (Bool.eq_false_iff.mpr himp)
            exact ⟨cur, hcur, hcurle⟩
        obtain ⟨u, hu, hule⟩ := hstep
        obtain ⟨w, hw, hwle⟩ :=
          dmGet_cellLE total
            (foldl_dataLE _ (propInner_dataLE doors total a b len i va) rest _) i j u hu
        exact ⟨w, hw, by omega⟩

theorem rowsFold_le (doors total a b len i j : Nat)
    (hib : i ≠ b) (hja : j ≠ a) (hnab : ¬(i = a ∧ j = b)) (hit : i < total) (hjt : j < total) :
    ∀ (rows : List Nat) (st : St), i ∈ rows →
      st.data.length = total * (total - 1) / 2 →
      ∀ va vb, dmGet total st.data i a = some va → dmGet total st.data b j = some vb →
      ∃ w, dmGet total (rows.foldl (propRow doors total a b len) st).data i j = some w
            ∧ w ≤ va + len + vb := by
  intro rows
  induction rows with
  | nil => intro st hmem; exact absurd hmem (List.not_mem_nil i)
  | cons r rest ih =>
      intro st hmem hlen va vb hva hvb
      rw [List.foldl_cons]
      by_cases hir : i ∈ rest
      · have hlen2 : (propRow doors total a b len st r).data.length =
            total * (total - 1) / 2 := by
          rw [length_propRow]; exact hlen
        obtain ⟨va2, hva2, hva2le⟩ :=
          dmGet_cellLE total (propRow_dataLE doors total a b len st r) i a va hva
        obtain ⟨vb2, hvb2, hvb2le⟩ :=
          dmGet_cellLE total (propRow_dataLE doors total a b len st r) b j vb hvb
        obtain ⟨w, hw, hwle⟩ := ih (propRow doors total a b len st r) hir hlen2 va2 vb2 hva2 hvb2
        exact ⟨w, hw, by omega⟩
      · have hr : i = r := by
          rcases List.mem_cons.mp hmem with h | h
          · exact h
          · exact absurd h hir
        subst hr
        rw [propRow_eq_of_some doors total a b len st i va hib hva]
        obtain ⟨u, hu, hule⟩ := colsFold_le doors total a b len i va j hja hnab hit hjt
          (List.range total) st (List.mem_range.mpr hjt) hlen vb hvb
        obtain ⟨w, hw, hwle⟩ :=
          dmGet_cellLE total
            (foldl_dataLE _ (propRow_dataLE doors total a b len) rest _) i j u hu
        exact ⟨w, hw, by omega⟩

theorem propagate_le_T2 (doors total a b len : Nat) (st : St)
    (hlen : st.data.length = total * (total - 1) / 2)
    (hWab : dmGet total st.data a b = some len)
    (i j : Nat) (hit : i < total) (hjt : j < total) :
    cellLE (dmGet total (propagate doors total a b len st).data i j)
           (oadd (dmGet total st.data i a) (oadd (some len) (dmGet total st.data b j))) := by
  intro v hv
  obtain ⟨va, rest1, hva, hrest1, hveq⟩ := (oadd_some _ _ _).mp hv
  obtain ⟨lv, vb, hlv, hvb, hresteq⟩ := (oadd_some _ _ _).mp hrest1
  have hlv2 : lv = len := (Option.some.inj hlv).symm
  subst hresteq
  subst hveq
  by_cases hij : i = j
  · refine ⟨0, ?_, by omega⟩
    unfold dmGet
    rw [if_pos hij]
  · by_cases hib : i = b
    · have hva2 : va = len := by
        rw [hib] at hva
        rw [dmGet_comm] at hva
        rw [hva] at hWab
        exact Option.some.inj hWab
      have hvb2 : dmGet total st.data i j = some vb := by rw [hib]; exact hvb
      obtain ⟨w, hw, hwle⟩ :=
        dmGet_cellLE total (propagate_dataLE doors total a b len st) i j vb hvb2
      exact ⟨w, hw, by omega⟩
    · by_cases hja : j = a
      · have hvb3 : vb = len := by
          rw [hja] at hvb
          rw [dmGet_comm] at hvb
          rw [hvb] at hWab
          exact Option.some.inj hWab
        have hva3 : dmGet total st.data i j = some va := by rw [hja]; exact hva
        obtain ⟨w, hw, hwle⟩ :=
          dmGet_cellLE total (propagate_dataLE doors total a b len st) i j va hva3
        exact ⟨w, hw, by omega⟩
      · by_cases hnab : i = a ∧ j = b
        · have hva2 : va = 0 := by
            rw [hnab.1] at hva
            unfold dmGet at hva
            rw [if_pos rfl] at hva
            exact (Option.some.inj hva).symm
          have hvb2 : vb = 0 := by
            rw [hnab.2] at hvb
            unfold dmGet at hvb
            rw [if_pos rfl] at hvb
            exact (Option.some.inj hvb).symm
          have hWij : dmGet total st.data i j = some len := by
            rw [hnab.1, hnab.2]; exact hWab
          obtain ⟨w, hw, hwle⟩ :=
            dmGet_cellLE total (propagate_dataLE doors total a b len st) i j len hWij
          exact ⟨w, hw, by omega⟩
        · obtain ⟨w, hw, hwle⟩ := rowsFold_le doors total a b len i j hib hja hnab hit hjt
            (List.range total) st (List.mem_range.mpr hit) hlen va vb hva hvb
          exact ⟨w, hw, by omega⟩

theorem propagate_le_relax (doors total a b len : Nat) (st : St)
    (hlen : st.data.length = total * (total - 1) / 2)
    (hWab : dmGet total st.data a b = some len)
    (i j : Nat) (hit : i < total) (hjt : j < total) :
    cellLE (dmGet total (propagate doors total a b len st).data i j)
           (specRelax total st.data a b len i j) := by
  unfold specRelax
  apply cellLE_omin
  · exact dmGet_cellLE total (propagate_dataLE doors total a b len st) i j
  · apply cellLE_omin
    · exact propagate_le_T2 doors total a b len st hlen hWab i j hit hjt
    · have h1 : dmGet total (propagate doors total a b len st).data i j
          = dmGet total (propagate doors total a b len st).data j i := dmGet_comm _ _ _ _
      have h2 : oadd (dmGet total st.data i b) (oadd (some len) (dmGet total st.data a j))
          = oadd (dmGet total st.data j a) (oadd (some len) (dmGet total st.data b i)) := by
        rw [oadd3_comm]
        rw [dmGet_comm total st.data a j, dmGet_comm total st.data i b]
      rw [h1, h2]
      exact propagate_le_T2 doors total a b len st hlen hWab j i hjt hit

/-! ## The spec relaxation formula: basic bounds -/

theorem specRelax_le_direct (total : Nat) (data : List (Option Nat)) (a b len x y : Nat) :
    cellLE (specRelax total data a b len x y) (dmGet total data x y) := by
  unfold specRelax
  exact omin_cellLE_left _ _

theorem specRelax_le_T2 (total : Nat) (data : List (Option Nat)) (a b len x y : Nat) :
    cellLE (specRelax total data a b len x y)
      (oadd (dmGet total data x a) (oadd (some len) (dmGet total data b y))) := by
  unfold specRelax
  exact cellLE_trans (omin_cellLE_right _ _) (omin_cellLE_left _ _)

theorem specRelax_le_T3 (total : Nat) (data : List (Option Nat)) (a b len x y : Nat) :
    cellLE (specRelax total data a b len x y)
      (oadd (dmGet total data x b) (oadd (some len) (dmGet total data a y))) := by
  unfold specRelax
  exact cellLE_trans (omin_cellLE_right _ _) (omin_cellLE_right _ _)

theorem specRelax_some_cases (total : Nat) (data : List (Option Nat)) (a b len x y u : Nat)
    (h : specRelax total data a b len x y = some u) :
    dmGet total data x y = some u ∨
    oadd (dmGet total data x a) (oadd (some len) (dmGet total data b y)) = some u ∨
    oadd (dmGet total data x b) (oadd (some len) (dmGet total data a y)) = some u := by
  unfold specRelax at h
  rcases omin_some _ _ _ h with h1 | h2
  · exact Or.inl h1
  · rcases omin_some _ _ _ h2 with h3 | h4
    · exact Or.inr (Or.inl h3)
    · exact Or.inr (Or.inr h4)

theorem specRelax_diag (total : Nat) (data : List (Option Nat)) (a b len x : Nat) :
    specRelax total data a b len x x = some 0 := by
  have hd : dmGet total data x x = some 0 := by unfold dmGet; rw [if_pos rfl]
  obtain ⟨w, hw, hle⟩ := specRelax_le_direct total data a b len x x 0 hd
  have hw0 : w = 0 := Nat.le_zero.mp hle
  rw [hw0] at hw
  exact hw

/-- Unfolded form of the closure property. -/
theorem closed_tri {total : Nat} {data : List (Option Nat)} (hc : Closed total data)
    {x y z : Nat} (hx : x < total) (hy : y < total) (hz : z < total)
    {u v : Nat} (hxy : dmGet total data x y = some u) (hyz : dmGet total data y z = some v) :
    ∃ w, dmGet total data x z = some w ∧ w ≤ u + v := by
  have h := hc x hx y hy z hz
  rw [oLEb_iff] at h
  have h2 : oadd (dmGet total data x y) (dmGet total data y z) = some (u + v) := by
    rw [hxy, hyz]; rfl
  exact h (u + v) h2

/-! ## Closure of the relaxed matrix

Throughout this part, `st0` is the matrix before `_add_road` writes the
improved entry `W[a,b] = len`, and `st1` is the matrix just after that
write (characterized by `hchar`).  The goal is to show that the spec's
relaxation formula applied to `st1` yields a triangle-closed matrix
whenever `st0` was triangle-closed. -/

theorem relax_T2_bound {total a b len : Nat} {st1 : St} (x z p q : Nat)
    (hp : dmGet total st1.data x a = some p) (hq : dmGet total st1.data b z = some q) :
    ∃ w, specRelax total st1.data a b len x z = some w ∧ w ≤ p + len + q := by
  have hT2 : oadd (dmGet total st1.data x a) (oadd (some len) (dmGet total st1.data b z))
      = some (p + (len + q)) := by rw [hp, hq]; rfl
  obtain ⟨w, hw, hwle⟩ := specRelax_le_T2 total st1.data a b len x z _ hT2
  exact ⟨w, hw, by omega⟩

theorem relax_T3_bound {total a b len : Nat} {st1 : St} (x z p q : Nat)
    (hp : dmGet total st1.data x b = some p) (hq : dmGet total st1.data a z = some q) :
    ∃ w, specRelax total st1.data a b len x z = some w ∧ w ≤ p + len + q := by
  have hT3 : oadd (dmGet total st1.data x b) (oadd (some len) (dmGet total st1.data a z))
      = some (p + (len + q)) := by rw [hp, hq]; rfl
  obtain ⟨w, hw, hwle⟩ := specRelax_le_T3 total st1.data a b len x z _ hT3
  exact ⟨w, hw, by omega⟩

theorem Gdiag_eq {total : Nat} {st1 : St} (x : Nat) :
    dmGet total st1.data x x = some 0 := by
  unfold dmGet; rw [if_pos rfl]

theorem Gab_eq {total a b len : Nat} {st0 st1 : St}
    (ha : a < total) (hb : b < total)
    (hchar : ∀ x y, x < total → y < total →
      dmGet total st1.data x y =
        if (x = a ∧ y = b) ∨ (x = b ∧ y = a) then some len else dmGet total st0.data x y) :
    dmGet total st1.data a b = some len := by
  rw [hchar a b ha hb, if_pos (Or.inl ⟨rfl, rfl⟩)]

theorem Gba_eq {total a b len : Nat} {st0 st1 : St}
    (ha : a < total) (hb : b < total)
    (hchar : ∀ x y, x < total → y < total →
      dmGet total st1.data x y =
        if (x = a ∧ y = b) ∨ (x = b ∧ y = a) then some len else dmGet total st0.data x y) :
    dmGet total st1.data b a = some len := by
  rw [hchar b a hb ha, if_pos (Or.inr ⟨rfl, rfl⟩)]

theorem Gspec_eq {total a b len : Nat} {st0 st1 : St}
    (hchar : ∀ x y, x < total → y < total →
      dmGet total st1.data x y =
        if (x = a ∧ y = b) ∨ (x = b ∧ y = a) then some len else dmGet total st0.data x y)
    (x y : Nat) (hx : x < total) (hy : y < total)
    (hns : ¬((x = a ∧ y = b) ∨ (x = b ∧ y = a))) :
    dmGet total st1.data x y = dmGet total st0.data x y := by
  rw [hchar x y hx hy, if_neg hns]

/-- Prepending a direct hop: from edges `x - y` and `y - z` of the
written matrix, the relaxed matrix connects `x` and `z` within their
sum. -/
theorem relax_tri_hop {total a b len : Nat} {st0 st1 : St}
    (ha : a < total) (hb : b < total)
    (hchar : ∀ x y, x < total → y < total →
      dmGet total st1.data x y =
        if (x = a ∧ y = b) ∨ (x = b ∧ y = a) then some len else dmGet total st0.data x y)
    (hGle : dataLE st1.data st0.data) (hc0 : Closed total st0.data)
    (x y z : Nat) (hx : x < total) (hy : y < total) (hz : z < total)
    (g h : Nat) (hgxy : dmGet total st1.data x y = some g)
    (hgyz : dmGet total st1.data y z = some h) :
    ∃ w, specRelax total st1.data a b len x z = some w ∧ w ≤ g + h := by
  by_cases h1 : (x = a ∧ y = b) ∨ (x = b ∧ y = a)
  · rcases h1 with ⟨hxa, hyb⟩ | ⟨hxb, hya⟩
    · have hg2 : g = len := by
        rw [hxa, hyb] at hgxy
        rw [Gab_eq ha hb hchar] at hgxy
        exact (Option.some.inj hgxy).symm
      have hbz : dmGet total st1.data b z = some h := by rw [← hyb]; exact hgyz
      have hxa2 : dmGet total st1.data x a = some 0 := by rw [hxa]; exact Gdiag_eq a
      obtain ⟨w, hw, hwle⟩ := relax_T2_bound x z 0 h hxa2 hbz
      exact ⟨w, hw, by omega⟩
    · have hg2 : g = len := by
        rw [hxb, hya] at hgxy
        rw [Gba_eq ha hb hchar] at hgxy
        exact (Option.some.inj hgxy).symm
      have haz : dmGet total st1.data a z = some h := by rw [← hya]; exact hgyz
      have hxb2 : dmGet total st1.data x b = some 0 := by rw [hxb]; exact Gdiag_eq b
      obtain ⟨w, hw, hwle⟩ := relax_T3_bound x z 0 h hxb2 haz
      exact ⟨w, hw, by omega⟩
  · by_cases h2 : (y = a ∧ z = b) ∨ (y = b ∧ z = a)
    · rcases h2 with ⟨hya, hzb⟩ | ⟨hyb, hza⟩
      · have hh2 : h = len := by
          rw [hya, hzb] at hgyz
          rw [Gab_eq ha hb hchar] at hgyz
          exact (Option.some.inj hgyz).symm
        have hxa2 : dmGet total st1.data x a = some g := by rw [← hya]; exact hgxy
        have hbz : dmGet total st1.data b z = some 0 := by rw [hzb]; exact Gdiag_eq b
        obtain ⟨w, hw, hwle⟩ := relax_T2_bound x z g 0 hxa2 hbz
        exact ⟨w, hw, by omega⟩
      · have hh2 : h = len := by
          rw [hyb, hza] at hgyz
          rw [Gba_eq ha hb hchar] at hgyz
          exact (Option.some.inj hgyz).symm
        have hxb2 : dmGet total st1.data x b = some g := by rw [← hyb]; exact hgxy
        have haz : dmGet total st1.data a z = some 0 := by rw [hza]; exact Gdiag_eq a
        obtain ⟨w, hw, hwle⟩ := relax_T3_bound x z g 0 hxb2 haz
        exact ⟨w, hw, by omega⟩
    · have hW0xy : dmGet total st0.data x y = some g := by
        rw [← Gspec_eq hchar x y hx hy h1]; exact hgxy
      have hW0yz : dmGet total st0.data y z = some h := by
        rw [← Gspec_eq hchar y z hy hz h2]; exact hgyz
      obtain ⟨s, hs, hsle⟩ := closed_tri hc0 hx hy hz hW0xy hW0yz
      obtain ⟨s2, hs2, hs2le⟩ := dmGet_cellLE total hGle x z s hs
      obtain ⟨w, hw, hwle⟩ := specRelax_le_direct total st1.data a b len x z s2 hs2
      exact ⟨w, hw, by omega⟩

/-- Absorbing a relaxed route that starts at `b`, behind an edge into
`a`: realizes the composite route `x - a - b - ... - z`. -/
theorem relax_absorb_b {total a b len : Nat} {st0 st1 : St}
    (ha : a < total) (hb : b < total) (hab : a ≠ b)
    (hchar : ∀ x y, x < total → y < total →
      dmGet total st1.data x y =
        if (x = a ∧ y = b) ∨ (x = b ∧ y = a) then some len else dmGet total st0.data x y)
    (hGle : dataLE st1.data st0.data) (hc0 : Closed total st0.data)
    (x z : Nat) (hx : x < total) (hz : z < total)
    (p m : Nat) (hp : dmGet total st1.data x a = some p)
    (hm : specRelax total st1.data a b len b z = some m) :
    ∃ w, specRelax total st1.data a b len x z = some w ∧ w ≤ p + len + m := by
  rcases specRelax_some_cases total st1.data a b len b z m hm with h1 | h2 | h3
  · exact relax_T2_bound x z p m hp h1
  · obtain ⟨p2, r2, hp2, hr2, hmeq⟩ := (oadd_some _ _ _).mp h2
    obtain ⟨l2, q2, hl2, hq2, hreq⟩ := (oadd_some _ _ _).mp hr2
    have hl2e : l2 = len := (Option.some.inj hl2).symm
    have hp2e : p2 = len := by
      rw [Gba_eq ha hb hchar] at hp2
      exact (Option.some.inj hp2).symm
    obtain ⟨m2, hm2, hm2le⟩ := specRelax_le_direct total st1.data a b len b z q2 hq2
    rw [hm] at hm2
    have hmm2 : m = m2 := Option.some.inj hm2
    have hq2m : q2 = m := by omega
    rw [hq2m] at hq2
    exact relax_T2_bound x z p m hp hq2
  · obtain ⟨p3, r3, hp3, hr3, hmeq⟩ := (oadd_some _ _ _).mp h3
    obtain ⟨l3, q3, hl3, hq3, hreq⟩ := (oadd_some _ _ _).mp hr3
    have hl3e : l3 = len := (Option.some.inj hl3).symm
    have hp3e : p3 = 0 := by
      rw [Gdiag_eq] at hp3
      exact (Option.some.inj hp3).symm
    by_cases hxb : x = b
    · refine ⟨m, ?_, by omega⟩
      rw [hxb]; exact hm
    · by_cases hzb : z = b
      · obtain ⟨w, hw, hwle⟩ := relax_T2_bound x z p 0 hp
          (show dmGet total st1.data b z = some 0 by rw [hzb]; exact Gdiag_eq b)
        exact ⟨w, hw, by omega⟩
      · have hW0xa : dmGet total st0.data x a = some p := by
          rw [← Gspec_eq hchar x a hx ha ?hns]; exact hp
          case hns => rintro (⟨-, hE⟩ | ⟨hE, -⟩); exact hab hE; exact hxb hE
        have hW0az : dmGet total st0.data a z = some q3 := by
          rw [← Gspec_eq hchar a z ha hz ?hns2]; exact hq3
          case hns2 => rintro (⟨-, hE⟩ | ⟨hE, -⟩); exact hzb hE; exact hab hE
        obtain ⟨s, hs, hsle⟩ := closed_tri hc0 hx ha hz hW0xa hW0az
        obtain ⟨s2, hs2, hs2le⟩ := dmGet_cellLE total hGle x z s hs
        obtain ⟨w, hw, hwle⟩ := specRelax_le_direct total st1.data a b len x z s2 hs2
        exact ⟨w, hw, by omega⟩

/-- Mirror of the previous lemma: absorbing a relaxed route that starts
at `a`, behind an edge into `b`. -/
theorem relax_absorb_a {total a b len : Nat} {st0 st1 : St}
    (ha : a < total) (hb : b < total) (hab : a ≠ b)
    (hchar : ∀ x y, x < total → y < total →
      dmGet total st1.data x y =
        if (x = a ∧ y = b) ∨ (x = b ∧ y = a) then some len else dmGet total st0.data x y)
    (hGle : dataLE st1.data st0.data) (hc0 : Closed total st0.data)
    (x z : Nat) (hx : x < total) (hz : z < total)
    (p m : Nat) (hp : dmGet total st1.data x b = some p)
    (hm : specRelax total st1.data a b len a z = some m) :
    ∃ w, specRelax total st1.data a b len x z = some w ∧ w ≤ p + len + m := by
  rcases specRelax_some_cases total st1.data a b len a z m hm with h1 | h2 | h3
  · exact relax_T3_bound x z p m hp h1
  · obtain ⟨p2, r2, hp2, hr2, hmeq⟩ := (oadd_some _ _ _).mp h2
    obtain ⟨l2, q2, hl2, hq2, hreq⟩ := (oadd_some _ _ _).mp hr2
    have hl2e : l2 = len := (Option.some.inj hl2).symm
    have hp2e : p2 = 0 := by
      rw [Gdiag_eq] at hp2
      exact (Option.some.inj hp2).symm
    by_cases hxa : x = a
    · refine ⟨m, ?_, by omega⟩
      rw [hxa]; exact hm
    · by_cases hza : z = a
      · obtain ⟨w, hw, hwle⟩ := relax_T3_bound x z p 0 hp
          (show dmGet total st1.data a z = some 0 by rw [hza]; exact Gdiag_eq a)
        exact ⟨w, hw, by omega⟩
      · have hW0xb : dmGet total st0.data x b = some p := by
          rw [← Gspec_eq hchar x b hx hb ?hns]; exact hp
          case hns => rintro (⟨hE, -⟩ | ⟨-, hE⟩); exact hxa hE; exact hab hE.symm
        have hW0bz : dmGet total st0.data b z = some q2 := by
          rw [← Gspec_eq hchar b z hb hz ?hns2]; exact hq2
          case hns2 => rintro (⟨hE, -⟩ | ⟨-, hE⟩); exact hab hE.symm; exact hza hE
        obtain ⟨s, hs, hsle⟩ := closed_tri hc0 hx hb hz hW0xb hW0bz
        obtain ⟨s2, hs2, hs2le⟩ := dmGet_cellLE total hGle x z s hs
        obtain ⟨w, hw, hwle⟩ := specRelax_le_direct total st1.data a b len x z s2 hs2
        exact ⟨w, hw, by omega⟩
  · obtain ⟨p3, r3, hp3, hr3, hmeq⟩ := (oadd_some _ _ _).mp h3
    obtain ⟨l3, q3, hl3, hq3, hreq⟩ := (oadd_some _ _ _).mp hr3
    have hl3e : l3 = len := (Option.some.inj hl3).symm
    have hp3e : p3 = len := by
      rw [Gab_eq ha hb hchar] at hp3
      exact (Option.some.inj hp3).symm
    obtain ⟨m2, hm2, hm2le⟩ := specRelax_le_direct total st1.data a b len a z q3 hq3
    rw [hm] at hm2
    have hmm2 : m = m2 := Option.some.inj hm2
    have hq3m : q3 = m := by omega
    rw [hq3m] at hq3
    exact relax_T3_bound x z p m hp hq3

/-- Prepending a direct hop to a relaxed route. -/
theorem relax_hop {total a b len : Nat} {st0 st1 : St}
    (ha : a < total) (hb : b < total) (hab : a ≠ b)
    (hchar : ∀ x y, x < total → y < total →
      dmGet total st1.data x y =
        if (x = a ∧ y = b) ∨ (x = b ∧ y = a) then some len else dmGet total st0.data x y)
    (hGle : dataLE st1.data st0.data) (hc0 : Closed total st0.data)
    (x y z : Nat) (hx : x < total) (hy : y < total) (hz : z < total)
    (g v : Nat) (hg : dmGet total st1.data x y = some g)
    (hv : specRelax total st1.data a b len y z = some v) :
    ∃ w, specRelax total st1.data a b len x z = some w ∧ w ≤ g + v := by
  rcases specRelax_some_cases total st1.data a b len y z v hv with h1 | h2 | h3
  · exact relax_tri_hop ha hb hchar hGle hc0 x y z hx hy hz g v hg h1
  · obtain ⟨p, r2, hp, hr2, hveq⟩ := (oadd_some _ _ _).mp h2
    obtain ⟨l2, q, hl2, hq, hreq⟩ := (oadd_some _ _ _).mp hr2
    have hl2e : l2 = len := (Option.some.inj hl2).symm
    by_cases hyb : y = b
    · have hpe : p = len := by
        rw [hyb, Gba_eq ha hb hchar] at hp
        exact (Option.some.inj hp).symm
      obtain ⟨v2, hv2, hv2le⟩ := specRelax_le_direct total st1.data a b len y z q
        (by rw [hyb]; exact hq)
      rw [hv] at hv2
      have hvv2 : v = v2 := Option.some.inj hv2
      have hqv : q = v := by omega
      have hgyz : dmGet total st1.data y z = some v := by
        rw [hyb, hq, hqv]
      exact relax_tri_hop ha hb hchar hGle hc0 x y z hx hy hz g v hg hgyz
    · by_cases hxyab : (x = a ∧ y = b) ∨ (x = b ∧ y = a)
      · rcases hxyab with ⟨-, hE⟩ | ⟨hxb, hya⟩
        · exact absurd hE hyb
        · have hge : g = len := by
            rw [hxb, hya, Gba_eq ha hb hchar] at hg
            exact (Option.some.inj hg).symm
          have hpe : p = 0 := by
            rw [hya, Gdiag_eq] at hp
            exact (Option.some.inj hp).symm
          obtain ⟨w, hw, hwle⟩ := relax_T2_bound x z len q
            (show dmGet total st1.data x a = some len by rw [hxb]; exact Gba_eq ha hb hchar) hq
          exact ⟨w, hw, by omega⟩
      · have hW0xy : dmGet total st0.data x y = some g := by
          rw [← Gspec_eq hchar x y hx hy hxyab]; exact hg
        have hW0ya : dmGet total st0.data y a = some p := by
          rw [← Gspec_eq hchar y a hy ha ?hns]; exact hp
          case hns => rintro (⟨-, hE⟩ | ⟨hE, -⟩); exact hab hE; exact hyb hE
        obtain ⟨s, hs, hsle⟩ := closed_tri hc0 hx hy ha hW0xy hW0ya
        obtain ⟨s2, hs2, hs2le⟩ := dmGet_cellLE total hGle x a s hs
        obtain ⟨w, hw, hwle⟩ := relax_T2_bound x z s2 q hs2 hq
        exact ⟨w, hw, by omega⟩
  · obtain ⟨p, r3, hp, hr3, hveq⟩ := (oadd_some _ _ _).mp h3
    obtain ⟨l3, q, hl3, hq, hreq⟩ := (oadd_some _ _ _).mp hr3
    have hl3e : l3 = len := (Option.some.inj hl3).symm
    by_cases hya : y = a
    · have hpe : p = len := by
        rw [hya, Gab_eq ha hb hchar] at hp
        exact (Option.some.inj hp).symm
      obtain ⟨v2, hv2, hv2le⟩ := specRelax_le_direct total st1.data a b len y z q
        (by rw [hya]; exact hq)
      rw [hv] at hv2
      have hvv2 : v = v2 := Option.some.inj hv2
      have hqv : q = v := by omega
      have hgyz : dmGet total st1.data y z = some v := by
        rw [hya, hq, hqv]
      exact relax_tri_hop ha hb hchar hGle hc0 x y z hx hy hz g v hg hgyz
    · by_cases hxyab : (x = a ∧ y = b) ∨ (x = b ∧ y = a)
      · rcases hxyab with ⟨hxa, hyb⟩ | ⟨-, hE⟩
        · have hge : g = len := by
            rw [hxa, hyb, Gab_eq ha hb hchar] at hg
            exact (Option.some.inj hg).symm
          have hpe : p = 0 := by
            rw [hyb, Gdiag_eq] at hp
            exact (Option.some.inj hp).symm
          obtain ⟨w, hw, hwle⟩ := relax_T3_bound x z len q
            (show dmGet total st1.data x b = some len by rw [hxa]; exact Gab_eq ha hb hchar) hq
          exact ⟨w, hw, by omega⟩
        · exact absurd hE hya
      · have hW0xy : dmGet total st0.data x y = some g := by
          rw [← Gspec_eq hchar x y hx hy hxyab]; exact hg
        have hW0yb : dmGet total st0.data y b = some p := by
          rw [← Gspec_eq hchar y b hy hb ?hns]; exact hp
          case hns => rintro (⟨hE, -⟩ | ⟨-, hE⟩); exact hya hE; exact hab hE.symm
        obtain ⟨s, hs, hsle⟩ := closed_tri hc0 hx hy hb hW0xy hW0yb
        obtain ⟨s2, hs2, hs2le⟩ := dmGet_cellLE total hGle x b s hs
        obtain ⟨w, hw, hwle⟩ := relax_T3_bound x z s2 q hs2 hq
        exact ⟨w, hw, by omega⟩

/-- The spec relaxation of a closed matrix with one lowered edge is again
closed. -/
theorem specRelax_closed {total a b len : Nat} {st0 st1 : St}
    (ha : a < total) (hb : b < total) (hab : a ≠ b)
    (hchar : ∀ x y, x < total → y < total →
      dmGet total st1.data x y =
        if (x = a ∧ y = b) ∨ (x = b ∧ y = a) then some len else dmGet total st0.data x y)
    (hGle : dataLE st1.data st0.data) (hc0 : Closed total st0.data)
    (x y z : Nat) (hx : x < total) (hy : y < total) (hz : z < total)
    (u v : Nat) (hu : specRelax total st1.data a b len x y = some u)
    (hv : specRelax total st1.data a b len y z = some v) :
    ∃ w, specRelax total st1.data a b len x z = some w ∧ w ≤ u + v := by
  rcases specRelax_some_cases total st1.data a b len x y u hu with h1 | h2 | h3
  · exact relax_hop ha hb hab hchar hGle hc0 x y z hx hy hz u v h1 hv
  · obtain ⟨p, r2, hp, hr2, hueq⟩ := (oadd_some _ _ _).mp h2
    obtain ⟨l2, q, hl2, hq, hreq⟩ := (oadd_some _ _ _).mp hr2
    have hl2e : l2 = len := (Option.some.inj hl2).symm
    obtain ⟨m, hm, hmle⟩ := relax_hop ha hb hab hchar hGle hc0 b y z hb hy hz q v hq hv
    obtain ⟨w, hw, hwle⟩ := relax_absorb_b ha hb hab hchar hGle hc0 x z hx hz p m hp hm
    exact ⟨w, hw, by omega⟩
  · obtain ⟨p, r3, hp, hr3, hueq⟩ := (oadd_some _ _ _).mp h3
    obtain ⟨l3, q, hl3, hq, hreq⟩ := (oadd_some _ _ _).mp hr3
    have hl3e : l3 = len := (Option.some.inj hl3).symm
    obtain ⟨m, hm, hmle⟩ := relax_hop ha hb hab hchar hGle hc0 a y z ha hy hz q v hq hv
    obtain ⟨w, hw, hwle⟩ := relax_absorb_a ha hb hab hchar hGle hc0 x z hx hz p m hp hm
    exact ⟨w, hw, by omega⟩

/-! ## Lower bound: no write of `_propagate` goes below the spec formula -/

theorem omin_comm (x y : Option Nat) : omin x y = omin y x := by
  cases x <;> cases y <;> simp [omin, Nat.min_comm]

theorem specRelax_comm (total : Nat) (data : List (Option Nat)) (a b len x y : Nat) :
    specRelax total data a b len x y = specRelax total data a b len y x := by
  unfold specRelax
  have h2 : oadd (dmGet total data x a) (oadd (some len) (dmGet total data b y))
      = oadd (dmGet total data y b) (oadd (some len) (dmGet total data a x)) := by
    rw [oadd3_comm, dmGet_comm total data b y, dmGet_comm total data x a]
  have h3 : oadd (dmGet total data x b) (oadd (some len) (dmGet total data a y))
      = oadd (dmGet total data y a) (oadd (some len) (dmGet total data b x)) := by
    rw [oadd3_comm, dmGet_comm total data a y, dmGet_comm total data x b]
  rw [dmGet_comm total data x y, h2, h3,
    omin_comm (oadd (dmGet total data y b) (oadd (some len) (dmGet total data a x)))]

theorem cellLE_antisymm {x y : Option Nat} (h1 : cellLE x y) (h2 : cellLE y x) : x = y := by
  cases hx : x with
  | none =>
      cases hy : y with
      | none => rfl
      | some v =>
          obtain ⟨w, hw, -⟩ := h1 v hy
          rw [hx] at hw
          cases hw
  | some w =>
      obtain ⟨v, hv, hvle⟩ := h2 w hx
      obtain ⟨w2, hw2, hw2le⟩ := h1 v hv
      rw [hx] at hw2
      have hww : w = w2 := Option.some.inj hw2
      rw [hv]
      have : v = w := by omega
      rw [this]

/-- A state predicate survives a fold when every step taken from a list
element preserves it. -/
theorem foldl_invariant {β : Type} (P : St → Prop) (f : St → β → St) :
    ∀ (l : List β) (st : St), (∀ st2 x, x ∈ l → P st2 → P (f st2 x)) → P st → P (l.foldl f st) := by
  intro l
  induction l with
  | nil => intro st _ h; exact h
  | cons x xs ih =>
      intro st hstep h
      rw [List.foldl_cons]
      exact ih (f st x) (fun st2 y hy => hstep st2 y (List.mem_cons_of_mem x hy))
        (hstep st x (List.mem_cons_self x xs) h)

theorem inv2_propInner {total a b len : Nat} {st1 : St} (doors : Nat)
    (hHcl : ∀ x y z, x < total → y < total → z < total → ∀ u v,
        specRelax total st1.data a b len x y = some u →
        specRelax total st1.data a b len y z = some v →
        ∃ w, specRelax total st1.data a b len x z = some w ∧ w ≤ u + v)
    (hHab : ∃ h0, specRelax total st1.data a b len a b = some h0 ∧ h0 ≤ len)
    (ha : a < total) (hb : b < total)
    (i : Nat) (hi : i < total) (left fa : Nat)
    (hfa : specRelax total st1.data a b len i a = some fa) (hfale : fa ≤ left)
    (st : St) (hlen : st.data.length = total * (total - 1) / 2)
    (hP : ∀ x y, x < total → y < total →
      cellLE (specRelax total st1.data a b len x y) (dmGet total st.data x y))
    (j : Nat) (hj : j < total) :
    ∀ x y, x < total → y < total →
      cellLE (specRelax total st1.data a b len x y)
        (dmGet total (propInner doors total a b len i left st j).data x y) := by
  by_cases hskip : j = a ∨ (i = a ∧ j = b)
  · unfold propInner
    rw [if_pos hskip]
    exact hP
  · cases hr : dmGet total st.data b j with
    | none =>
        unfold propInner
        rw [if_neg hskip, hr]
        exact hP
    | some right =>
        rw [propInner_eq_of_some doors total a b len i left st j right hskip hr]
        by_cases himp : improves (dmGet total st.data i j) (left + len + right) = true
        · rw [if_pos himp]
          have hij : i ≠ j := improves_self_ne total st.data i j _ himp
          obtain ⟨fb, hfb, hfble⟩ := hP b j hb hj right hr
          obtain ⟨hab0, hhab0, hhab0le⟩ := hHab
          obtain ⟨m1, hm1, hm1le⟩ := hHcl i a b hi ha hb fa hab0 hfa hhab0
          obtain ⟨m2, hm2, hm2le⟩ := hHcl i b j hi hb hj m1 fb hm1 hfb
          intro x y hx hy v hv
          rw [dmGet_commitSet doors total i j (left + len + right) x y st hlen hi hj hij hx hy]
            at hv
          by_cases hc : (x = i ∧ y = j) ∨ (x = j ∧ y = i)
          · rw [if_pos hc] at hv
            have hvd : v = left + len + right := (Option.some.inj hv).symm
            rcases hc with ⟨hxi, hyj⟩ | ⟨hxj, hyi⟩
            · refine ⟨m2, ?_, by omega⟩
              rw [hxi, hyj]
              exact hm2
            · refine ⟨m2, ?_, by omega⟩
              rw [hxj, hyi, specRelax_comm]
              exact hm2
          · rw [if_neg hc] at hv
            exact hP x y hx hy v hv
        · rw [if_neg himp]
          exact hP

theorem inv2_propRow {total a b len : Nat} {st1 : St} (doors : Nat)
    (hHcl : ∀ x y z, x < total → y < total → z < total → ∀ u v,
        specRelax total st1.data a b len x y = some u →
        specRelax total st1.data a b len y z = some v →
        ∃ w, specRelax total st1.data a b len x z = some w ∧ w ≤ u + v)
    (hHab : ∃ h0, specRelax total st1.data a b len a b = some h0 ∧ h0 ≤ len)
    (ha : a < total) (hb : b < total)
    (st : St) (hlen : st.data.length = total * (total - 1) / 2)
    (hP : ∀ x y, x < total → y < total →
      cellLE (specRelax total st1.data a b len x y) (dmGet total st.data x y))
    (i : Nat) (hi : i < total) :
    ∀ x y, x < total → y < total →
      cellLE (specRelax total st1.data a b len x y)
        (dmGet total (propRow doors total a b len st i).data x y) := by
  by_cases hib : i = b
  · unfold propRow
    rw [if_pos hib]
    exact hP
  · cases hl : dmGet total st.data i a with
    | none =>
        unfold propRow
        rw [if_neg hib, hl]
        exact hP
    | some left =>
        rw [propRow_eq_of_some doors total a b len st i left hib hl]
        obtain ⟨fa, hfa, hfale⟩ := hP i a hi ha left hl
        have hfold := foldl_invariant
          (fun st2 => st2.data.length = total * (total - 1) / 2 ∧
            ∀ x y, x < total → y < total →
              cellLE (specRelax total st1.data a b len x y) (dmGet total st2.data x y))
          (propInner doors total a b len i left) (List.range total) st
          (fun st2 j hjmem hq =>
            ⟨by rw [length_propInner]; exact hq.1,
             inv2_propInner doors hHcl hHab ha hb i hi left fa hfa hfale st2 hq.1 hq.2 j
               (List.mem_range.mp hjmem)⟩)
          ⟨hlen, hP⟩
        exact hfold.2

theorem inv2_propagate {total a b len : Nat} {st1 : St} (doors : Nat)
    (hHcl : ∀ x y z, x < total → y < total → z < total → ∀ u v,
        specRelax total st1.data a b len x y = some u →
        specRelax total st1.data a b len y z = some v →
        ∃ w, specRelax total st1.data a b len x z = some w ∧ w ≤ u + v)
    (hHab : ∃ h0, specRelax total st1.data a b len a b = some h0 ∧ h0 ≤ len)
    (ha : a < total) (hb : b < total)
    (st : St) (hlen : st.data.length = total * (total - 1) / 2)
    (hP : ∀ x y, x < total → y < total →
      cellLE (specRelax total st1.data a b len x y) (dmGet total st.data x y)) :
    ∀ x y, x < total → y < total →
      cellLE (specRelax total st1.data a b len x y)
        (dmGet total (propagate doors total a b len st).data x y) := by
  unfold propagate
  have hfold := foldl_invariant
    (fun st2 => st2.data.length = total * (total - 1) / 2 ∧
      ∀ x y, x < total → y < total →
        cellLE (specRelax total st1.data a b len x y) (dmGet total st2.data x y))
    (propRow doors total a b len) (List.range total) st
    (fun st2 r hrmem hq =>
      ⟨by rw [length_propRow]; exact hq.1,
       inv2_propRow doors hHcl hHab ha hb st2 hq.1 hq.2 r (List.mem_range.mp hrmem)⟩)
    ⟨hlen, hP⟩
  exact hfold.2

/-- On a triangle-closed matrix, a `_propagate` call made right after the
guarded `_set` of `_add_road` computes exactly the spec's relaxation
formula. -/
theorem propagate_eq_relax (doors total a b len : Nat) (st0 : St)
    (hlen : st0.data.length = total * (total - 1) / 2)
    (ha : a < total) (hb : b < total)
    (himp : improves (dmGet total st0.data a b) len = true)
    (hc0 : Closed total st0.data)
    (i j : Nat) (hi : i < total) (hj : j < total) :
    dmGet total (propagate doors total a b len (commitSet doors total a b len st0)).data i j
      = specRelax total (commitSet doors total a b len st0).data a b len i j := by
  have hab : a ≠ b := improves_self_ne total st0.data a b len himp
  have hchar : ∀ x y, x < total → y < total →
      dmGet total (commitSet doors total a b len st0).data x y =
        if (x = a ∧ y = b) ∨ (x = b ∧ y = a) then some len else dmGet total st0.data x y :=
    fun x y hx hy => dmGet_commitSet doors total a b len x y st0 hlen ha hb hab hx hy
  have hGle : dataLE (commitSet doors total a b len st0).data st0.data :=
    commitSet_dataLE doors total a b len st0 himp
  have hlen1 : (commitSet doors total a b len st0).data.length = total * (total - 1) / 2 := by
    rw [length_commitSet]; exact hlen
  have hWab1 : dmGet total (commitSet doors total a b len st0).data a b = some len :=
    Gab_eq ha hb hchar
  have hHcl := fun x y z hx hy hz u v hu hv =>
    specRelax_closed ha hb hab hchar hGle hc0 x y z hx hy hz u v hu hv
  have hHab : ∃ h0, specRelax total (commitSet doors total a b len st0).data a b len a b
      = some h0 ∧ h0 ≤ len :=
    specRelax_le_direct total _ a b len a b len hWab1
  have hge := inv2_propagate doors hHcl hHab ha hb (commitSet doors total a b len st0) hlen1
    (fun x y _ _ => specRelax_le_direct total _ a b len x y)
  have hle := propagate_le_relax doors total a b len (commitSet doors total a b len st0)
    hlen1 hWab1 i j hi hj
  exact cellLE_antisymm hle (hge i j hi hj)

/-- `_add_road` preserves triangle-closedness of the matrix. -/
theorem addRoad_closed (doors total a b len : Nat) (st : St)
    (hlen : st.data.length = total * (total - 1) / 2)
    (ha : a < total) (hb : b < total)
    (hc : Closed total st.data) :
    Closed total (addRoad doors total a b len st).data := by
  by_cases himp : improves (dmGet total st.data a b) len = true
  · rw [addRoad_eq_of_improves doors total a b len st himp]
    have hab : a ≠ b := improves_self_ne total st.data a b len himp
    have hchar : ∀ x y, x < total → y < total →
        dmGet total (commitSet doors total a b len st).data x y =
          if (x = a ∧ y = b) ∨ (x = b ∧ y = a) then some len else dmGet total st.data x y :=
      fun x y hx hy => dmGet_commitSet doors total a b len x y st hlen ha hb hab hx hy
    have hGle : dataLE (commitSet doors total a b len st).data st.data :=
      commitSet_dataLE doors total a b len st himp
    intro x hx y hy z hz
    rw [oLEb_iff]
    intro s hsum
    obtain ⟨u, v, hu, hv, hseq⟩ := (oadd_some _ _ _).mp hsum
    rw [propagate_eq_relax doors total a b len st hlen ha hb himp hc x y hx hy] at hu
    rw [propagate_eq_relax doors total a b len st hlen ha hb himp hc y z hy hz] at hv
    obtain ⟨w, hw, hwle⟩ :=
      specRelax_closed ha hb hab hchar hGle hc x y z hx hy hz u v hu hv
    refine ⟨w, ?_, by omega⟩
    rw [propagate_eq_relax doors total a b len st hlen ha hb himp hc x z hx hz]
    exact hw
  · unfold addRoad
    rw [if_neg himp]
    exact hc

theorem dmGet_init (total x y : Nat) :
    dmGet total (initSt total).data x y = if x = y then some 0 else none := by
  unfold dmGet initSt
  by_cases h : x = y
  · rw [if_pos h, if_pos h]
  · rw [if_neg h, if_neg h]
    rw [List.getD_eq_getElem?_getD, List.getElem?_replicate]
    split <;> rfl

/-- The empty matrix (all cells unknown, zero diagonal) is closed. -/
theorem initSt_closed (total : Nat) : Closed total (initSt total).data := by
  intro x _ y _ z _
  rw [oLEb_iff]
  intro s hsum
  obtain ⟨u, v, hu, hv, hseq⟩ := (oadd_some _ _ _).mp hsum
  rw [dmGet_init] at hu hv
  by_cases hxy : x = y
  · rw [if_pos hxy] at hu
    by_cases hyz : y = z
    · rw [if_pos hyz] at hv
      refine ⟨0, ?_, by omega⟩
      rw [dmGet_init, if_pos (hxy.trans hyz)]
    · rw [if_neg hyz] at hv
      cases hv
  · rw [if_neg hxy] at hu
    cases hu

/-! ## Step properties of each construction operation -/

theorem mem_sAdd_iff (S : List (Nat × Nat)) (p q : Nat × Nat) :
    q ∈ sAdd S p ↔ q ∈ S ∨ q = p := by
  unfold sAdd
  by_cases h : p ∈ S
  · rw [if_pos h]
    constructor
    · exact Or.inl
    · rintro (hq | rfl)
      · exact hq
      · exact h
  · rw [if_neg h]
    rw [List.mem_append, List.mem_singleton]

theorem mem_sAdd_self (S : List (Nat × Nat)) (p : Nat × Nat) : p ∈ sAdd S p :=
  (mem_sAdd_iff S p p).mpr (Or.inr rfl)

theorem sAdd_subset (S : List (Nat × Nat)) (p q : Nat × Nat) (h : q ∈ S) : q ∈ sAdd S p :=
  (mem_sAdd_iff S p q).mpr (Or.inl h)

theorem mem_eraseIdx_of_ne {α : Type} (d0 : α) :
    ∀ (l : List α) (k : Nat) (x : α), x ∈ l → k < l.length → x ≠ l.getD k d0 →
      x ∈ l.eraseIdx k := by
  intro l
  induction l with
  | nil => intro k x h; cases h
  | cons y ys ih =>
      intro k x hmem hk hne
      cases k with
      | zero =>
          rcases List.mem_cons.mp hmem with h | h
          · exact absurd h hne
          · exact h
      | succ k2 =>
          rcases List.mem_cons.mp hmem with h | h
          · exact h ▸ List.mem_cons_self y _
          · exact List.mem_cons_of_mem y
              (ih k2 x h (Nat.lt_of_succ_lt_succ hk) hne)

theorem stepOK_refl (doors total : Nat) (st : St) : StepOK doors total st st :=
  ⟨dataLE_refl _, fun _ h => h, fun _ _ _ _ hne => absurd rfl hne, fun _ hp => Or.inl hp⟩

theorem stepOK_trans {doors total : Nat} {st st2 st3 : St}
    (h1 : StepOK doors total st st2) (h2 : StepOK doors total st2 st3) :
    StepOK doors total st st3 := by
  obtain ⟨d1, s1, c1, n1⟩ := h1
  obtain ⟨d2, s2, c2, n2⟩ := h2
  refine ⟨dataLE_trans d2 d1, fun p hp => s2 p (s1 p hp), ?_, ?_⟩
  · intro u v hu hv hne
    by_cases hmid : dmGet total st3.data u v = dmGet total st2.data u v
    · rcases c1 u v hu hv (fun he => hne (hmid.trans he)) with h | h
      · exact Or.inl (s2 _ h)
      · exact Or.inr (s2 _ h)
    · exact c2 u v hu hv hmid
  · intro p hp
    rcases n2 p hp with h | h
    · exact n1 p h
    · exact Or.inr h

theorem stepOK_commitSet (doors total n1 n2 len : Nat) (st : St)
    (hdt : doors ≤ total)
    (hlen : st.data.length = total * (total - 1) / 2)
    (h1 : n1 < total) (h2 : n2 < total)
    (himp : improves (dmGet total st.data n1 n2) len = true) :
    StepOK doors total st (commitSet doors total n1 n2 len st) := by
  have hne : n1 ≠ n2 := improves_self_ne total st.data n1 n2 len himp
  have hS : (commitSet doors total n1 n2 len st).S =
      if isOuter doors n1 && isOuter doors n2 then sAdd st.S (n1, n2) else st.S := rfl
  refine ⟨commitSet_dataLE doors total n1 n2 len st himp, ?_, ?_, ?_⟩
  · intro p hp
    rw [hS]
    split
    · exact sAdd_subset _ _ _ hp
    · exact hp
  · intro u v hu hv hchg
    rw [dmGet_commitSet doors total n1 n2 len u v st hlen h1 h2 hne
      (Nat.lt_of_lt_of_le hu hdt) (Nat.lt_of_lt_of_le hv hdt)] at hchg
    by_cases hc : (u = n1 ∧ v = n2) ∨ (u = n2 ∧ v = n1)
    · have hout : (isOuter doors n1 && isOuter doors n2) = true := by
        simp only [isOuter, Bool.and_eq_true, decide_eq_true_eq]
        omega
      rcases hc with ⟨hu1, hv2⟩ | ⟨hu2, hv1⟩
      · left
        rw [hS, if_pos hout, hu1, hv2]
        exact mem_sAdd_self _ _
      · right
        rw [hS, if_pos hout, hv1, hu2]
        exact mem_sAdd_self _ _
    · rw [if_neg hc] at hchg
      exact absurd rfl hchg
  · intro p hp
    rw [hS] at hp
    by_cases hout : (isOuter doors n1 && isOuter doors n2) = true
    · rw [if_pos hout] at hp
      rcases (mem_sAdd_iff _ _ _).mp hp with h | h
      · exact Or.inl h
      · right
        rw [h]
        simp only [isOuter, Bool.and_eq_true, decide_eq_true_eq] at hout
        exact hout
    · rw [if_neg hout] at hp
      exact Or.inl hp

theorem stepOK_propInner (doors total a b len i left : Nat) (st : St) (j : Nat)
    (hdt : doors ≤ total)
    (hlen : st.data.length = total * (total - 1) / 2)
    (hi : i < total) (hj : j < total) :
    StepOK doors total st (propInner doors total a b len i left st j) := by
  by_cases hskip : j = a ∨ (i = a ∧ j = b)
  · unfold propInner
    rw [if_pos hskip]
    exact stepOK_refl doors total st
  · cases hr : dmGet total st.data b j with
    | none =>
        unfold propInner
        rw [if_neg hskip, hr]
        exact stepOK_refl doors total st
    | some right =>
        rw [propInner_eq_of_some doors total a b len i left st j right hskip hr]
        by_cases himp : improves (dmGet total st.data i j) (left + len + right) = true
        · rw [if_pos himp]
          exact stepOK_commitSet doors total i j _ st hdt hlen hi hj himp
        · rw [if_neg himp]
          exact stepOK_refl doors total st

theorem stepOK_propRow (doors total a b len : Nat) (st : St) (i : Nat)
    (hdt : doors ≤ total)
    (hlen : st.data.length = total * (total - 1) / 2) (hi : i < total) :
    StepOK doors total st (propRow doors total a b len st i) := by
  by_cases hib : i = b
  · unfold propRow
    rw [if_pos hib]
    exact stepOK_refl doors total st
  · cases hl : dmGet total st.data i a with
    | none =>
        unfold propRow
        rw [if_neg hib, hl]
        exact stepOK_refl doors total st
    | some left =>
        rw [propRow_eq_of_some doors total a b len st i left hib hl]
        have hfold := foldl_invariant
          (fun st2 => st2.data.length = total * (total - 1) / 2 ∧ StepOK doors total st st2)
          (propInner doors total a b len i left) (List.range total) st
          (fun st2 j hjmem hq =>
            ⟨by rw [length_propInner]; exact hq.1,
             stepOK_trans hq.2
               (stepOK_propInner doors total a b len i left st2 j hdt hq.1 hi
                 (List.mem_range.mp hjmem))⟩)
          ⟨hlen, stepOK_refl doors total st⟩
        exact hfold.2

theorem stepOK_propagate (doors total a b len : Nat) (st : St)
    (hdt : doors ≤ total)
    (hlen : st.data.length = total * (total - 1) / 2) :
    StepOK doors total st (propagate doors total a b len st) := by
  unfold propagate
  have hfold := foldl_invariant
    (fun st2 => st2.data.length = total * (total - 1) / 2 ∧ StepOK doors total st st2)
    (propRow doors total a b len) (List.range total) st
    (fun st2 r hrmem hq =>
      ⟨by rw [length_propRow]; exact hq.1,
       stepOK_trans hq.2
         (stepOK_propRow doors total a b len st2 r hdt hq.1 (List.mem_range.mp hrmem))⟩)
    ⟨hlen, stepOK_refl doors total st⟩
  exact hfold.2

theorem stepOK_addRoad (doors total a b len : Nat) (st : St)
    (hdt : doors ≤ total)
    (hlen : st.data.length = total * (total - 1) / 2)
    (ha : a < total) (hb : b < total) :
    StepOK doors total st (addRoad doors total a b len st) := by
  by_cases himp : improves (dmGet total st.data a b) len = true
  · rw [addRoad_eq_of_improves doors total a b len st himp]
    have h1 := stepOK_commitSet doors total a b len st hdt hlen ha hb himp
    have hlen1 : (commitSet doors total a b len st).data.length = total * (total - 1) / 2 := by
      rw [length_commitSet]; exact hlen
    exact stepOK_trans h1 (stepOK_propagate doors total a b len _ hdt hlen1)
  · unfold addRoad
    rw [if_neg himp]
    exact stepOK_refl doors total st

/-- After `_add_road(a, b, len)` the stored distance between `a` and `b`
is known and at most `len`. -/
theorem addRoad_post (doors total a b len : Nat) (st : St)
    (hlen : st.data.length = total * (total - 1) / 2)
    (ha : a < total) (hb : b < total) :
    ∃ w, dmGet total (addRoad doors total a b len st).data a b = some w ∧ w ≤ len := by
  by_cases himp : improves (dmGet total st.data a b) len = true
  · rw [addRoad_eq_of_improves doors total a b len st himp]
    have hne : a ≠ b := improves_self_ne total st.data a b len himp
    have hcommit : dmGet total (commitSet doors total a b len st).data a b = some len := by
      rw [dmGet_commitSet doors total a b len a b st hlen ha hb hne ha hb,
        if_pos (Or.inl ⟨rfl, rfl⟩)]
    exact dmGet_cellLE total (propagate_dataLE doors total a b len _) a b len hcommit
  · obtain ⟨c, hc, hcle⟩ := improves_eq_false _ _ (Bool.eq_false_iff.mpr himp)
    unfold addRoad
    rw [if_neg himp]
    exact ⟨c, hc, hcle⟩

/-! ## Adjacency dictionary lemmas -/

theorem dictAppend_sub {P : NodeIndex → NodeIndex → Prop} :
    ∀ (d : LinksDict) (k v : NodeIndex),
      (∀ p ∈ d, ∀ u ∈ p.2, P p.1 u) → P k v →
      ∀ p ∈ dictAppend d k v, ∀ u ∈ p.2, P p.1 u := by
  intro d
  induction d with
  | nil =>
      intro k v _ hkv p hp u hu
      rcases List.mem_singleton.mp hp with rfl
      rcases List.mem_singleton.mp hu with rfl
      exact hkv
  | cons q rest ih =>
      intro k v hd hkv p hp u hu
      unfold dictAppend at hp
      by_cases hk : q.1 = k
      · rw [if_pos hk] at hp
        rcases List.mem_cons.mp hp with rfl | hp2
        · rcases List.mem_append.mp hu with h | h
          · exact hd q (List.mem_cons_self q rest) u h
          · rcases List.mem_singleton.mp h with rfl
            rw [hk]
            exact hkv
        · exact hd p (List.mem_cons_of_mem q hp2) u hu
      · rw [if_neg hk] at hp
        rcases List.mem_cons.mp hp with rfl | hp2
        · exact hd _ (List.mem_cons_self _ _) u hu
        · exact ih k v (fun p2 hp2b u2 hu2 => hd p2 (List.mem_cons_of_mem q hp2b) u2 hu2)
            hkv p hp2 u hu

theorem foldLinks_sub {P : NodeIndex → NodeIndex → Prop} :
    ∀ (pl : List (NodeIndex × NodeIndex)) (d0 : LinksDict),
      (∀ p ∈ d0, ∀ u ∈ p.2, P p.1 u) →
      (∀ e ∈ pl, P e.1 e.2 ∧ P e.2 e.1) →
      ∀ p ∈ pl.foldl dictAddLink d0, ∀ u ∈ p.2, P p.1 u := by
  intro pl
  induction pl with
  | nil => intro d0 hd _ p hp u hu; exact hd p hp u hu
  | cons e rest ih =>
      intro d0 hd hpl
      rw [List.foldl_cons]
      have he := hpl e (List.mem_cons_self e rest)
      have hd1 : ∀ p ∈ dictAddLink d0 e, ∀ u ∈ p.2, P p.1 u := by
        unfold dictAddLink
        exact dictAppend_sub (dictAppend d0 e.1 e.2) e.2 e.1
          (dictAppend_sub d0 e.1 e.2 hd he.1) he.2
      exact ih (dictAddLink d0 e) hd1
        (fun e2 he2 => hpl e2 (List.mem_cons_of_mem e he2))

/-- Every link yielded by `all_links` comes from the stored adjacency,
which in turn comes from the original plain list. -/
theorem all_links_prop {P : NodeIndex → NodeIndex → Prop}
    (rooms doors : Nat) (pl : List (NodeIndex × NodeIndex))
    (hpl : ∀ e ∈ pl, P e.1 e.2 ∧ P e.2 e.1) :
    ∀ e ∈ (Template.make rooms doors pl).all_links, P e.1 e.2 := by
  intro e he
  obtain ⟨p, hp, he2⟩ := List.mem_flatMap.mp he
  obtain ⟨n2, hn2, heq⟩ := List.mem_map.mp he2
  have hn2b := (List.mem_filter.mp hn2).1
  have hsub := foldLinks_sub pl [] (fun p2 hp2 => absurd hp2 (List.not_mem_nil p2)) hpl p hp n2 hn2b
  rw [← heq]
  exact hsub

theorem nodeIdx_lt (rooms doors room door : Nat) (h1 : room ≤ rooms) (h2 : door < doors) :
    room * doors + door < (rooms + 1) * doors := by
  calc room * doors + door < room * doors + doors := by omega
    _ = (room + 1) * doors := by ring
    _ ≤ (rooms + 1) * doors := Nat.mul_le_mul_right doors (by omega)

/-! ## Generic facts about the fill loop -/

theorem fillLoop_invariant (rooms doors total : Nat) (pick : List (Nat × Nat) → Nat)
    (P : St → Prop) (hstep : ∀ st, P st → P (update rooms doors total pick st)) :
    ∀ (fuel : Nat) (st st2 : St), P st →
      fillLoop rooms doors total pick fuel st = some st2 → P st2 := by
  intro fuel
  induction fuel with
  | zero =>
      intro st st2 hP h
      unfold fillLoop at h
      by_cases hS : st.S = []
      · rw [if_pos hS] at h
        cases h
        exact hP
      · rw [if_neg hS] at h
        cases h
  | succ n ih =>
      intro st st2 hP h
      unfold fillLoop at h
      by_cases hS : st.S = []
      · rw [if_pos hS] at h
        cases h
        exact hP
      · rw [if_neg hS] at h
        exact ih (update rooms doors total pick st) st2 (hstep st hP) h

theorem fillLoop_final_S (rooms doors total : Nat) (pick : List (Nat × Nat) → Nat) :
    ∀ (fuel : Nat) (st st2 : St),
      fillLoop rooms doors total pick fuel st = some st2 → st2.S = [] := by
  intro fuel
  induction fuel with
  | zero =>
      intro st st2 h
      unfold fillLoop at h
      by_cases hS : st.S = []
      · rw [if_pos hS] at h
        cases h
        exact hS
      · rw [if_neg hS] at h
        cases h
  | succ n ih =>
      intro st st2 h
      unfold fillLoop at h
      by_cases hS : st.S = []
      · rw [if_pos hS] at h
        cases h
        exact hS
      · rw [if_neg hS] at h
        exact ih _ st2 h

/-! ## The frontier pop step `_update` preserves the run invariants -/

theorem getD_mem {α : Type} (l : List α) (k : Nat) (d : α) (h : k < l.length) :
    l.getD k d ∈ l := by
  rw [List.getD_eq_getElem?_getD, List.getElem?_eq_getElem h]
  exact List.getElem_mem h

theorem innerInv_of_stepOK {rooms doors total : Nat} {st st2 : St}
    (h : StepOK doors total st st2) (hi : InnerInv rooms doors total st) :
    InnerInv rooms doors total st2 := by
  intro u v d hu hv hget2
  by_cases hchg : dmGet total st2.data u v = dmGet total st.data u v
  · have hget : dmGet total st.data u v = some d := by rw [← hchg]; exact hget2
    rcases hi u v d hu hv hget with hS | hinner
    · rcases hS with hS | hS
      · exact Or.inl (Or.inl (h.2.1 _ hS))
      · exact Or.inl (Or.inr (h.2.1 _ hS))
    · right
      intro r hr
      obtain ⟨d2, hd2, hle⟩ := hinner r hr
      obtain ⟨d3, hd3, hle3⟩ := dmGet_cellLE total h.1 _ _ d2 hd2
      exact ⟨d3, hd3, Nat.le_trans hle3 hle⟩
  · exact Or.inl (h.2.2.1 u v hu hv hchg)

theorem length_roomStep (doors total q1 q2 d : Nat) (st : St) (r : Nat) :
    (roomStep doors total q1 q2 d st r).data.length = st.data.length :=
  length_addRoad doors total _ _ d st

theorem roomStep_bounds (rooms doors total q1 q2 : Nat)
    (hq1 : q1 < doors) (hq2 : q2 < doors) (htot : total = (rooms + 1) * doors)
    (r : Nat) (hr : r < rooms) :
    (r + 1) * doors + q1 < total ∧ (r + 1) * doors + q2 < total := by
  rw [htot]
  exact ⟨nodeIdx_lt rooms doors (r + 1) q1 (by omega) hq1,
         nodeIdx_lt rooms doors (r + 1) q2 (by omega) hq2⟩

theorem roomsFold_post (rooms doors total q1 q2 d : Nat)
    (hq1 : q1 < doors) (hq2 : q2 < doors)
    (htot : total = (rooms + 1) * doors) (r : Nat) :
    ∀ (l : List Nat) (st : St), r ∈ l → (∀ x ∈ l, x < rooms) →
      st.data.length = total * (total - 1) / 2 →
      ∃ w, dmGet total ((l.foldl (roomStep doors total q1 q2 d) st).data)
        ((r + 1) * doors + q1) ((r + 1) * doors + q2) = some w ∧ w ≤ d := by
  intro l
  induction l with
  | nil => intro st hmem; exact absurd hmem (List.not_mem_nil r)
  | cons r2 rest ih =>
      intro st hmem hb hlen
      rw [List.foldl_cons]
      by_cases hr : r ∈ rest
      · exact ih (roomStep doors total q1 q2 d st r2) hr
          (fun x hx => hb x (List.mem_cons_of_mem r2 hx))
          (by rw [length_roomStep]; exact hlen)
      · have hrr : r = r2 := by
          rcases List.mem_cons.mp hmem with h | h
          · exact h
          · exact absurd h hr
        subst hrr
        have hbnd := roomStep_bounds rooms doors total q1 q2 hq1 hq2 htot r
          (hb r (List.mem_cons_self r rest))
        obtain ⟨w0, hw0, hw0le⟩ := addRoad_post doors total ((r + 1) * doors + q1)
          ((r + 1) * doors + q2) d st hlen hbnd.1 hbnd.2
        obtain ⟨w, hw, hwle⟩ := dmGet_cellLE total
          (foldl_dataLE (roomStep doors total q1 q2 d)
            (fun s x => addRoad_dataLE doors total _ _ d s) rest _)
          ((r + 1) * doors + q1) ((r + 1) * doors + q2) w0 hw0
        exact ⟨w, hw, by omega⟩

theorem runInv_update (rooms doors total : Nat) (pick : List (Nat × Nat) → Nat) (st : St)
    (htot : total = (rooms + 1) * doors)
    (hlen : st.data.length = total * (total - 1) / 2)
    (hcl : Closed total st.data)
    (hdom : ∀ p ∈ st.S, p.1 < doors ∧ p.2 < doors)
    (hinv : InnerInv rooms doors total st) :
    (update rooms doors total pick st).data.length = total * (total - 1) / 2 ∧
    Closed total (update rooms doors total pick st).data ∧
    (∀ p ∈ (update rooms doors total pick st).S, p.1 < doors ∧ p.2 < doors) ∧
    InnerInv rooms doors total (update rooms doors total pick st) := by
  have hdt : doors ≤ total := by
    rw [htot]
    calc doors = 1 * doors := by ring
      _ ≤ (rooms + 1) * doors := Nat.mul_le_mul_right doors (by omega)
  by_cases hS : st.S = []
  · unfold update
    rw [if_pos hS]
    exact ⟨hlen, hcl, hdom, hinv⟩
  · unfold update
    rw [if_neg hS]
    dsimp only
    set k := pick st.S % st.S.length with hkdef
    set q := st.S.getD k (0, 0) with hqdef
    set st1 : St := (⟨st.data, st.S.eraseIdx k⟩ : St) with hst1def
    have hklen : k < st.S.length := by
      rw [hkdef]
      exact Nat.mod_lt _ (List.length_pos.mpr hS)
    have hqmem : q ∈ st.S := getD_mem st.S k (0, 0) hklen
    have hqdom := hdom q hqmem
    have hlen1 : st1.data.length = total * (total - 1) / 2 := hlen
    have hcl1 : Closed total st1.data := hcl
    have hdom1 : ∀ p ∈ st1.S, p.1 < doors ∧ p.2 < doors :=
      fun p hp => hdom p (List.eraseIdx_subset st.S k hp)
    cases hd0 : dmGet total st.data q.1 q.2 with
    | none =>
        refine ⟨hlen1, hcl1, hdom1, ?_⟩
        intro u v d hu hv hget
        rcases hinv u v d hu hv hget with hSmem | hinner
        · left
          rcases hSmem with hm | hm
          · left
            apply mem_eraseIdx_of_ne (0, 0) st.S k (u, v) hm hklen
            intro he
            rw [← hqdef] at he
            rw [← he] at hd0
            rw [hget] at hd0
            cases hd0
          · right
            apply mem_eraseIdx_of_ne (0, 0) st.S k (v, u) hm hklen
            intro he
            rw [← hqdef] at he
            rw [← he] at hd0
            rw [dmGet_comm, hget] at hd0
            cases hd0
        · exact Or.inr hinner
    | some d0 =>
        have hfold := foldl_invariant
          (fun st2 => st2.data.length = total * (total - 1) / 2 ∧
            Closed total st2.data ∧ StepOK doors total st1 st2)
          (roomStep doors total q.1 q.2 d0) (List.range rooms) st1
          (fun st2 r hrmem hq3 => by
            have hr := List.mem_range.mp hrmem
            have hbnd := roomStep_bounds rooms doors total q.1 q.2 hqdom.1 hqdom.2 htot r hr
            exact ⟨by rw [length_roomStep]; exact hq3.1,
              addRoad_closed doors total _ _ d0 st2 hq3.1 hbnd.1 hbnd.2 hq3.2.1,
              stepOK_trans hq3.2.2
                (stepOK_addRoad doors total _ _ d0 st2 hdt hq3.1 hbnd.1 hbnd.2)⟩)
          ⟨hlen1, hcl1, stepOK_refl doors total st1⟩
        obtain ⟨hlen2, hcl2, hstep2⟩ := hfold
        refine ⟨hlen2, hcl2, ?_, ?_⟩
        · intro p hp
          rcases hstep2.2.2.2 p hp with h | h
          · exact hdom1 p h
          · exact h
        · intro u v d hu hv hget
          by_cases hqpair : (u = q.1 ∧ v = q.2) ∨ (u = q.2 ∧ v = q.1)
          · by_cases hchg : dmGet total
                ((List.range rooms).foldl (roomStep doors total q.1 q.2 d0) st1).data u v
                = dmGet total st1.data u v
            · right
              intro r hr
              obtain ⟨w, hw, hwle⟩ := roomsFold_post rooms doors total q.1 q.2 d0
                hqdom.1 hqdom.2 htot r (List.range rooms) st1 (List.mem_range.mpr hr)
                (fun x hx => List.mem_range.mp hx) hlen1
              have hst1get : dmGet total st1.data u v = some d := by
                rw [← hchg]; exact hget
              rcases hqpair with ⟨h1, h2⟩ | ⟨h1, h2⟩
              · have hdd0 : d = d0 := by
                  rw [h1, h2] at hst1get
                  rw [hst1get] at hd0
                  exact Option.some.inj hd0
                refine ⟨w, ?_, by omega⟩
                rw [h1, h2]
                exact hw
              · have hdd0 : d = d0 := by
                  rw [h1, h2, dmGet_comm] at hst1get
                  rw [hst1get] at hd0
                  exact Option.some.inj hd0
                refine ⟨w, ?_, by omega⟩
                rw [h1, h2, dmGet_comm]
                exact hw
            · exact Or.inl (hstep2.2.2.1 u v hu hv hchg)
          · by_cases hchg : dmGet total
                ((List.range rooms).foldl (roomStep doors total q.1 q.2 d0) st1).data u v
                = dmGet total st1.data u v
            · have hget1 : dmGet total st.data u v = some d := by
                rw [← hchg]; exact hget
              rcases hinv u v d hu hv hget1 with hSmem | hinner
              · left
                rcases hSmem with hm | hm
                · left
                  apply hstep2.2.1
                  apply mem_eraseIdx_of_ne (0, 0) st.S k (u, v) hm hklen
                  intro he
                  rw [← hqdef] at he
                  apply hqpair
                  left
                  exact ⟨congrArg Prod.fst he, congrArg Prod.snd he⟩
                · right
                  apply hstep2.2.1
                  apply mem_eraseIdx_of_ne (0, 0) st.S k (v, u) hm hklen
                  intro he
                  rw [← hqdef] at he
                  apply hqpair
                  right
                  exact ⟨congrArg Prod.snd he, congrArg Prod.fst he⟩
              · right
                intro r hr
                obtain ⟨d2, hd2, hle⟩ := hinner r hr
                obtain ⟨d3, hd3, hle3⟩ := dmGet_cellLE total hstep2.1 _ _ d2 hd2
                exact ⟨d3, hd3, by omega⟩
            · exact Or.inl (hstep2.2.2.1 u v hu hv hchg)

/-! ## Run-level invariants: seeding and the whole fill -/

theorem initSt_length (total : Nat) :
    (initSt total).data.length = total * (total - 1) / 2 :=
  List.length_replicate _ _

theorem initSt_innerInv (rooms doors total : Nat) :
    InnerInv rooms doors total (initSt total) := by
  intro u v d hu hv hget
  rw [dmGet_init] at hget
  by_cases huv : u = v
  · rw [if_pos huv] at hget
    have hd0 : d = 0 := (Option.some.inj hget).symm
    right
    intro r hr
    refine ⟨0, ?_, by omega⟩
    rw [dmGet_init, if_pos (by rw [huv])]
  · rw [if_neg huv] at hget
    cases hget

theorem runInv_seed (rooms doors : Nat) (pl : List (NodeIndex × NodeIndex))
    (hval : validInput rooms doors pl) :
    (seedPhase (Template.make rooms doors pl)).data.length
        = ((rooms + 1) * doors) * ((rooms + 1) * doors - 1) / 2 ∧
    Closed ((rooms + 1) * doors) (seedPhase (Template.make rooms doors pl)).data ∧
    (∀ p ∈ (seedPhase (Template.make rooms doors pl)).S, p.1 < doors ∧ p.2 < doors) ∧
    InnerInv rooms doors ((rooms + 1) * doors) (seedPhase (Template.make rooms doors pl)) := by
  have hdt : doors ≤ (rooms + 1) * doors := by
    calc doors = 1 * doors := by ring
      _ ≤ (rooms + 1) * doors := Nat.mul_le_mul_right doors (by omega)
  have hbounds : ∀ e ∈ (Template.make rooms doors pl).all_links,
      nodeIdx doors e.1 < (rooms + 1) * doors ∧ nodeIdx doors e.2 < (rooms + 1) * doors := by
    refine @all_links_prop
      (fun n1 n2 => nodeIdx doors n1 < (rooms + 1) * doors ∧
        nodeIdx doors n2 < (rooms + 1) * doors) rooms doors pl ?_
    intro e he
    obtain ⟨h1, h2, h3, h4⟩ := hval.2.2.2 e he
    exact ⟨⟨nodeIdx_lt rooms doors _ _ h1 h2, nodeIdx_lt rooms doors _ _ h3 h4⟩,
           ⟨nodeIdx_lt rooms doors _ _ h3 h4, nodeIdx_lt rooms doors _ _ h1 h2⟩⟩
  have hfold := foldl_invariant
    (fun st2 => st2.data.length = ((rooms + 1) * doors) * ((rooms + 1) * doors - 1) / 2 ∧
      Closed ((rooms + 1) * doors) st2.data ∧
      (∀ p ∈ st2.S, p.1 < doors ∧ p.2 < doors) ∧
      InnerInv rooms doors ((rooms + 1) * doors) st2)
    (fun s e => addRoad doors ((rooms + 1) * doors) (nodeIdx doors e.1) (nodeIdx doors e.2) 1 s)
    (Template.make rooms doors pl).all_links (initSt ((rooms + 1) * doors))
    (fun st2 e hemem hq => by
      have hb := hbounds e hemem
      have hstep := stepOK_addRoad doors ((rooms + 1) * doors) (nodeIdx doors e.1)
        (nodeIdx doors e.2) 1 st2 hdt hq.1 hb.1 hb.2
      refine ⟨by rw [length_addRoad]; exact hq.1,
        addRoad_closed doors ((rooms + 1) * doors) _ _ 1 st2 hq.1 hb.1 hb.2 hq.2.1, ?_, ?_⟩
      · intro p hp
        rcases hstep.2.2.2 p hp with h | h
        · exact hq.2.2.1 p h
        · exact h
      · exact innerInv_of_stepOK hstep hq.2.2.2)
    ⟨initSt_length _, initSt_closed _, fun p hp => absurd hp (List.not_mem_nil p),
     initSt_innerInv rooms doors _⟩
  exact hfold

/-- Everything the construction guarantees about a finished `fill` run
on a valid input: well-formed data array, triangle-closedness, an empty
frontier, and the inner-copy invariant. -/
theorem fill_runInv (rooms doors : Nat) (pl : List (NodeIndex × NodeIndex))
    (pick : List (Nat × Nat) → Nat) (fuel : Nat) (st : St)
    (hval : validInput rooms doors pl)
    (hfill : fill (Template.make rooms doors pl) pick fuel = some st) :
    st.data.length = ((rooms + 1) * doors) * ((rooms + 1) * doors - 1) / 2 ∧
    Closed ((rooms + 1) * doors) st.data ∧
    (∀ p ∈ st.S, p.1 < doors ∧ p.2 < doors) ∧
    InnerInv rooms doors ((rooms + 1) * doors) st ∧
    st.S = [] := by
  have hloop := fillLoop_invariant rooms doors ((rooms + 1) * doors) pick
    (fun st2 => st2.data.length = ((rooms + 1) * doors) * ((rooms + 1) * doors - 1) / 2 ∧
      Closed ((rooms + 1) * doors) st2.data ∧
      (∀ p ∈ st2.S, p.1 < doors ∧ p.2 < doors) ∧
      InnerInv rooms doors ((rooms + 1) * doors) st2)
    (fun st2 hq => runInv_update rooms doors ((rooms + 1) * doors) pick st2 rfl
      hq.1 hq.2.1 hq.2.2.1 hq.2.2.2)
    fuel (seedPhase (Template.make rooms doors pl)) st
    (runInv_seed rooms doors pl hval) hfill
  have hfin := fillLoop_final_S rooms doors ((rooms + 1) * doors) pick fuel
    (seedPhase (Template.make rooms doors pl)) st hfill
  exact ⟨hloop.1, hloop.2.1, hloop.2.2.1, hloop.2.2.2, hfin⟩

/-- Claim C2: every invocation of `_propagate(a, b, length)` — which the
code makes exactly when the guard of `_add_road` passes, right after
`W[a,b]` was set to `length` (modelled by `commitSet`) — has as its net
effect on the matrix precisely the spec relaxation
`W[i,j] = min(W[i,j], W[i,a]+W[a,b]+W[b,j], W[i,b]+W[b,a]+W[a,j])`
applied to every node pair, provided the matrix was triangle-closed
before the write.  The remaining conjuncts show that closedness holds at
every such invocation in every run: it holds initially, it is preserved
by every `_add_road`, and every state produced by `_fill` on a valid
input is closed. -/
theorem propagate_matches_relaxation :
    (∀ doors total a b len st, st.data.length = total * (total - 1) / 2 →
      a < total → b < total → Closed total st.data →
      improves (dmGet total st.data a b) len = true →
      ∀ i j, i < total → j < total →
        dmGet total (propagate doors total a b len (commitSet doors total a b len st)).data i j
          = specRelax total (commitSet doors total a b len st).data a b len i j) ∧
    (∀ doors total a b len st, st.data.length = total * (total - 1) / 2 →
      a < total → b < total → Closed total st.data →
      Closed total (addRoad doors total a b len st).data) ∧
    (∀ total, Closed total (initSt total).data) ∧
    (∀ rooms doors pl pick fuel st, validInput rooms doors pl →
      fill (Template.make rooms doors pl) pick fuel = some st →
      Closed ((rooms + 1) * doors) st.data) := by
  refine ⟨?_, ?_, initSt_closed, ?_⟩
  · intro doors total a b len st hlen ha hb hcl himp i j hi hj
    exact propagate_eq_relax doors total a b len st hlen ha hb himp hcl i j hi hj
  · intro doors total a b len st hlen ha hb hcl
    exact addRoad_closed doors total a b len st hlen ha hb hcl
  · intro rooms doors pl pick fuel st hval hfill
    exact (fill_runInv rooms doors pl pick fuel st hval hfill).2.1

/-- Witness for C2: a first seeded road on the 2-door empty matrix, and
the closedness of the finished `tEx` run. -/
theorem propagate_matches_relaxation_witness :
    (dmGet 2 (propagate 2 2 0 1 1 (commitSet 2 2 0 1 1 (initSt 2))).data 0 1
      = specRelax 2 (commitSet 2 2 0 1 1 (initSt 2)).data 0 1 1 0 1) ∧
    Closed 6 stEx.data :=
  ⟨propagate_matches_relaxation.1 2 2 0 1 1 (initSt 2) (by decide) (by decide) (by decide)
      (by decide) (by decide) 0 1 (by decide) (by decide),
   propagate_matches_relaxation.2.2.2 1 3
     [(⟨0, 0⟩, ⟨0, 2⟩), (⟨0, 2⟩, ⟨0, 1⟩), (⟨1, 0⟩, ⟨1, 1⟩)] pick0 100 stEx
     (by decide) (by decide)⟩

/-- Counterexample to claim C3 as stated: in the converged matrix of
`tEx`, the outer doors 0 and 1 are at distance 2, but the corresponding
pair in inner copy 1 is at distance 1 — strictly smaller, not equal.
(The inner copy has a direct link between its doors 0 and 1 that the
outer structure lacks.) -/
theorem inner_copy_not_exact :
    fill tEx pick0 100 = some stEx ∧
    dmGetNode tEx stEx ⟨0, 0⟩ ⟨0, 1⟩ = some 2 ∧
    dmGetNode tEx stEx ⟨1, 0⟩ ⟨1, 1⟩ = some 1 ∧
    (1 : Nat) ≠ 2 := by
  refine ⟨by decide, by decide, by decide, by decide⟩

/-- Claim C3 (amended): after construction converges on a valid
template, for every outer door pair with finite distance `d` and every
inner copy `r`, the corresponding inner pair has a finite distance of at
most `d` (it can be strictly smaller when the surrounding structure
gives the inner doors extra shortcuts, as `inner_copy_not_exact`
shows). -/
theorem inner_copy_le_outer (rooms doors : Nat) (pl : List (NodeIndex × NodeIndex))
    (pick : List (Nat × Nat) → Nat) (fuel : Nat) (st : St)
    (hval : validInput rooms doors pl)
    (hfill : fill (Template.make rooms doors pl) pick fuel = some st)
    (a b : Nat) (ha : a < doors) (hb : b < doors) (d : Nat)
    (hd : dmGetNode (Template.make rooms doors pl) st ⟨0, a⟩ ⟨0, b⟩ = some d)
    (r : Nat) (hr1 : 1 ≤ r) (hr2 : r ≤ rooms) :
    ∃ d2, dmGetNode (Template.make rooms doors pl) st ⟨r, a⟩ ⟨r, b⟩ = some d2 ∧ d2 ≤ d := by
  obtain ⟨hlen, hcl, hdom, hinv, hSnil⟩ := fill_runInv rooms doors pl pick fuel st hval hfill
  have hda : nodeIdx doors ⟨0, a⟩ = a := by show 0 * doors + a = a; omega
  have hdb : nodeIdx doors ⟨0, b⟩ = b := by show 0 * doors + b = b; omega
  have hd2 : dmGet ((rooms + 1) * doors) st.data a b = some d := by
    have : dmGetNode (Template.make rooms doors pl) st ⟨0, a⟩ ⟨0, b⟩
        = dmGet ((rooms + 1) * doors) st.data a b := by
      unfold dmGetNode
      simp only [Template.make]
      rw [hda, hdb]
    rw [← this]
    exact hd
  rcases hinv a b d ha hb hd2 with hS | hinner
  · rcases hS with hS | hS
    · rw [hSnil] at hS
      exact absurd hS (List.not_mem_nil _)
    · rw [hSnil] at hS
      exact absurd hS (List.not_mem_nil _)
  · obtain ⟨d2, hd2b, hle⟩ := hinner (r - 1) (by omega)
    refine ⟨d2, ?_, hle⟩
    have hia : nodeIdx doors ⟨r, a⟩ = (r - 1 + 1) * doors + a := by
      unfold nodeIdx
      have : r - 1 + 1 = r := by omega
      rw [this]
    have hib : nodeIdx doors ⟨r, b⟩ = (r - 1 + 1) * doors + b := by
      unfold nodeIdx
      have : r - 1 + 1 = r := by omega
      rw [this]
    unfold dmGetNode
    simp only [Template.make]
    rw [hia, hib]
    exact hd2b

/-- Witness for the amended C3 on the converged `tEx` run: outer doors 0
and 2 are at distance 1, and the matching pair of inner copy 1 is within
that bound. -/
theorem inner_copy_le_outer_witness :
    ∃ d2, dmGetNode (Template.make 1 3 [(⟨0, 0⟩, ⟨0, 2⟩), (⟨0, 2⟩, ⟨0, 1⟩), (⟨1, 0⟩, ⟨1, 1⟩)])
      stEx ⟨1, 0⟩ ⟨1, 2⟩ = some d2 ∧ d2 ≤ 1 :=
  inner_copy_le_outer 1 3 [(⟨0, 0⟩, ⟨0, 2⟩), (⟨0, 2⟩, ⟨0, 1⟩), (⟨1, 0⟩, ⟨1, 1⟩)] pick0 100 stEx
    (by decide) (by decide) 0 2 (by decide) (by decide) 1 (by decide) 1 (by decide) (by decide)

/-- Claim C5: every construction step (`_add_road`, and the frontier pop
step `_update`) only refines the matrix downwards — a cell, once set, is
never unset and never increased — and `_add_road(a, b, length)` leaves
the state completely unchanged whenever `W[a,b]` is already known and at
most `length`. -/
theorem matrix_monotone :
    (∀ doors total a b len st, dataLE (addRoad doors total a b len st).data st.data) ∧
    (∀ rooms doors total pick st, dataLE (update rooms doors total pick st).data st.data) ∧
    (∀ doors total a b len st c,
        dmGet total st.data a b = some c → c ≤ len → addRoad doors total a b len st = st) := by
  refine ⟨addRoad_dataLE, update_dataLE, ?_⟩
  intro doors total a b len st c hget hle
  unfold addRoad
  rw [hget]
  simp [improves, Nat.not_lt.2 hle]

/-- Witness for C5: a step on the converged matrix of `tEx` refines it,
and re-adding the already-known road `(0,0) - (0,2)` (distance 1) with
length 5 changes nothing. -/
theorem matrix_monotone_witness :
    dataLE (addRoad 3 6 0 1 1 stEx).data stEx.data ∧ addRoad 3 6 0 2 5 stEx = stEx :=
  ⟨matrix_monotone.1 3 6 0 1 1 stEx,
   matrix_monotone.2.2 3 6 0 2 5 stEx 1 (by decide) (by decide)⟩

/-! ## Termination of the fill loop -/

theorem countNone_cons_none (l : List (Option Nat)) :
    countNone (none :: l) = countNone l + 1 := by
  simp [countNone, List.countP_cons]

theorem countNone_cons_some (v : Nat) (l : List (Option Nat)) :
    countNone (some v :: l) = countNone l := by
  simp [countNone, List.countP_cons]

theorem sumSome_cons_none (l : List (Option Nat)) :
    sumSome (none :: l) = sumSome l := by
  simp [sumSome]

theorem sumSome_cons_some (v : Nat) (l : List (Option Nat)) :
    sumSome (some v :: l) = v + sumSome l := by
  simp [sumSome]

/-- Two data arrays of equal length that read equal everywhere are equal. -/
theorem data_ext {d1 d2 : List (Option Nat)} (hlen : d1.length = d2.length)
    (h : ∀ k, d1.getD k none = d2.getD k none) : d1 = d2 := by
  apply List.ext_getElem hlen
  intro i h1 h2
  have hk := h i
  rw [List.getD_eq_getElem?_getD, List.getD_eq_getElem?_getD,
    List.getElem?_eq_getElem h1, List.getElem?_eq_getElem h2] at hk
  simpa using hk

/-- The two measure components never go up along the pointwise downward
order, and any real change of the array strictly drops the pair
`(countNone, sumSome)` lexicographically. -/
theorem measure_lex : ∀ (d1 d2 : List (Option Nat)), d2.length = d1.length → dataLE d2 d1 →
    countNone d2 ≤ countNone d1 ∧
    (countNone d2 = countNone d1 → sumSome d2 ≤ sumSome d1) ∧
    (d2 ≠ d1 →
      countNone d2 < countNone d1 ∨
      (countNone d2 = countNone d1 ∧ sumSome d2 < sumSome d1)) := by
  intro d1
  induction d1 with
  | nil =>
      intro d2 hlen _
      have h0 : d2 = [] := by
        cases d2 with
        | nil => rfl
        | cons x t => simp at hlen
      subst h0
      exact ⟨Nat.le_refl _, fun _ => Nat.le_refl _, fun h => absurd rfl h⟩
  | cons x1 t1 ih =>
      intro d2 hlen hle
      cases d2 with
      | nil => simp at hlen
      | cons x2 t2 =>
          have hlent : t2.length = t1.length := by simpa using hlen
          have hhead : cellLE x2 x1 := by
            have hz := hle 0
            simpa using hz
          have htail : dataLE t2 t1 := by
            intro k
            have hk := hle (k + 1)
            simpa using hk
          obtain ⟨ihA, ihB, ihC⟩ := ih t2 hlent htail
          cases x1 with
          | none =>
              cases x2 with
              | none =>
                  refine ⟨?_, ?_, ?_⟩
                  · rw [countNone_cons_none, countNone_cons_none]; omega
                  · intro h
                    rw [countNone_cons_none, countNone_cons_none] at h
                    rw [sumSome_cons_none, sumSome_cons_none]
                    exact ihB (by omega)
                  · intro hne
                    have htne : t2 ≠ t1 := by
                      intro he; exact hne (by rw [he])
                    rcases ihC htne with h | ⟨hh1, hh2⟩
                    · left; rw [countNone_cons_none, countNone_cons_none]; omega
                    · right
                      rw [countNone_cons_none, countNone_cons_none,
                        sumSome_cons_none, sumSome_cons_none]
                      exact ⟨by omega, hh2⟩
              | some v2 =>
                  refine ⟨?_, ?_, ?_⟩
                  · rw [countNone_cons_none, countNone_cons_some]; omega
                  · intro h
                    rw [countNone_cons_none, countNone_cons_some] at h
                    omega
                  · intro _
                    left
                    rw [countNone_cons_none, countNone_cons_some]
                    omega
          | some v1 =>
              obtain ⟨w2, hx2, hw2⟩ := hhead v1 rfl
              subst hx2
              rw [countNone_cons_some, countNone_cons_some,
                sumSome_cons_some, sumSome_cons_some]
              refine ⟨ihA, ?_, ?_⟩
              · intro h
                have hs := ihB h
                omega
              · intro hne
                by_cases hw : w2 = v1
                · subst hw
                  have htne : t2 ≠ t1 := by
                    intro he
                    exact hne (by rw [he])
                  rcases ihC htne with h | ⟨hh1, hh2⟩
                  · exact Or.inl h
                  · exact Or.inr ⟨hh1, by omega⟩
                · rcases Nat.lt_or_ge (countNone t2) (countNone t1) with h | h
                  · exact Or.inl h
                  · have hEq : countNone t2 = countNone t1 := Nat.le_antisymm ihA h
                    right
                    refine ⟨hEq, ?_⟩
                    have hs := ihB hEq
                    omega

/-- When the `_add_road` guard passes, the write really changes the
array: the written cell takes a strictly improved value. -/
theorem commitSet_data_ne (doors total a b len : Nat) (st : St)
    (hlen : st.data.length = total * (total - 1) / 2)
    (ha : a < total) (hb : b < total)
    (himp : improves (dmGet total st.data a b) len = true) :
    (commitSet doors total a b len st).data ≠ st.data := by
  have hab : a ≠ b := improves_self_ne total st.data a b len himp
  intro he
  have h1 := dmGet_commitSet doors total a b len a b st hlen ha hb hab ha hb
  rw [if_pos (Or.inl ⟨rfl, rfl⟩), he] at h1
  rw [h1] at himp
  simp [improves] at himp

/-- `_add_road` either returns its input unchanged or really changes the
data array. -/
theorem addRoad_cases (doors total a b len : Nat) (st : St)
    (hlen : st.data.length = total * (total - 1) / 2)
    (ha : a < total) (hb : b < total) :
    addRoad doors total a b len st = st ∨
    (addRoad doors total a b len st).data ≠ st.data := by
  by_cases himp : improves (dmGet total st.data a b) len = true
  · right
    intro he
    obtain ⟨w, hw, hwle⟩ := addRoad_post doors total a b len st hlen ha hb
    rw [he] at hw
    rw [hw] at himp
    simp [improves] at himp
    omega
  · left
    unfold addRoad
    rw [if_neg himp]

/-- A fold of downward-refining, length-preserving steps that did not
change the data array did not change the state at all, provided each
single step with unchanged data is the identity. -/
theorem foldl_congr {β : Type} (f : St → β → St) (L : Nat)
    (hle : ∀ st x, dataLE (f st x).data st.data)
    (hlenf : ∀ st x, (f st x).data.length = st.data.length) :
    ∀ (l : List β),
      (∀ st x, x ∈ l → st.data.length = L → (f st x).data = st.data → f st x = st) →
      ∀ st, st.data.length = L → (l.foldl f st).data = st.data → l.foldl f st = st := by
  intro l
  induction l with
  | nil => intro _ st _ _; rfl
  | cons x xs ih =>
      intro hid st hL heq
      rw [List.foldl_cons] at heq ⊢
      have hdLE : dataLE (xs.foldl f (f st x)).data (f st x).data :=
        foldl_dataLE f hle xs (f st x)
      have hdeq : (f st x).data = st.data := by
        apply data_ext (hlenf st x)
        intro k
        have h2 := hdLE k
        rw [heq] at h2
        exact cellLE_antisymm (hle st x k) h2
      have hxid : f st x = st := hid st x (List.mem_cons_self x xs) hL hdeq
      rw [hxid] at heq ⊢
      exact ih (fun st2 y hy => hid st2 y (List.mem_cons_of_mem x hy)) st hL heq

/-- One `_update` pop strictly decreases the termination measure: the
number of unknown cells drops, or it stays put while the sum of known
distances drops, or the whole array is untouched and the frontier
strictly shrinks. -/
theorem update_dec (rooms doors total : Nat) (pick : List (Nat × Nat) → Nat) (st : St)
    (htot : total = (rooms + 1) * doors)
    (hlen : st.data.length = total * (total - 1) / 2)
    (hdom : ∀ p ∈ st.S, p.1 < doors ∧ p.2 < doors)
    (hS : st.S ≠ []) :
    countNone (update rooms doors total pick st).data < countNone st.data ∨
    (countNone (update rooms doors total pick st).data = countNone st.data ∧
      sumSome (update rooms doors total pick st).data < sumSome st.data) ∨
    ((update rooms doors total pick st).data = st.data ∧
      (update rooms doors total pick st).S.length < st.S.length) := by
  unfold update
  rw [if_neg hS]
  dsimp only
  set k := pick st.S % st.S.length with hkdef
  set q := st.S.getD k (0, 0) with hqdef
  set st1 : St := (⟨st.data, st.S.eraseIdx k⟩ : St) with hst1def
  have hklen : k < st.S.length := by
    rw [hkdef]
    exact Nat.mod_lt _ (List.length_pos.mpr hS)
  have hqmem : q ∈ st.S := getD_mem st.S k (0, 0) hklen
  have hqdom := hdom q hqmem
  have herase : (st.S.eraseIdx k).length < st.S.length := by
    have he1 : (st.S.eraseIdx k).length = st.S.length - 1 := by
      rw [List.length_eraseIdx]
      simp [hklen]
    omega
  cases hd0 : dmGet total st.data q.1 q.2 with
  | none =>
      right; right
      exact ⟨rfl, herase⟩
  | some d0 =>
      dsimp only
      by_cases hdata :
          ((List.range rooms).foldl (roomStep doors total q.1 q.2 d0) st1).data = st1.data
      · right; right
        have hid : ∀ (st2 : St) (r : Nat), r ∈ List.range rooms →
            st2.data.length = total * (total - 1) / 2 →
            (roomStep doors total q.1 q.2 d0 st2 r).data = st2.data →
            roomStep doors total q.1 q.2 d0 st2 r = st2 := by
          intro st2 r hr hL he
          have hbnd := roomStep_bounds rooms doors total q.1 q.2 hqdom.1 hqdom.2 htot r
            (List.mem_range.mp hr)
          rcases addRoad_cases doors total ((r + 1) * doors + q.1) ((r + 1) * doors + q.2) d0
            st2 hL hbnd.1 hbnd.2 with h | h
          · exact h
          · exact absurd he h
        have hfold := foldl_congr (roomStep doors total q.1 q.2 d0) (total * (total - 1) / 2)
          (fun s r => addRoad_dataLE doors total _ _ d0 s)
          (fun s r => length_roomStep doors total q.1 q.2 d0 s r)
          (List.range rooms) hid st1 hlen hdata
        rw [hfold]
        exact ⟨rfl, herase⟩
      · have hLE : dataLE ((List.range rooms).foldl (roomStep doors total q.1 q.2 d0) st1).data
            st1.data :=
          foldl_dataLE _ (fun s r => addRoad_dataLE doors total _ _ d0 s) _ st1
        have hlenf : ((List.range rooms).foldl (roomStep doors total q.1 q.2 d0) st1).data.length
            = st1.data.length :=
          foldl_length _ (fun s r => length_roomStep doors total q.1 q.2 d0 s r) _ st1
        obtain ⟨mA, mB, mC⟩ := measure_lex st1.data
          ((List.range rooms).foldl (roomStep doors total q.1 q.2 d0) st1).data hlenf hLE
        rcases mC hdata with h | ⟨h1, h2⟩
        · exact Or.inl h
        · exact Or.inr (Or.inl ⟨h1, h2⟩)

/-- On any state satisfying the run invariants, some finite fuel drains
the frontier (lexicographic descent of `(countNone, sumSome, |S|)`). -/
theorem fillLoop_terminates (rooms doors : Nat) (pick : List (Nat × Nat) → Nat) :
    ∀ st : St,
      st.data.length = ((rooms + 1) * doors) * ((rooms + 1) * doors - 1) / 2 →
      Closed ((rooms + 1) * doors) st.data →
      (∀ p ∈ st.S, p.1 < doors ∧ p.2 < doors) →
      InnerInv rooms doors ((rooms + 1) * doors) st →
      ∃ fuel, (fillLoop rooms doors ((rooms + 1) * doors) pick fuel st).isSome = true := by
  suffices h : ∀ c s l (st : St),
      countNone st.data = c → sumSome st.data = s → st.S.length = l →
      st.data.length = ((rooms + 1) * doors) * ((rooms + 1) * doors - 1) / 2 →
      Closed ((rooms + 1) * doors) st.data →
      (∀ p ∈ st.S, p.1 < doors ∧ p.2 < doors) →
      InnerInv rooms doors ((rooms + 1) * doors) st →
      ∃ fuel, (fillLoop rooms doors ((rooms + 1) * doors) pick fuel st).isSome = true by
    intro st h1 h2 h3 h4
    exact h _ _ _ st rfl rfl rfl h1 h2 h3 h4
  intro c
  induction c using Nat.strong_induction_on with
  | _ c ihc =>
    intro s
    induction s using Nat.strong_induction_on with
    | _ s ihs =>
      intro l
      induction l using Nat.strong_induction_on with
      | _ l ihl =>
        intro st hc hs hl h1 h2 h3 h4
        by_cases hS : st.S = []
        · refine ⟨0, ?_⟩
          unfold fillLoop
          rw [if_pos hS]
          rfl
        · obtain ⟨g1, g2, g3, g4⟩ :=
            runInv_update rooms doors ((rooms + 1) * doors) pick st rfl h1 h2 h3 h4
          have hdec := update_dec rooms doors ((rooms + 1) * doors) pick st rfl h1 h3 hS
          rcases hdec with hA | ⟨hBe, hB⟩ | ⟨hCe, hC⟩
          · obtain ⟨n, hn⟩ := ihc
              (countNone (update rooms doors ((rooms + 1) * doors) pick st).data)
              (by omega) _ _ _ rfl rfl rfl g1 g2 g3 g4
            refine ⟨n + 1, ?_⟩
            unfold fillLoop
            rw [if_neg hS]
            exact hn
          · obtain ⟨n, hn⟩ := ihs
              (sumSome (update rooms doors ((rooms + 1) * doors) pick st).data)
              (by omega) _ _ (by omega) rfl rfl g1 g2 g3 g4
            refine ⟨n + 1, ?_⟩
            unfold fillLoop
            rw [if_neg hS]
            exact hn
          · obtain ⟨n, hn⟩ := ihl
              ((update rooms doors ((rooms + 1) * doors) pick st).S.length)
              (by omega) _ (by rw [hCe]; exact hc) (by rw [hCe]; exact hs) rfl g1 g2 g3 g4
            refine ⟨n + 1, ?_⟩
            unfold fillLoop
            rw [if_neg hS]
            exact hn

/-- Claim C4: for every valid template, and whatever order the frontier
set yields its elements in, the construction of `DistMatrix` terminates:
some finite fuel suffices for the seeding phase plus the
`while updated_outer_links:` loop to drain the frontier and halt. -/
theorem construction_terminates (rooms doors : Nat) (pl : List (NodeIndex × NodeIndex))
    (pick : List (Nat × Nat) → Nat) (hval : validInput rooms doors pl) :
    ∃ fuel, (fill (Template.make rooms doors pl) pick fuel).isSome = true := by
  obtain ⟨h1, h2, h3, h4⟩ := runInv_seed rooms doors pl hval
  exact fillLoop_terminates rooms doors pick (seedPhase (Template.make rooms doors pl))
    h1 h2 h3 h4

/-- Witness for C4 at the concrete valid template of `tEx`. -/
theorem construction_terminates_witness :
    ∃ fuel, (fill (Template.make 1 3 [(⟨0, 0⟩, ⟨0, 2⟩), (⟨0, 2⟩, ⟨0, 1⟩), (⟨1, 0⟩, ⟨1, 1⟩)])
      pick0 fuel).isSome = true :=
  construction_terminates 1 3 [(⟨0, 0⟩, ⟨0, 2⟩), (⟨0, 2⟩, ⟨0, 1⟩), (⟨1, 0⟩, ⟨1, 1⟩)] pick0
    (by decide)

/-! ## The adjacency dictionary: lookup, counting, canonical enumeration -/

theorem linksOf_make (rooms doors : Nat) (pl : List (NodeIndex × NodeIndex)) (n : NodeIndex) :
    (Template.make rooms doors pl).linksOf n = dictGet (buildLinks pl) n := rfl

theorem dictGet_nil (n : NodeIndex) : dictGet [] n = [] := rfl

theorem dictGet_cons (k0 : NodeIndex) (vs : List NodeIndex) (rest : LinksDict) (n : NodeIndex) :
    dictGet ((k0, vs) :: rest) n = if k0 = n then vs else dictGet rest n := by
  by_cases h : k0 = n
  · rw [if_pos h]
    unfold dictGet
    rw [List.find?_cons_of_pos _ (by simp [h])]
  · rw [if_neg h]
    unfold dictGet
    rw [List.find?_cons_of_neg _ (by simp [h])]

theorem dictGet_dictAppend_self : ∀ (d : LinksDict) (k v : NodeIndex),
    dictGet (dictAppend d k v) k = dictGet d k ++ [v] := by
  intro d
  induction d with
  | nil =>
      intro k v
      unfold dictAppend
      rw [dictGet_cons, if_pos rfl, dictGet_nil]
      rfl
  | cons p rest ih =>
      intro k v
      obtain ⟨k0, vs⟩ := p
      unfold dictAppend
      by_cases h : k0 = k
      · rw [if_pos h, dictGet_cons, dictGet_cons, if_pos h, if_pos h]
      · rw [if_neg h, dictGet_cons, dictGet_cons, if_neg h, if_neg h, ih]

theorem dictGet_dictAppend_other : ∀ (d : LinksDict) (k v n : NodeIndex), n ≠ k →
    dictGet (dictAppend d k v) n = dictGet d n := by
  intro d
  induction d with
  | nil =>
      intro k v n hne
      unfold dictAppend
      rw [dictGet_cons, if_neg (fun h => hne h.symm), dictGet_nil]
  | cons p rest ih =>
      intro k v n hne
      obtain ⟨k0, vs⟩ := p
      unfold dictAppend
      by_cases h : k0 = k
      · rw [if_pos h, dictGet_cons, dictGet_cons]
        have hk0n : ¬ (k0 = n) := by
          intro he
          exact hne (by rw [← he, h])
        rw [if_neg hk0n, if_neg hk0n]
      · rw [if_neg h, dictGet_cons, dictGet_cons]
        by_cases h2 : k0 = n
        · rw [if_pos h2, if_pos h2]
        · rw [if_neg h2, if_neg h2, ih k v n hne]

/-- `List.count` over node pairs does not depend on which of the two
definitionally equivalent boolean-equality instances is used. -/
theorem count_pair_inst (l : List (NodeIndex × NodeIndex)) (a : NodeIndex × NodeIndex) :
    l.count a = @List.count _ instBEqOfDecidableEq a l := by
  induction l with
  | nil => rfl
  | cons x xs ih =>
      simp only [List.count_cons, ih]
      congr 1
      by_cases h : x = a
      · simp [instBEqOfDecidableEq, h]
      · simp [instBEqOfDecidableEq, h]

theorem count_dictAppend (d : LinksDict) (k w u v : NodeIndex) :
    ((dictGet (dictAppend d k w) u).count v)
      = (dictGet d u).count v + (if k = u ∧ w = v then 1 else 0) := by
  by_cases hk : k = u
  · subst hk
    rw [dictGet_dictAppend_self, List.count_append]
    by_cases hw : w = v
    · subst hw
      simp
    · simp [List.count_cons, hw]
  · rw [dictGet_dictAppend_other d k w u (fun h => hk h.symm)]
    simp [hk]

theorem count_foldl_dictAddLink : ∀ (pl : List (NodeIndex × NodeIndex)) (d : LinksDict)
    (u v : NodeIndex),
    ((dictGet (pl.foldl dictAddLink d) u).count v)
      = (dictGet d u).count v + pl.count (u, v) + pl.count (v, u) := by
  intro pl
  induction pl with
  | nil => intro d u v; simp
  | cons e rest ih =>
      intro d u v
      rw [List.foldl_cons, ih]
      have hadd : ∀ (f : NodeIndex × NodeIndex) (d2 : LinksDict),
          (dictGet (dictAddLink d2 f) u).count v
            = (dictGet d2 u).count v + (if f = (u, v) then 1 else 0)
              + (if f = (v, u) then 1 else 0) := by
        intro f d2
        obtain ⟨f1, f2⟩ := f
        show (dictGet (dictAppend (dictAppend d2 f1 f2) f2 f1) u).count v = _
        rw [count_dictAppend, count_dictAppend]
        simp only [Prod.mk.injEq]
        have hiff : (f2 = u ∧ f1 = v) ↔ (f1 = v ∧ f2 = u) :=
          Iff.intro (fun h => And.intro h.2 h.1) (fun h => And.intro h.2 h.1)
        rw [if_congr hiff rfl rfl]
      rw [hadd, List.count_cons, List.count_cons]
      by_cases h1 : e = (u, v) <;> by_cases h2 : e = (v, u) <;> simp [h1, h2] <;> omega

theorem count_buildLinks (pl : List (NodeIndex × NodeIndex)) (u v : NodeIndex) :
    ((dictGet (buildLinks pl) u).count v) = pl.count (u, v) + pl.count (v, u) := by
  have h := count_foldl_dictAddLink pl [] u v
  rw [dictGet_nil] at h
  simpa [buildLinks] using h

theorem dictKeys_dictAppend : ∀ (d : LinksDict) (k v : NodeIndex),
    dictKeys (dictAppend d k v)
      = if k ∈ dictKeys d then dictKeys d else dictKeys d ++ [k] := by
  intro d
  induction d with
  | nil =>
      intro k v
      simp [dictAppend, dictKeys]
  | cons p rest ih =>
      intro k v
      obtain ⟨k0, vs⟩ := p
      show dictKeys (if k0 = k then (k0, vs ++ [v]) :: rest else (k0, vs) :: dictAppend rest k v)
        = _
      by_cases h : k0 = k
      · rw [if_pos h]
        have hmem : k ∈ dictKeys ((k0, vs) :: rest) := by
          show k ∈ k0 :: dictKeys rest
          rw [h]
          exact List.mem_cons_self k _
        rw [if_pos hmem]
        show k0 :: dictKeys rest = k0 :: dictKeys rest
        rfl
      · rw [if_neg h]
        show k0 :: dictKeys (dictAppend rest k v) = _
        rw [ih]
        by_cases hm : k ∈ dictKeys rest
        · rw [if_pos hm]
          have hmem : k ∈ dictKeys ((k0, vs) :: rest) := by
            show k ∈ k0 :: dictKeys rest
            exact List.mem_cons_of_mem k0 hm
          rw [if_pos hmem]
          rfl
        · have hmem : ¬ k ∈ dictKeys ((k0, vs) :: rest) := by
            show ¬ k ∈ k0 :: dictKeys rest
            intro hc
            rcases List.mem_cons.mp hc with hc | hc
            · exact h (hc.symm)
            · exact hm hc
          rw [if_neg hm, if_neg hmem]
          rfl

theorem dictKeys_nodup_dictAppend (d : LinksDict) (k v : NodeIndex)
    (h : (dictKeys d).Nodup) : (dictKeys (dictAppend d k v)).Nodup := by
  rw [dictKeys_dictAppend]
  by_cases hm : k ∈ dictKeys d
  · rw [if_pos hm]
    exact h
  · rw [if_neg hm]
    rw [List.nodup_append]
    refine ⟨h, List.nodup_singleton k, ?_⟩
    intro x hx hx2
    rw [List.mem_singleton] at hx2
    subst hx2
    exact hm hx

theorem buildLinks_keys_nodup (pl : List (NodeIndex × NodeIndex)) :
    (dictKeys (buildLinks pl)).Nodup := by
  have h : ∀ (l : List (NodeIndex × NodeIndex)) (d : LinksDict), (dictKeys d).Nodup →
      (dictKeys (l.foldl dictAddLink d)).Nodup := by
    intro l
    induction l with
    | nil => intro d hd; exact hd
    | cons e rest ih =>
        intro d hd
        rw [List.foldl_cons]
        exact ih _ (dictKeys_nodup_dictAppend _ _ _ (dictKeys_nodup_dictAppend _ _ _ hd))
  exact h pl [] List.nodup_nil

theorem count_flatMap_keys (u v : NodeIndex) (d : LinksDict) (hu : u ∉ dictKeys d) :
    (d.flatMap (fun p => (p.2.filter (fun n2 => ! NodeIndex.ltb n2 p.1)).map
      (fun n2 => (p.1, n2)))).count (u, v) = 0 := by
  rw [List.count_eq_zero]
  intro hmem
  obtain ⟨p, hp, hm2⟩ := List.mem_flatMap.mp hmem
  obtain ⟨n2, _, heq⟩ := List.mem_map.mp hm2
  apply hu
  have h1 : p.1 = u := congrArg Prod.fst heq
  rw [← h1]
  exact List.mem_map.mpr ⟨p, hp, rfl⟩

theorem count_entries (u v : NodeIndex) (hvu : NodeIndex.ltb v u = false) :
    ∀ (d : LinksDict), (dictKeys d).Nodup →
    (d.flatMap (fun p => (p.2.filter (fun n2 => ! NodeIndex.ltb n2 p.1)).map
      (fun n2 => (p.1, n2)))).count (u, v) = (dictGet d u).count v := by
  intro d
  induction d with
  | nil => intro _; rfl
  | cons p rest ih =>
      intro hnd
      obtain ⟨k0, vs⟩ := p
      have hnd2 : (k0 :: dictKeys rest).Nodup := hnd
      rw [List.flatMap_cons, List.count_append]
      by_cases hk : k0 = u
      · subst hk
        have hinj : Function.Injective (fun n2 : NodeIndex => ((k0, n2) : NodeIndex × NodeIndex)) := by
          intro x y hxy
          exact congrArg Prod.snd hxy
        have hhead := List.count_map_of_injective
          (vs.filter (fun n2 => ! NodeIndex.ltb n2 k0)) _ hinj v
        have hfil : ((vs.filter (fun n2 => ! NodeIndex.ltb n2 k0)).count v) = vs.count v :=
          List.count_filter (by simp [hvu])
        rw [count_flatMap_keys k0 v rest (List.nodup_cons.mp hnd2).1]
        rw [dictGet_cons, if_pos rfl]
        rw [count_pair_inst]
        simpa [hfil] using hhead
      · have hhead0 : (((vs.filter (fun n2 => ! NodeIndex.ltb n2 k0)).map
            (fun n2 => ((k0, n2) : NodeIndex × NodeIndex))).count (u, v)) = 0 := by
          rw [List.count_eq_zero]
          intro hmem
          obtain ⟨n2, _, heq⟩ := List.mem_map.mp hmem
          exact hk (congrArg Prod.fst heq)
        rw [hhead0, dictGet_cons, if_neg hk, ih (List.nodup_cons.mp hnd2).2]
        omega

theorem all_links_count (rooms doors : Nat) (pl : List (NodeIndex × NodeIndex))
    (u v : NodeIndex) (hvu : NodeIndex.ltb v u = false) :
    ((Template.make rooms doors pl).all_links).count (u, v)
      = pl.count (u, v) + pl.count (v, u) := by
  have h := count_entries u v hvu (buildLinks pl) (buildLinks_keys_nodup pl)
  rw [count_buildLinks] at h
  exact h

theorem all_links_mem_ltb (t : Template) (e : NodeIndex × NodeIndex)
    (he : e ∈ t.all_links) : NodeIndex.ltb e.2 e.1 = false := by
  obtain ⟨p, hp, he2⟩ := List.mem_flatMap.mp he
  obtain ⟨n2, hn2, heq⟩ := List.mem_map.mp he2
  have hfil := (List.mem_filter.mp hn2).2
  rw [← heq]
  simpa using hfil

theorem ltb_asymm_of_ne (a b : NodeIndex) (hne : a ≠ b) (h : NodeIndex.ltb b a = false) :
    NodeIndex.ltb a b = true := by
  obtain ⟨a1, a2⟩ := a
  obtain ⟨b1, b2⟩ := b
  simp [NodeIndex.mk.injEq] at hne
  simp [NodeIndex.ltb] at h ⊢
  omega

theorem ltb_true_then_false (a b : NodeIndex) (h : NodeIndex.ltb a b = true) :
    NodeIndex.ltb b a = false := by
  obtain ⟨a1, a2⟩ := a
  obtain ⟨b1, b2⟩ := b
  simp [NodeIndex.ltb] at h ⊢
  omega

theorem count_pair_le_one (pl : List (NodeIndex × NodeIndex))
    (hnd : pl.Nodup)
    (hrev : ∀ e ∈ pl, ∀ f ∈ pl, ¬ (e.1 = f.2 ∧ e.2 = f.1)) :
    ∀ u v : NodeIndex, pl.count (u, v) + pl.count (v, u) ≤ 1 := by
  intro u v
  by_cases h1 : (u, v) ∈ pl
  · by_cases h2 : (v, u) ∈ pl
    · exact absurd ⟨rfl, rfl⟩ (hrev (u, v) h1 (v, u) h2)
    · have c2 : pl.count (v, u) = 0 := List.count_eq_zero.mpr h2
      have c1 : pl.count (u, v) ≤ 1 := by
        rw [count_pair_inst]
        exact List.nodup_iff_count_le_one.mp hnd _
      omega
  · have c1 : pl.count (u, v) = 0 := List.count_eq_zero.mpr h1
    have c2 : pl.count (v, u) ≤ 1 := by
      rw [count_pair_inst]
      exact List.nodup_iff_count_le_one.mp hnd _
    omega

/-- Counterexample to claim C7: `Template.__post_init__` performs no
validation whatsoever.  Constructing a template with door count 1
(outside the required range [2, 20]) and an edge whose door index 5 is
out of range [0, 1) succeeds silently: no error is raised and a
complete, fully usable template is produced, recording exactly the
given counts and adjacency. -/
theorem invalid_template_accepted :
    ¬ validInput 0 1 [(⟨0, 0⟩, ⟨0, 5⟩)] ∧
    (Template.make 0 1 [(⟨0, 0⟩, ⟨0, 5⟩)]).links
      = [(⟨0, 0⟩, [⟨0, 5⟩]), (⟨0, 5⟩, [⟨0, 0⟩])] ∧
    (Template.make 0 1 [(⟨0, 0⟩, ⟨0, 5⟩)]).all_links = [(⟨0, 0⟩, ⟨0, 5⟩)] :=
  ⟨by decide, rfl, rfl⟩

/-- Claim C7 (amended): `Template` construction performs no validation
at all.  For every door count, room count and edge list — in range or
not — the dataclass constructor plus `__post_init__` succeeds, and the
resulting template stores the given counts and registers every given
edge in its adjacency dictionary in both directions; nothing is ever
rejected. -/
theorem template_no_validation (rooms doors : Nat) (pl : List (NodeIndex × NodeIndex)) :
    (Template.make rooms doors pl).rooms = rooms ∧
    (Template.make rooms doors pl).doors = doors ∧
    ∀ e ∈ pl, e.2 ∈ (Template.make rooms doors pl).linksOf e.1 ∧
      e.1 ∈ (Template.make rooms doors pl).linksOf e.2 := by
  refine ⟨rfl, rfl, ?_⟩
  intro e he
  have hmem : (e.1, e.2) ∈ pl := by simpa using he
  have h1 : 0 < pl.count (e.1, e.2) := List.count_pos_iff.mpr hmem
  constructor
  · rw [linksOf_make, ← List.count_pos_iff, count_buildLinks]
    omega
  · rw [linksOf_make, ← List.count_pos_iff, count_buildLinks]
    omega

/-- Witness for the amended C7 at the out-of-range input of
`invalid_template_accepted`. -/
theorem template_no_validation_witness :
    (Template.make 0 1 [(⟨0, 0⟩, ⟨0, 5⟩)]).rooms = 0 ∧
    (Template.make 0 1 [(⟨0, 0⟩, ⟨0, 5⟩)]).doors = 1 ∧
    ∀ e ∈ [((⟨0, 0⟩ : NodeIndex), (⟨0, 5⟩ : NodeIndex))],
      e.2 ∈ (Template.make 0 1 [(⟨0, 0⟩, ⟨0, 5⟩)]).linksOf e.1 ∧
      e.1 ∈ (Template.make 0 1 [(⟨0, 0⟩, ⟨0, 5⟩)]).linksOf e.2 :=
  template_no_validation 0 1 [(⟨0, 0⟩, ⟨0, 5⟩)]

/-- Counterexample to claim C8: on a template built from an edge list
with a duplicate parallel edge, `all_links` yields that edge twice, not
exactly once. -/
theorem all_links_duplicate_edge :
    (Template.make 0 2 [(⟨0, 0⟩, ⟨0, 1⟩), (⟨0, 0⟩, ⟨0, 1⟩)]).all_links
      = [(⟨0, 0⟩, ⟨0, 1⟩), (⟨0, 0⟩, ⟨0, 1⟩)] ∧
    ((Template.make 0 2 [(⟨0, 0⟩, ⟨0, 1⟩), (⟨0, 0⟩, ⟨0, 1⟩)]).all_links.count
      ((⟨0, 0⟩ : NodeIndex), (⟨0, 1⟩ : NodeIndex))) = 2 :=
  ⟨rfl, rfl⟩

/-- Claim C8 (amended): for a template built from an edge list with no
duplicate edge (in either orientation, which also excludes self-loop
edges), `all_links` enumerates the adjacency canonically: every yielded
pair has the smaller node index first, and each undirected input edge
is yielded exactly once (in its canonical orientation) while absent
pairs are never yielded.  (`all_links_duplicate_edge` shows the
duplicate-edge case of the original claim fails.) -/
theorem all_links_canonical_once (rooms doors : Nat) (pl : List (NodeIndex × NodeIndex))
    (hnd : pl.Nodup)
    (hrev : ∀ e ∈ pl, ∀ f ∈ pl, ¬ (e.1 = f.2 ∧ e.2 = f.1)) :
    (∀ e ∈ (Template.make rooms doors pl).all_links, NodeIndex.ltb e.1 e.2 = true) ∧
    (∀ u v : NodeIndex, NodeIndex.ltb u v = true →
      ((Template.make rooms doors pl).all_links.count (u, v)
        = if (u, v) ∈ pl ∨ (v, u) ∈ pl then 1 else 0)) := by
  constructor
  · intro e he
    have hne : e.1 ≠ e.2 := by
      have hpl : ∀ f ∈ pl, f.1 ≠ f.2 ∧ f.2 ≠ f.1 := by
        intro f hf
        have hor := hrev f hf f hf
        constructor
        · intro hq
          exact hor ⟨hq, hq.symm⟩
        · intro hq
          exact hor ⟨hq.symm, hq⟩
      exact @all_links_prop (fun n1 n2 => n1 ≠ n2) rooms doors pl hpl e he
    exact ltb_asymm_of_ne e.1 e.2 hne
      (all_links_mem_ltb (Template.make rooms doors pl) e he)
  · intro u v huv
    rw [all_links_count rooms doors pl u v (ltb_true_then_false u v huv)]
    by_cases hm : (u, v) ∈ pl ∨ (v, u) ∈ pl
    · rw [if_pos hm]
      have hle := count_pair_le_one pl hnd hrev u v
      have hge : 1 ≤ pl.count (u, v) + pl.count (v, u) := by
        rcases hm with h | h
        · have hp := List.count_pos_iff.mpr h
          omega
        · have hp := List.count_pos_iff.mpr h
          omega
      omega
    · rw [if_neg hm]
      push_neg at hm
      rw [List.count_eq_zero.mpr hm.1, List.count_eq_zero.mpr hm.2]

/-- Witness for the amended C8 on the duplicate-free edge list of
`tEx`. -/
theorem all_links_canonical_once_witness :
    (∀ e ∈ (Template.make 1 3 [(⟨0, 0⟩, ⟨0, 2⟩), (⟨0, 2⟩, ⟨0, 1⟩),
        (⟨1, 0⟩, ⟨1, 1⟩)]).all_links, NodeIndex.ltb e.1 e.2 = true) ∧
    (∀ u v : NodeIndex, NodeIndex.ltb u v = true →
      ((Template.make 1 3 [(⟨0, 0⟩, ⟨0, 2⟩), (⟨0, 2⟩, ⟨0, 1⟩),
          (⟨1, 0⟩, ⟨1, 1⟩)]).all_links.count (u, v)
        = if (u, v) ∈ [((⟨0, 0⟩ : NodeIndex), (⟨0, 2⟩ : NodeIndex)), (⟨0, 2⟩, ⟨0, 1⟩),
              (⟨1, 0⟩, ⟨1, 1⟩)] ∨
            (v, u) ∈ [((⟨0, 0⟩ : NodeIndex), (⟨0, 2⟩ : NodeIndex)), (⟨0, 2⟩, ⟨0, 1⟩),
              (⟨1, 0⟩, ⟨1, 1⟩)]
          then 1 else 0)) :=
  all_links_canonical_once 1 3
    [(⟨0, 0⟩, ⟨0, 2⟩), (⟨0, 2⟩, ⟨0, 1⟩), (⟨1, 0⟩, ⟨1, 1⟩)] (by decide) (by decide)

/-! ## Pop-order independence: the run computes the greatest solution -/

theorem cellLE_oadd_pair {x y : Option Nat} {p q : Nat}
    (hx : cellLE x (some p)) (hy : cellLE y (some q)) :
    cellLE (oadd x y) (some (p + q)) := by
  obtain ⟨a2, hx2, hxle⟩ := hx p rfl
  obtain ⟨b2, hy2, hyle⟩ := hy q rfl
  intro v hv
  have hv2 : p + q = v := Option.some.inj hv
  refine ⟨a2 + b2, ?_, by omega⟩
  rw [hx2, hy2]
  rfl

/-- Two triangle steps through `a` and `b` in a closed matrix bound the
`(i, j)` cell by any bound on the three hops. -/
theorem sol_tri_bound {total : Nat} {N : List (Option Nat)} (hc : Closed total N)
    {i a b j left len right : Nat} (hi : i < total) (ha : a < total) (hb : b < total)
    (hj : j < total)
    (hia : cellLE (dmGet total N i a) (some left))
    (hab : cellLE (dmGet total N a b) (some len))
    (hbj : cellLE (dmGet total N b j) (some right)) :
    cellLE (dmGet total N i j) (some (left + len + right)) := by
  have h1 : cellLE (dmGet total N a j) (oadd (dmGet total N a b) (dmGet total N b j)) := by
    have h := hc a ha b hb j hj
    rw [oLEb_iff] at h
    exact h
  have h2 : cellLE (dmGet total N a j) (some (len + right)) :=
    cellLE_trans h1 (cellLE_oadd_pair hab hbj)
  have h3 : cellLE (dmGet total N i j) (oadd (dmGet total N i a) (dmGet total N a j)) := by
    have h := hc i hi a ha j hj
    rw [oLEb_iff] at h
    exact h
  have h4 : cellLE (dmGet total N i j) (some (left + (len + right))) :=
    cellLE_trans h3 (cellLE_oadd_pair hia h2)
  intro v hv
  have hv2 : left + len + right = v := Option.some.inj hv
  obtain ⟨w, hw, hwle⟩ := h4 (left + (len + right)) rfl
  exact ⟨w, hw, by omega⟩

theorem dom_commitSet (doors total a b len : Nat) {N : List (Option Nat)} (st : St)
    (hlen : st.data.length = total * (total - 1) / 2)
    (ha : a < total) (hb : b < total) (hab : a ≠ b)
    (hjust : cellLE (dmGet total N a b) (some len))
    (hDom : Dominated total N st.data) :
    Dominated total N (commitSet doors total a b len st).data := by
  intro x y hx hy
  rw [dmGet_commitSet doors total a b len x y st hlen ha hb hab hx hy]
  by_cases hc : (x = a ∧ y = b) ∨ (x = b ∧ y = a)
  · rw [if_pos hc]
    rcases hc with ⟨h1, h2⟩ | ⟨h1, h2⟩
    · subst h1
      subst h2
      exact hjust
    · subst h1
      subst h2
      rw [dmGet_comm]
      exact hjust
  · rw [if_neg hc]
    exact hDom x y hx hy

theorem dom_propInner (doors total a b len i left : Nat) {N : List (Option Nat)} (st : St)
    (j : Nat)
    (hlen : st.data.length = total * (total - 1) / 2)
    (hcN : Closed total N)
    (hi : i < total) (ha : a < total) (hb : b < total) (hj : j < total)
    (hleft : cellLE (dmGet total N i a) (some left))
    (hab : cellLE (dmGet total N a b) (some len))
    (hDom : Dominated total N st.data) :
    Dominated total N (propInner doors total a b len i left st j).data := by
  unfold propInner
  by_cases hskip : j = a ∨ (i = a ∧ j = b)
  · rw [if_pos hskip]
    exact hDom
  · rw [if_neg hskip]
    cases hbj : dmGet total st.data b j with
    | none => exact hDom
    | some right =>
        dsimp only
        by_cases himp : improves (dmGet total st.data i j) (left + len + right) = true
        · rw [if_pos himp]
          have hNbj : cellLE (dmGet total N b j) (some right) := by
            have h := hDom b j hb hj
            rw [hbj] at h
            exact h
          have hij : i ≠ j := improves_self_ne total st.data i j _ himp
          exact dom_commitSet doors total i j (left + len + right) st hlen hi hj hij
            (sol_tri_bound hcN hi ha hb hj hleft hab hNbj) hDom
        · rw [if_neg himp]
          exact hDom

theorem dom_propRow (doors total a b len : Nat) {N : List (Option Nat)} (st : St) (i : Nat)
    (hlen : st.data.length = total * (total - 1) / 2)
    (hcN : Closed total N)
    (hi : i < total) (ha : a < total) (hb : b < total)
    (hab : cellLE (dmGet total N a b) (some len))
    (hDom : Dominated total N st.data) :
    Dominated total N (propRow doors total a b len st i).data := by
  unfold propRow
  by_cases hib : i = b
  · rw [if_pos hib]
    exact hDom
  · rw [if_neg hib]
    cases hl : dmGet total st.data i a with
    | none => exact hDom
    | some left =>
        have hNleft : cellLE (dmGet total N i a) (some left) := by
          have h := hDom i a hi ha
          rw [hl] at h
          exact h
        have hfold := foldl_invariant
          (fun st2 => st2.data.length = total * (total - 1) / 2 ∧ Dominated total N st2.data)
          (propInner doors total a b len i left) (List.range total) st
          (fun st2 j hj hq =>
            ⟨by rw [length_propInner]; exact hq.1,
             dom_propInner doors total a b len i left st2 j hq.1 hcN hi ha hb
               (List.mem_range.mp hj) hNleft hab hq.2⟩)
          ⟨hlen, hDom⟩
        exact hfold.2

theorem dom_propagate (doors total a b len : Nat) {N : List (Option Nat)} (st : St)
    (hlen : st.data.length = total * (total - 1) / 2)
    (hcN : Closed total N)
    (ha : a < total) (hb : b < total)
    (hjust : cellLE (dmGet total N a b) (some len))
    (hDom : Dominated total N st.data) :
    Dominated total N (propagate doors total a b len st).data := by
  have hfold := foldl_invariant
    (fun st2 => st2.data.length = total * (total - 1) / 2 ∧ Dominated total N st2.data)
    (propRow doors total a b len) (List.range total) st
    (fun st2 i hi hq =>
      ⟨by rw [length_propRow]; exact hq.1,
       dom_propRow doors total a b len st2 i hq.1 hcN (List.mem_range.mp hi) ha hb hjust hq.2⟩)
    ⟨hlen, hDom⟩
  exact hfold.2

theorem dom_addRoad (doors total a b len : Nat) {N : List (Option Nat)} (st : St)
    (hlen : st.data.length = total * (total - 1) / 2)
    (hcN : Closed total N)
    (ha : a < total) (hb : b < total)
    (hjust : cellLE (dmGet total N a b) (some len))
    (hDom : Dominated total N st.data) :
    Dominated total N (addRoad doors total a b len st).data := by
  by_cases himp : improves (dmGet total st.data a b) len = true
  · rw [addRoad_eq_of_improves doors total a b len st himp]
    have hab : a ≠ b := improves_self_ne total st.data a b len himp
    have h1 := dom_commitSet doors total a b len st hlen ha hb hab hjust hDom
    exact dom_propagate doors total a b len _ (by rw [length_commitSet]; exact hlen)
      hcN ha hb hjust h1
  · unfold addRoad
    rw [if_neg himp]
    exact hDom

theorem dom_initSt (total : Nat) (N : List (Option Nat)) :
    Dominated total N (initSt total).data := by
  intro x y hx hy
  rw [dmGet_init]
  by_cases hxy : x = y
  · rw [if_pos hxy]
    subst hxy
    intro v hv
    have hv0 : 0 = v := Option.some.inj hv
    refine ⟨0, ?_, by omega⟩
    unfold dmGet
    rw [if_pos rfl]
  · rw [if_neg hxy]
    intro v hv
    exact Option.noConfusion hv

theorem dom_seed (rooms doors : Nat) (pl : List (NodeIndex × NodeIndex))
    {N : List (Option Nat)}
    (hval : validInput rooms doors pl)
    (hsolA : ∀ e ∈ (Template.make rooms doors pl).all_links,
      cellLE (dmGet ((rooms + 1) * doors) N (nodeIdx doors e.1) (nodeIdx doors e.2)) (some 1))
    (hcN : Closed ((rooms + 1) * doors) N) :
    Dominated ((rooms + 1) * doors) N (seedPhase (Template.make rooms doors pl)).data := by
  have hbounds : ∀ e ∈ (Template.make rooms doors pl).all_links,
      nodeIdx doors e.1 < (rooms + 1) * doors ∧ nodeIdx doors e.2 < (rooms + 1) * doors := by
    refine @all_links_prop
      (fun n1 n2 => nodeIdx doors n1 < (rooms + 1) * doors ∧
        nodeIdx doors n2 < (rooms + 1) * doors) rooms doors pl ?_
    intro e he
    obtain ⟨h1, h2, h3, h4⟩ := hval.2.2.2 e he
    exact ⟨⟨nodeIdx_lt rooms doors _ _ h1 h2, nodeIdx_lt rooms doors _ _ h3 h4⟩,
           ⟨nodeIdx_lt rooms doors _ _ h3 h4, nodeIdx_lt rooms doors _ _ h1 h2⟩⟩
  have hfold := foldl_invariant
    (fun st2 => st2.data.length = ((rooms + 1) * doors) * ((rooms + 1) * doors - 1) / 2 ∧
      Dominated ((rooms + 1) * doors) N st2.data)
    (fun s e => addRoad doors ((rooms + 1) * doors) (nodeIdx doors e.1) (nodeIdx doors e.2) 1 s)
    (Template.make rooms doors pl).all_links (initSt ((rooms + 1) * doors))
    (fun st2 e hemem hq =>
      ⟨by rw [length_addRoad]; exact hq.1,
       dom_addRoad doors ((rooms + 1) * doors) _ _ 1 st2 hq.1 hcN (hbounds e hemem).1
         (hbounds e hemem).2 (hsolA e hemem) hq.2⟩)
    ⟨initSt_length _, dom_initSt _ _⟩
  exact hfold.2

theorem dom_update (rooms doors total : Nat) (pick : List (Nat × Nat) → Nat) (st : St)
    {N : List (Option Nat)}
    (htot : total = (rooms + 1) * doors)
    (hlen : st.data.length = total * (total - 1) / 2)
    (hdom : ∀ p ∈ st.S, p.1 < doors ∧ p.2 < doors)
    (hcN : Closed total N)
    (hsolC : ∀ u v r, u < doors → v < doors → r < rooms →
      cellLE (dmGet total N ((r + 1) * doors + u) ((r + 1) * doors + v)) (dmGet total N u v))
    (hDom : Dominated total N st.data) :
    Dominated total N (update rooms doors total pick st).data := by
  have hdt : doors ≤ total := by
    rw [htot]
    calc doors = 1 * doors := by ring
      _ ≤ (rooms + 1) * doors := Nat.mul_le_mul_right doors (by omega)
  by_cases hS : st.S = []
  · unfold update
    rw [if_pos hS]
    exact hDom
  · unfold update
    rw [if_neg hS]
    dsimp only
    set k := pick st.S % st.S.length with hkdef
    set q := st.S.getD k (0, 0) with hqdef
    set st1 : St := (⟨st.data, st.S.eraseIdx k⟩ : St) with hst1def
    have hklen : k < st.S.length := by
      rw [hkdef]
      exact Nat.mod_lt _ (List.length_pos.mpr hS)
    have hqmem : q ∈ st.S := getD_mem st.S k (0, 0) hklen
    have hqdom := hdom q hqmem
    cases hd0 : dmGet total st.data q.1 q.2 with
    | none => exact hDom
    | some d0 =>
        dsimp only
        have hNq : cellLE (dmGet total N q.1 q.2) (some d0) := by
          have h := hDom q.1 q.2 (Nat.lt_of_lt_of_le hqdom.1 hdt)
            (Nat.lt_of_lt_of_le hqdom.2 hdt)
          rw [hd0] at h
          exact h
        have hfold := foldl_invariant
          (fun st2 => st2.data.length = total * (total - 1) / 2 ∧ Dominated total N st2.data)
          (roomStep doors total q.1 q.2 d0) (List.range rooms) st1
          (fun st2 r hr hq2 => by
            have hrr := List.mem_range.mp hr
            have hbnd := roomStep_bounds rooms doors total q.1 q.2 hqdom.1 hqdom.2 htot r hrr
            refine ⟨by rw [length_roomStep]; exact hq2.1, ?_⟩
            have hjust : cellLE
                (dmGet total N ((r + 1) * doors + q.1) ((r + 1) * doors + q.2)) (some d0) :=
              cellLE_trans (hsolC q.1 q.2 r hqdom.1 hqdom.2 hrr) hNq
            exact dom_addRoad doors total _ _ d0 st2 hq2.1 hcN hbnd.1 hbnd.2 hjust hq2.2)
          ⟨hlen, hDom⟩
        exact hfold.2

/-- Every state reached by a finished `fill` run lies above every
solution of the constraint system. -/
theorem fill_dominated (rooms doors : Nat) (pl : List (NodeIndex × NodeIndex))
    (pick : List (Nat × Nat) → Nat) (fuel : Nat) (st : St) {N : List (Option Nat)}
    (hval : validInput rooms doors pl)
    (hsol : IsSolution rooms doors (Template.make rooms doors pl) N)
    (hfill : fill (Template.make rooms doors pl) pick fuel = some st) :
    Dominated ((rooms + 1) * doors) N st.data := by
  obtain ⟨hA, hB, hC⟩ := hsol
  obtain ⟨hs1, hs2, hs3, hs4⟩ := runInv_seed rooms doors pl hval
  have hloop := fillLoop_invariant rooms doors ((rooms + 1) * doors) pick
    (fun st2 => (st2.data.length = ((rooms + 1) * doors) * ((rooms + 1) * doors - 1) / 2 ∧
      Closed ((rooms + 1) * doors) st2.data ∧
      (∀ p ∈ st2.S, p.1 < doors ∧ p.2 < doors) ∧
      InnerInv rooms doors ((rooms + 1) * doors) st2) ∧
      Dominated ((rooms + 1) * doors) N st2.data)
    (fun st2 hq =>
      ⟨runInv_update rooms doors ((rooms + 1) * doors) pick st2 rfl hq.1.1 hq.1.2.1
         hq.1.2.2.1 hq.1.2.2.2,
       dom_update rooms doors ((rooms + 1) * doors) pick st2 rfl hq.1.1 hq.1.2.2.1
         hB hC hq.2⟩)
    fuel (seedPhase (Template.make rooms doors pl)) st
    ⟨⟨hs1, hs2, hs3, hs4⟩, dom_seed rooms doors pl hval hA hB⟩ hfill
  exact hloop.2

theorem seedFold_post (doors total : Nat) (e : NodeIndex × NodeIndex) :
    ∀ (l : List (NodeIndex × NodeIndex)) (s : St), e ∈ l →
      (∀ f ∈ l, nodeIdx doors f.1 < total ∧ nodeIdx doors f.2 < total) →
      s.data.length = total * (total - 1) / 2 →
      ∃ w, dmGet total ((l.foldl (fun s2 f => addRoad doors total (nodeIdx doors f.1)
        (nodeIdx doors f.2) 1 s2) s).data) (nodeIdx doors e.1) (nodeIdx doors e.2)
        = some w ∧ w ≤ 1 := by
  intro l
  induction l with
  | nil => intro s hmem; exact absurd hmem (List.not_mem_nil e)
  | cons f rest ih =>
      intro s hmem hb hlen
      rw [List.foldl_cons]
      by_cases hr : e ∈ rest
      · exact ih _ hr (fun x hx => hb x (List.mem_cons_of_mem f hx))
          (by rw [length_addRoad]; exact hlen)
      · have hef : e = f := by
          rcases List.mem_cons.mp hmem with h | h
          · exact h
          · exact absurd h hr
        subst hef
        have hbe := hb e (List.mem_cons_self e rest)
        obtain ⟨w0, hw0, hw0le⟩ := addRoad_post doors total (nodeIdx doors e.1)
          (nodeIdx doors e.2) 1 s hlen hbe.1 hbe.2
        obtain ⟨w, hw, hwle⟩ := dmGet_cellLE total
          (foldl_dataLE _ (fun s2 x => addRoad_dataLE doors total _ _ 1 s2) rest _)
          (nodeIdx doors e.1) (nodeIdx doors e.2) w0 hw0
        exact ⟨w, hw, by omega⟩

theorem fillLoop_dataLE (rooms doors total : Nat) (pick : List (Nat × Nat) → Nat) :
    ∀ (fuel : Nat) (st st2 : St),
      fillLoop rooms doors total pick fuel st = some st2 → dataLE st2.data st.data := by
  intro fuel
  induction fuel with
  | zero =>
      intro st st2 h
      unfold fillLoop at h
      by_cases hS : st.S = []
      · rw [if_pos hS] at h
        cases h
        exact dataLE_refl _
      · rw [if_neg hS] at h
        cases h
  | succ n ih =>
      intro st st2 h
      unfold fillLoop at h
      by_cases hS : st.S = []
      · rw [if_pos hS] at h
        cases h
        exact dataLE_refl _
      · rw [if_neg hS] at h
        exact dataLE_trans (ih _ st2 h) (update_dataLE rooms doors total pick st)

/-- Every finished `fill` run itself solves the constraint system. -/
theorem fill_isSolution (rooms doors : Nat) (pl : List (NodeIndex × NodeIndex))
    (pick : List (Nat × Nat) → Nat) (fuel : Nat) (st : St)
    (hval : validInput rooms doors pl)
    (hfill : fill (Template.make rooms doors pl) pick fuel = some st) :
    IsSolution rooms doors (Template.make rooms doors pl) st.data := by
  obtain ⟨hlen, hcl, hdom, hinv, hSnil⟩ := fill_runInv rooms doors pl pick fuel st hval hfill
  have hbounds : ∀ e ∈ (Template.make rooms doors pl).all_links,
      nodeIdx doors e.1 < (rooms + 1) * doors ∧ nodeIdx doors e.2 < (rooms + 1) * doors := by
    refine @all_links_prop
      (fun n1 n2 => nodeIdx doors n1 < (rooms + 1) * doors ∧
        nodeIdx doors n2 < (rooms + 1) * doors) rooms doors pl ?_
    intro e he
    obtain ⟨h1, h2, h3, h4⟩ := hval.2.2.2 e he
    exact ⟨⟨nodeIdx_lt rooms doors _ _ h1 h2, nodeIdx_lt rooms doors _ _ h3 h4⟩,
           ⟨nodeIdx_lt rooms doors _ _ h3 h4, nodeIdx_lt rooms doors _ _ h1 h2⟩⟩
  refine ⟨?_, hcl, ?_⟩
  · intro e he
    obtain ⟨w0, hw0, hw0le⟩ := seedFold_post doors ((rooms + 1) * doors) e
      (Template.make rooms doors pl).all_links (initSt ((rooms + 1) * doors)) he hbounds
      (initSt_length _)
    have hLE : dataLE st.data (seedPhase (Template.make rooms doors pl)).data :=
      fillLoop_dataLE rooms doors ((rooms + 1) * doors) pick fuel
        (seedPhase (Template.make rooms doors pl)) st hfill
    obtain ⟨w, hw, hwle⟩ := dmGet_cellLE ((rooms + 1) * doors) hLE
      (nodeIdx doors e.1) (nodeIdx doors e.2) w0 hw0
    intro v hv
    have hv1 : 1 = v := Option.some.inj hv
    exact ⟨w, hw, by omega⟩
  · intro u v r hu hv hr
    cases hget : dmGet ((rooms + 1) * doors) st.data u v with
    | none =>
        intro w hw
        exact Option.noConfusion hw
    | some d =>
        rcases hinv u v d hu hv hget with hS | hinner
        · rw [hSnil] at hS
          rcases hS with h | h
          · exact absurd h (List.not_mem_nil _)
          · exact absurd h (List.not_mem_nil _)
        · obtain ⟨d2, hd2, hle⟩ := hinner r hr
          intro w hw
          have hwd : d = w := Option.some.inj hw
          exact ⟨d2, hd2, by omega⟩

/-- Claim C9: the converged matrix is independent of the order in which
pairs are popped from the frontier set.  Any two finished construction
runs over the same valid template, whatever their pop policies and fuel,
agree on `get(n1, n2)` for every pair of materialized nodes: each run
both solves the order-free constraint system (links at most 1,
triangle-closedness, inner copies at most the outer pair) and lies above
every solution of it, so any two runs coincide by antisymmetry. -/
theorem pop_order_independent (rooms doors : Nat) (pl : List (NodeIndex × NodeIndex))
    (pick1 pick2 : List (Nat × Nat) → Nat) (fuel1 fuel2 : Nat) (st1 st2 : St)
    (hval : validInput rooms doors pl)
    (h1 : fill (Template.make rooms doors pl) pick1 fuel1 = some st1)
    (h2 : fill (Template.make rooms doors pl) pick2 fuel2 = some st2) :
    ∀ n1 n2 : NodeIndex, n1.room ≤ rooms → n1.door < doors →
      n2.room ≤ rooms → n2.door < doors →
      dmGetNode (Template.make rooms doors pl) st1 n1 n2
        = dmGetNode (Template.make rooms doors pl) st2 n1 n2 := by
  have hs1 := fill_isSolution rooms doors pl pick1 fuel1 st1 hval h1
  have hs2 := fill_isSolution rooms doors pl pick2 fuel2 st2 hval h2
  have hd12 := fill_dominated rooms doors pl pick1 fuel1 st1 hval hs2 h1
  have hd21 := fill_dominated rooms doors pl pick2 fuel2 st2 hval hs1 h2
  intro n1 n2 hr1 hdo1 hr2 hdo2
  have hx : nodeIdx doors n1 < (rooms + 1) * doors := nodeIdx_lt rooms doors _ _ hr1 hdo1
  have hy : nodeIdx doors n2 < (rooms + 1) * doors := nodeIdx_lt rooms doors _ _ hr2 hdo2
  have e1 := hd12 (nodeIdx doors n1) (nodeIdx doors n2) hx hy
  have e2 := hd21 (nodeIdx doors n1) (nodeIdx doors n2) hx hy
  show dmGet ((rooms + 1) * doors) st1.data (nodeIdx doors n1) (nodeIdx doors n2)
    = dmGet ((rooms + 1) * doors) st2.data (nodeIdx doors n1) (nodeIdx doors n2)
  exact cellLE_antisymm e2 e1

/-- Witness for C9: the `pick0` and `pickLast` runs on `tEx` agree on
the node pair `(0,0) - (1,1)`. -/
theorem pop_order_independent_witness :
    dmGetNode (Template.make 1 3 [(⟨0, 0⟩, ⟨0, 2⟩), (⟨0, 2⟩, ⟨0, 1⟩), (⟨1, 0⟩, ⟨1, 1⟩)])
        stEx ⟨0, 0⟩ ⟨1, 1⟩
      = dmGetNode (Template.make 1 3 [(⟨0, 0⟩, ⟨0, 2⟩), (⟨0, 2⟩, ⟨0, 1⟩), (⟨1, 0⟩, ⟨1, 1⟩)])
          stEx2 ⟨0, 0⟩ ⟨1, 1⟩ :=
  pop_order_independent 1 3 [(⟨0, 0⟩, ⟨0, 2⟩), (⟨0, 2⟩, ⟨0, 1⟩), (⟨1, 0⟩, ⟨1, 1⟩)]
    pick0 pickLast 100 100 stEx stEx2 (by decide) (by decide) (by decide)
    ⟨0, 0⟩ ⟨1, 1⟩ (by decide) (by decide) (by decide) (by decide)

/-! ## Basic facts about labyrinth walks -/

theorem IEdge_symm {pl : List (NodeIndex × NodeIndex)} {x y : INode}
    (h : IEdge pl x y) : IEdge pl y x := by
  obtain ⟨c, e, he, hor⟩ := h
  exact ⟨c, e, he, hor.symm⟩

theorem Reach_trans {pl : List (NodeIndex × NodeIndex)} :
    ∀ {m : Nat} {x y : INode}, Reach pl x y m →
    ∀ {n : Nat} {z : INode}, Reach pl y z n → Reach pl x z (m + n) := by
  intro m x y h1
  induction h1 with
  | refl x =>
      intro n z h2
      simpa using h2
  | step he hr ih =>
      intro n z h2
      rw [Nat.add_right_comm]
      exact Reach.step he (ih h2)

theorem Reach_snoc {pl : List (NodeIndex × NodeIndex)} :
    ∀ {m : Nat} {x y : INode}, Reach pl x y m →
    ∀ {z : INode}, IEdge pl y z → Reach pl x z (m + 1) := by
  intro m x y h1
  induction h1 with
  | refl x =>
      intro z he
      exact Reach.step he (Reach.refl z)
  | step he2 hr ih =>
      intro z he
      exact Reach.step he2 (ih he)

theorem Reach_symm {pl : List (NodeIndex × NodeIndex)} :
    ∀ {m : Nat} {x y : INode}, Reach pl x y m → Reach pl y x m := by
  intro m x y h
  induction h with
  | refl x => exact Reach.refl x
  | step he hr ih => exact Reach_snoc ih (IEdge_symm he)

theorem embed_prep (j : Nat) (c : List Nat) (n : NodeIndex) :
    prep j (embed c n) = embed (j :: c) n := by
  by_cases h : n.room = 0
  · unfold embed
    rw [if_pos h, if_pos h]
    rfl
  · unfold embed
    rw [if_neg h, if_neg h]
    rfl

theorem IEdge_prep {pl : List (NodeIndex × NodeIndex)} (j : Nat) {x y : INode}
    (h : IEdge pl x y) : IEdge pl (prep j x) (prep j y) := by
  obtain ⟨c, e, he, hor⟩ := h
  refine ⟨j :: c, e, he, ?_⟩
  rcases hor with ⟨h1, h2⟩ | ⟨h1, h2⟩
  · left
    rw [← embed_prep, ← embed_prep, h1, h2]
    exact ⟨rfl, rfl⟩
  · right
    rw [← embed_prep, ← embed_prep, h1, h2]
    exact ⟨rfl, rfl⟩

theorem Reach_prep {pl : List (NodeIndex × NodeIndex)} (j : Nat) :
    ∀ {m : Nat} {x y : INode}, Reach pl x y m → Reach pl (prep j x) (prep j y) m := by
  intro m x y h
  induction h with
  | refl x => exact Reach.refl _
  | step he hr ih => exact Reach.step (IEdge_prep j he) ih

theorem ReachD_toReach {pl : List (NodeIndex × NodeIndex)} {k : Nat} :
    ∀ {m : Nat} {x y : INode}, ReachD pl k x y m → Reach pl x y m := by
  intro m x y h
  induction h with
  | refl x => exact Reach.refl x
  | step he hd hr ih => exact Reach.step he ih

theorem ReachD_mono {pl : List (NodeIndex × NodeIndex)} {k k2 : Nat} (hk : k ≤ k2) :
    ∀ {m : Nat} {x y : INode}, ReachD pl k x y m → ReachD pl k2 x y m := by
  intro m x y h
  induction h with
  | refl x => exact ReachD.refl x
  | step he hd hr ih => exact ReachD.step he (Nat.le_trans hd hk) ih

theorem Reach_toD {pl : List (NodeIndex × NodeIndex)} :
    ∀ {m : Nat} {x y : INode}, Reach pl x y m → ∃ k, ReachD pl k x y m := by
  intro m x y h
  induction h with
  | refl x => exact ⟨0, ReachD.refl x⟩
  | @step x2 y2 z2 n2 he hr ih =>
      obtain ⟨k, hk⟩ := ih
      exact ⟨max y2.1.length k,
        ReachD.step he (Nat.le_max_left _ _) (ReachD_mono (Nat.le_max_right _ _) hk)⟩

/-! ## Arithmetic of the materialized embedding -/

theorem embIdx_outer (doors x : Nat) (hx : x < doors) :
    embIdx doors x = ([], x) := by
  unfold embIdx
  rw [if_pos (Nat.div_eq_of_lt hx), Nat.mod_eq_of_lt hx]

theorem embIdx_copy (doors q r : Nat) (hq : q < doors) :
    embIdx doors ((r + 1) * doors + q) = ([r + 1], q) := by
  have hd : 0 < doors := Nat.lt_of_le_of_lt (Nat.zero_le q) hq
  have hcomm : (r + 1) * doors + q = q + (r + 1) * doors := by omega
  have h1 : ((r + 1) * doors + q) / doors = r + 1 := by
    rw [hcomm, Nat.add_mul_div_right q (r + 1) hd, Nat.div_eq_of_lt hq]
    omega
  have h2 : ((r + 1) * doors + q) % doors = q := by
    rw [hcomm, Nat.add_mul_mod_self_right, Nat.mod_eq_of_lt hq]
  unfold embIdx
  rw [if_neg (by rw [h1]; omega), h1, h2]

theorem embed_nil_embIdx (doors : Nat) (n : NodeIndex) (hdoor : n.door < doors) :
    embIdx doors (nodeIdx doors n) = embed [] n := by
  unfold nodeIdx
  by_cases h : n.room = 0
  · rw [h]
    have hz : 0 * doors + n.door = n.door := by omega
    rw [hz, embIdx_outer doors n.door hdoor]
    unfold embed
    rw [if_pos h]
  · have hr : n.room * doors + n.door = (n.room - 1 + 1) * doors + n.door := by
      have : n.room - 1 + 1 = n.room := by omega
      rw [this]
    rw [hr, embIdx_copy doors n.door (n.room - 1) hdoor]
    unfold embed
    rw [if_neg h]
    have h2 : n.room - 1 + 1 = n.room := by omega
    rw [h2]
    rfl

theorem embIdx_inj (doors x y : Nat) (h : embIdx doors x = embIdx doors y) : x = y := by
  have e1 := Nat.div_add_mod x doors
  have e2 := Nat.div_add_mod y doors
  unfold embIdx at h
  by_cases hx : x / doors = 0
  · by_cases hy : y / doors = 0
    · rw [if_pos hx, if_pos hy] at h
      simp only [Prod.mk.injEq] at h
      rw [hx] at e1
      rw [hy] at e2
      simp at e1 e2
      omega
    · rw [if_pos hx, if_neg hy] at h
      simp [Prod.mk.injEq] at h
  · by_cases hy : y / doors = 0
    · rw [if_neg hx, if_pos hy] at h
      simp [Prod.mk.injEq] at h
    · rw [if_neg hx, if_neg hy] at h
      simp only [Prod.mk.injEq, List.cons.injEq, and_true] at h
      obtain ⟨hdiv, hmod⟩ := h
      rw [← e2, ← hdiv, ← hmod]
      exact e1.symm

theorem embIdx_cases (doors rooms ix : Nat) (hd : 0 < doors)
    (hix : ix < (rooms + 1) * doors) :
    (ix < doors ∧ embIdx doors ix = ([], ix)) ∨
    (doors ≤ ix ∧ 1 ≤ ix / doors ∧ ix / doors ≤ rooms ∧
      ix % doors < doors ∧ embIdx doors ix = ([ix / doors], ix % doors)) := by
  by_cases h : ix < doors
  · exact Or.inl ⟨h, embIdx_outer doors ix h⟩
  · right
    have hle : doors ≤ ix := Nat.le_of_not_lt h
    have hdiv1 : 1 ≤ ix / doors := Nat.one_le_div_iff hd |>.mpr hle
    have hdivle : ix / doors ≤ rooms := by
      have h2 := (Nat.div_lt_iff_lt_mul hd).mpr hix
      omega
    refine ⟨hle, hdiv1, hdivle, Nat.mod_lt ix hd, ?_⟩
    unfold embIdx
    rw [if_neg (by omega)]

theorem embIdx_depth (doors ix : Nat) : (embIdx doors ix).1.length ≤ 1 := by
  unfold embIdx
  by_cases h : ix / doors = 0
  · rw [if_pos h]
    exact Nat.zero_le 1
  · rw [if_neg h]
    exact Nat.le_refl 1

/-! ## Orientation-free view of corridors -/

theorem IEdge_of_oedge {pl : List (NodeIndex × NodeIndex)} (c : List Nat) {p q : NodeIndex}
    (h : OEdge pl p q) : IEdge pl (embed c p) (embed c q) := by
  rcases h with h | h
  · exact ⟨c, (p, q), h, Or.inl ⟨rfl, rfl⟩⟩
  · exact ⟨c, (q, p), h, Or.inr ⟨rfl, rfl⟩⟩

theorem IEdge_iff {pl : List (NodeIndex × NodeIndex)} {x y : INode} :
    IEdge pl x y ↔ ∃ c p q, OEdge pl p q ∧ embed c p = x ∧ embed c q = y := by
  constructor
  · intro h
    obtain ⟨c, e, he, hor⟩ := h
    rcases hor with ⟨h1, h2⟩ | ⟨h1, h2⟩
    · exact ⟨c, e.1, e.2, Or.inl he, h1, h2⟩
    · exact ⟨c, e.2, e.1, Or.inr he, h2, h1⟩
  · intro h
    obtain ⟨c, p, q, hpq, h1, h2⟩ := h
    rw [← h1, ← h2]
    exact IEdge_of_oedge c hpq

theorem oedge_valid {rooms doors : Nat} {pl : List (NodeIndex × NodeIndex)}
    (hval : validInput rooms doors pl) {p q : NodeIndex} (h : OEdge pl p q) :
    p.room ≤ rooms ∧ p.door < doors ∧ q.room ≤ rooms ∧ q.door < doors := by
  rcases h with h | h
  · obtain ⟨h1, h2, h3, h4⟩ := hval.2.2.2 (p, q) h
    exact ⟨h1, h2, h3, h4⟩
  · obtain ⟨h1, h2, h3, h4⟩ := hval.2.2.2 (q, p) h
    exact ⟨h3, h4, h1, h2⟩

theorem embed_room0 (c : List Nat) (n : NodeIndex) (h : n.room = 0) :
    embed c n = (c, n.door) := by
  unfold embed
  rw [if_pos h]

theorem embed_roomS (c : List Nat) (n : NodeIndex) (h : ¬ n.room = 0) :
    embed c n = (c ++ [n.room], n.door) := by
  unfold embed
  rw [if_neg h]

theorem embed_depth_le (c : List Nat) (n : NodeIndex) :
    (embed c n).1.length ≤ c.length + 1 := by
  unfold embed
  split
  · exact Nat.le_succ _
  · simp

theorem embed_depth_ge (c : List Nat) (n : NodeIndex) :
    c.length ≤ (embed c n).1.length := by
  unfold embed
  split
  · exact Nat.le_refl _
  · simp

/-! ## Soundness of the construction: every cell is realized by a walk -/

theorem sound_commitSet (pl : List (NodeIndex × NodeIndex)) (doors total a b len : Nat)
    (st : St)
    (hlen : st.data.length = total * (total - 1) / 2)
    (ha : a < total) (hb : b < total) (hab : a ≠ b)
    (hjust : ∃ m, m ≤ len ∧ Reach pl (embIdx doors a) (embIdx doors b) m)
    (hS : Sound pl doors total st.data) :
    Sound pl doors total (commitSet doors total a b len st).data := by
  intro x y hx hy w hw
  rw [dmGet_commitSet doors total a b len x y st hlen ha hb hab hx hy] at hw
  by_cases hc : (x = a ∧ y = b) ∨ (x = b ∧ y = a)
  · rw [if_pos hc] at hw
    have hwl : len = w := Option.some.inj hw
    obtain ⟨m, hm, hr⟩ := hjust
    rcases hc with ⟨h1, h2⟩ | ⟨h1, h2⟩
    · subst h1
      subst h2
      exact ⟨m, by omega, hr⟩
    · subst h1
      subst h2
      exact ⟨m, by omega, Reach_symm hr⟩
  · rw [if_neg hc] at hw
    exact hS x y hx hy w hw

theorem sound_propInner (pl : List (NodeIndex × NodeIndex))
    (doors total a b len i left : Nat) (st : St) (j : Nat)
    (hlen : st.data.length = total * (total - 1) / 2)
    (hi : i < total) (hb : b < total) (hj : j < total)
    (hleft : ∃ m, m ≤ left ∧ Reach pl (embIdx doors i) (embIdx doors a) m)
    (habj : ∃ m, m ≤ len ∧ Reach pl (embIdx doors a) (embIdx doors b) m)
    (hS : Sound pl doors total st.data) :
    Sound pl doors total (propInner doors total a b len i left st j).data := by
  unfold propInner
  by_cases hskip : j = a ∨ (i = a ∧ j = b)
  · rw [if_pos hskip]
    exact hS
  · rw [if_neg hskip]
    cases hbj : dmGet total st.data b j with
    | none => exact hS
    | some right =>
        dsimp only
        by_cases himp : improves (dmGet total st.data i j) (left + len + right) = true
        · rw [if_pos himp]
          have hij : i ≠ j := improves_self_ne total st.data i j _ himp
          obtain ⟨m1, hm1, hr1⟩ := hleft
          obtain ⟨m2, hm2, hr2⟩ := habj
          obtain ⟨m3, hm3, hr3⟩ := hS b j hb hj right hbj
          refine sound_commitSet pl doors total i j (left + len + right) st hlen hi hj hij
            ⟨m1 + m2 + m3, by omega, ?_⟩ hS
          exact Reach_trans (Reach_trans hr1 hr2) hr3
        · rw [if_neg himp]
          exact hS

theorem sound_propRow (pl : List (NodeIndex × NodeIndex)) (doors total a b len : Nat)
    (st : St) (i : Nat)
    (hlen : st.data.length = total * (total - 1) / 2)
    (hi : i < total) (ha : a < total) (hb : b < total)
    (habj : ∃ m, m ≤ len ∧ Reach pl (embIdx doors a) (embIdx doors b) m)
    (hS : Sound pl doors total st.data) :
    Sound pl doors total (propRow doors total a b len st i).data := by
  unfold propRow
  by_cases hib : i = b
  · rw [if_pos hib]
    exact hS
  · rw [if_neg hib]
    cases hl : dmGet total st.data i a with
    | none => exact hS
    | some left =>
        have hleft := hS i a hi ha left hl
        have hfold := foldl_invariant
          (fun st2 => st2.data.length = total * (total - 1) / 2 ∧ Sound pl doors total st2.data)
          (propInner doors total a b len i left) (List.range total) st
          (fun st2 j hj hq =>
            ⟨by rw [length_propInner]; exact hq.1,
             sound_propInner pl doors total a b len i left st2 j hq.1 hi hb
               (List.mem_range.mp hj) hleft habj hq.2⟩)
          ⟨hlen, hS⟩
        exact hfold.2

theorem sound_propagate (pl : List (NodeIndex × NodeIndex)) (doors total a b len : Nat)
    (st : St)
    (hlen : st.data.length = total * (total - 1) / 2)
    (ha : a < total) (hb : b < total)
    (habj : ∃ m, m ≤ len ∧ Reach pl (embIdx doors a) (embIdx doors b) m)
    (hS : Sound pl doors total st.data) :
    Sound pl doors total (propagate doors total a b len st).data := by
  have hfold := foldl_invariant
    (fun st2 => st2.data.length = total * (total - 1) / 2 ∧ Sound pl doors total st2.data)
    (propRow doors total a b len) (List.range total) st
    (fun st2 i hi hq =>
      ⟨by rw [length_propRow]; exact hq.1,
       sound_propRow pl doors total a b len st2 i hq.1 (List.mem_range.mp hi) ha hb
         habj hq.2⟩)
    ⟨hlen, hS⟩
  exact hfold.2

theorem sound_addRoad (pl : List (NodeIndex × NodeIndex)) (doors total a b len : Nat)
    (st : St)
    (hlen : st.data.length = total * (total - 1) / 2)
    (ha : a < total) (hb : b < total)
    (hjust : ∃ m, m ≤ len ∧ Reach pl (embIdx doors a) (embIdx doors b) m)
    (hS : Sound pl doors total st.data) :
    Sound pl doors total (addRoad doors total a b len st).data := by
  by_cases himp : improves (dmGet total st.data a b) len = true
  · rw [addRoad_eq_of_improves doors total a b len st himp]
    have hab : a ≠ b := improves_self_ne total st.data a b len himp
    have h1 := sound_commitSet pl doors total a b len st hlen ha hb hab hjust hS
    exact sound_propagate pl doors total a b len _ (by rw [length_commitSet]; exact hlen)
      ha hb hjust h1
  · unfold addRoad
    rw [if_neg himp]
    exact hS

theorem sound_initSt (pl : List (NodeIndex × NodeIndex)) (doors total : Nat) :
    Sound pl doors total (initSt total).data := by
  intro x y hx hy w hw
  rw [dmGet_init] at hw
  by_cases hxy : x = y
  · rw [if_pos hxy] at hw
    have hw0 : (0 : Nat) = w := Option.some.inj hw
    subst hxy
    exact ⟨0, by omega, Reach.refl _⟩
  · rw [if_neg hxy] at hw
    exact Option.noConfusion hw

theorem sound_seed (rooms doors : Nat) (pl : List (NodeIndex × NodeIndex))
    (hval : validInput rooms doors pl) :
    Sound pl doors ((rooms + 1) * doors)
      (seedPhase (Template.make rooms doors pl)).data := by
  have hprop : ∀ e ∈ (Template.make rooms doors pl).all_links,
      (nodeIdx doors e.1 < (rooms + 1) * doors ∧ nodeIdx doors e.2 < (rooms + 1) * doors ∧
       e.1.door < doors ∧ e.2.door < doors ∧ OEdge pl e.1 e.2) := by
    refine @all_links_prop
      (fun n1 n2 => nodeIdx doors n1 < (rooms + 1) * doors ∧
        nodeIdx doors n2 < (rooms + 1) * doors ∧
        n1.door < doors ∧ n2.door < doors ∧ OEdge pl n1 n2) rooms doors pl ?_
    intro e he
    obtain ⟨h1, h2, h3, h4⟩ := hval.2.2.2 e he
    have hmem : (e.1, e.2) ∈ pl := by simpa using he
    exact ⟨⟨nodeIdx_lt rooms doors _ _ h1 h2, nodeIdx_lt rooms doors _ _ h3 h4,
            h2, h4, Or.inl hmem⟩,
           ⟨nodeIdx_lt rooms doors _ _ h3 h4, nodeIdx_lt rooms doors _ _ h1 h2,
            h4, h2, Or.inr hmem⟩⟩
  have hfold := foldl_invariant
    (fun st2 => st2.data.length = ((rooms + 1) * doors) * ((rooms + 1) * doors - 1) / 2 ∧
      Sound pl doors ((rooms + 1) * doors) st2.data)
    (fun s e => addRoad doors ((rooms + 1) * doors) (nodeIdx doors e.1) (nodeIdx doors e.2) 1 s)
    (Template.make rooms doors pl).all_links (initSt ((rooms + 1) * doors))
    (fun st2 e hemem hq => by
      obtain ⟨hb1, hb2, hd1, hd2, hoe⟩ := hprop e hemem
      refine ⟨by rw [length_addRoad]; exact hq.1, ?_⟩
      refine sound_addRoad pl doors ((rooms + 1) * doors) _ _ 1 st2 hq.1 hb1 hb2
        ⟨1, Nat.le_refl 1, ?_⟩ hq.2
      rw [embed_nil_embIdx doors e.1 hd1, embed_nil_embIdx doors e.2 hd2]
      exact Reach.step (IEdge_of_oedge [] hoe) (Reach.refl _))
    ⟨initSt_length _, sound_initSt pl doors _⟩
  exact hfold.2

theorem sound_update (rooms doors total : Nat) (pl : List (NodeIndex × NodeIndex))
    (pick : List (Nat × Nat) → Nat) (st : St)
    (htot : total = (rooms + 1) * doors)
    (hlen : st.data.length = total * (total - 1) / 2)
    (hdom : ∀ p ∈ st.S, p.1 < doors ∧ p.2 < doors)
    (hS : Sound pl doors total st.data) :
    Sound pl doors total (update rooms doors total pick st).data := by
  have hdt : doors ≤ total := by
    rw [htot]
    calc doors = 1 * doors := by ring
      _ ≤ (rooms + 1) * doors := Nat.mul_le_mul_right doors (by omega)
  by_cases hSe : st.S = []
  · unfold update
    rw [if_pos hSe]
    exact hS
  · unfold update
    rw [if_neg hSe]
    dsimp only
    set k := pick st.S % st.S.length with hkdef
    set q := st.S.getD k (0, 0) with hqdef
    set st1 : St := (⟨st.data, st.S.eraseIdx k⟩ : St) with hst1def
    have hklen : k < st.S.length := by
      rw [hkdef]
      exact Nat.mod_lt _ (List.length_pos.mpr hSe)
    have hqmem : q ∈ st.S := getD_mem st.S k (0, 0) hklen
    have hqdom := hdom q hqmem
    cases hd0 : dmGet total st.data q.1 q.2 with
    | none => exact hS
    | some d0 =>
        dsimp only
        obtain ⟨m0, hm0, hr0⟩ := hS q.1 q.2 (Nat.lt_of_lt_of_le hqdom.1 hdt)
          (Nat.lt_of_lt_of_le hqdom.2 hdt) d0 hd0
        rw [embIdx_outer doors q.1 hqdom.1, embIdx_outer doors q.2 hqdom.2] at hr0
        have hfold := foldl_invariant
          (fun st2 => st2.data.length = total * (total - 1) / 2 ∧
            Sound pl doors total st2.data)
          (roomStep doors total q.1 q.2 d0) (List.range rooms) st1
          (fun st2 r hr hq2 => by
            have hrr := List.mem_range.mp hr
            have hbnd := roomStep_bounds rooms doors total q.1 q.2 hqdom.1 hqdom.2 htot r hrr
            refine ⟨by rw [length_roomStep]; exact hq2.1, ?_⟩
            refine sound_addRoad pl doors total _ _ d0 st2 hq2.1 hbnd.1 hbnd.2
              ⟨m0, hm0, ?_⟩ hq2.2
            rw [embIdx_copy doors q.1 r hqdom.1, embIdx_copy doors q.2 r hqdom.2]
            exact Reach_prep (r + 1) hr0)
          ⟨hlen, hS⟩
        exact hfold.2

/-- Every state produced by a finished `fill` run is sound: each known
cell is realized by a labyrinth walk of at most its value. -/
theorem fill_sound (rooms doors : Nat) (pl : List (NodeIndex × NodeIndex))
    (pick : List (Nat × Nat) → Nat) (fuel : Nat) (st : St)
    (hval : validInput rooms doors pl)
    (hfill : fill (Template.make rooms doors pl) pick fuel = some st) :
    Sound pl doors ((rooms + 1) * doors) st.data := by
  obtain ⟨hs1, hs2, hs3, hs4⟩ := runInv_seed rooms doors pl hval
  have hloop := fillLoop_invariant rooms doors ((rooms + 1) * doors) pick
    (fun st2 => (st2.data.length = ((rooms + 1) * doors) * ((rooms + 1) * doors - 1) / 2 ∧
      Closed ((rooms + 1) * doors) st2.data ∧
      (∀ p ∈ st2.S, p.1 < doors ∧ p.2 < doors) ∧
      InnerInv rooms doors ((rooms + 1) * doors) st2) ∧
      Sound pl doors ((rooms + 1) * doors) st2.data)
    (fun st2 hq =>
      ⟨runInv_update rooms doors ((rooms + 1) * doors) pick st2 rfl hq.1.1 hq.1.2.1
         hq.1.2.2.1 hq.1.2.2.2,
       sound_update rooms doors ((rooms + 1) * doors) pl pick st2 rfl hq.1.1
         hq.1.2.2.1 hq.2⟩)
    fuel (seedPhase (Template.make rooms doors pl)) st
    ⟨⟨hs1, hs2, hs3, hs4⟩, sound_seed rooms doors pl hval⟩ hfill
  exact hloop.2

/-! ## Completeness: the finished matrix dominates every walk -/

theorem embed_snd (c : List Nat) (n : NodeIndex) : (embed c n).2 = n.door := by
  unfold embed
  split <;> rfl

theorem iedge_snd {rooms doors : Nat} {pl : List (NodeIndex × NodeIndex)}
    (hval : validInput rooms doors pl) {x y : INode} (h : IEdge pl x y) :
    x.2 < doors ∧ y.2 < doors := by
  obtain ⟨c, p, q, hpq, h1, h2⟩ := IEdge_iff.mp h
  obtain ⟨hpr, hpd, hqr, hqd⟩ := oedge_valid hval hpq
  constructor
  · rw [← h1, embed_snd]
    exact hpd
  · rw [← h2, embed_snd]
    exact hqd

theorem prep_inj {j : Nat} {p q : INode} (h : prep j p = prep j q) : p = q := by
  obtain ⟨p1, p2⟩ := p
  obtain ⟨q1, q2⟩ := q
  simp only [prep, Prod.mk.injEq, List.cons.injEq] at h
  rw [h.1.2, h.2]

/-- Every known outer-link cell of a solution-like matrix is at most 1,
for any orientation of the link. -/
theorem link_bound (rooms doors : Nat) (pl : List (NodeIndex × NodeIndex))
    (M : List (Option Nat))
    (hA : ∀ f ∈ (Template.make rooms doors pl).all_links,
      cellLE (dmGet ((rooms + 1) * doors) M (nodeIdx doors f.1) (nodeIdx doors f.2)) (some 1))
    {p q : NodeIndex} (hpq : OEdge pl p q) :
    ∃ w, w ≤ 1 ∧ dmGet ((rooms + 1) * doors) M (nodeIdx doors p) (nodeIdx doors q)
      = some w := by
  have hcount : 0 < pl.count (p, q) + pl.count (q, p) := by
    rcases hpq with h | h
    · have hc := List.count_pos_iff.mpr h
      omega
    · have hc := List.count_pos_iff.mpr h
      omega
  by_cases hlt : NodeIndex.ltb q p = true
  · have hpl : NodeIndex.ltb p q = false := ltb_true_then_false q p hlt
    have hcnt := all_links_count rooms doors pl q p hpl
    have hmem : (q, p) ∈ (Template.make rooms doors pl).all_links := by
      rw [← List.count_pos_iff, hcnt]
      omega
    obtain ⟨w, hw, hwle⟩ := hA (q, p) hmem 1 rfl
    refine ⟨w, hwle, ?_⟩
    rw [dmGet_comm]
    exact hw
  · have hlt2 : NodeIndex.ltb q p = false := Bool.eq_false_iff.mpr hlt
    have hcnt := all_links_count rooms doors pl p q hlt2
    have hmem : (p, q) ∈ (Template.make rooms doors pl).all_links := by
      rw [← List.count_pos_iff, hcnt]
      omega
    obtain ⟨w, hw, hwle⟩ := hA (p, q) hmem 1 rfl
    exact ⟨w, hwle, hw⟩

/-- A corridor out of a materialized node into a node of depth at most 1
lands on a materialized node, and the corresponding matrix cell is at
most 1. -/
theorem edge_shallow_bound (rooms doors : Nat) (pl : List (NodeIndex × NodeIndex))
    (M : List (Option Nat))
    (hval : validInput rooms doors pl)
    (hA : ∀ f ∈ (Template.make rooms doors pl).all_links,
      cellLE (dmGet ((rooms + 1) * doors) M (nodeIdx doors f.1) (nodeIdx doors f.2)) (some 1))
    (hC : ∀ u v r, u < doors → v < doors → r < rooms →
      cellLE (dmGet ((rooms + 1) * doors) M ((r + 1) * doors + u) ((r + 1) * doors + v))
        (dmGet ((rooms + 1) * doors) M u v))
    (ix : Nat) (hix : ix < (rooms + 1) * doors) {y1 : INode}
    (he : IEdge pl (embIdx doors ix) y1) (hdep : y1.1.length ≤ 1) :
    ∃ i1, i1 < (rooms + 1) * doors ∧ embIdx doors i1 = y1 ∧
      ∃ w, w ≤ 1 ∧ dmGet ((rooms + 1) * doors) M ix i1 = some w := by
  have hd0 : 0 < doors := by
    have hv := hval.1
    omega
  obtain ⟨c, p, q, hpq, h1, h2⟩ := IEdge_iff.mp he
  obtain ⟨hpr, hpd, hqr, hqd⟩ := oedge_valid hval hpq
  cases c with
  | nil =>
      have hx : embIdx doors (nodeIdx doors p) = embIdx doors ix := by
        rw [embed_nil_embIdx doors p hpd]
        exact h1
      have hix2 : ix = nodeIdx doors p := (embIdx_inj doors _ _ hx).symm
      refine ⟨nodeIdx doors q, nodeIdx_lt rooms doors _ _ hqr hqd, ?_, ?_⟩
      · rw [embed_nil_embIdx doors q hqd]
        exact h2
      · obtain ⟨w, hw, hweq⟩ := link_bound rooms doors pl M hA hpq
        rw [hix2]
        exact ⟨w, hw, hweq⟩
  | cons j c2 =>
      have hc2len : c2.length = 0 := by
        have hge := embed_depth_ge (j :: c2) p
        rw [h1] at hge
        have hle := embIdx_depth doors ix
        have hcons : (j :: c2).length = c2.length + 1 := rfl
        omega
      have hc2 : c2 = [] := List.length_eq_zero.mp hc2len
      subst hc2
      have hp0 : p.room = 0 := by
        by_contra hp
        rw [embed_roomS [j] p hp] at h1
        have hle := embIdx_depth doors ix
        rw [← h1] at hle
        simp at hle
      rw [embed_room0 [j] p hp0] at h1
      rcases embIdx_cases doors rooms ix hd0 hix with ⟨hlt, heq⟩ | ⟨hge, hj1, hjle, hmodlt, heq⟩
      · rw [heq] at h1
        exact absurd (congrArg (fun z => z.1.length) h1) (by simp)
      · rw [heq] at h1
        simp only [Prod.mk.injEq, List.cons.injEq, and_true] at h1
        obtain ⟨hjdiv, hpdoor⟩ := h1
        have hq0 : q.room = 0 := by
          by_contra hq
          rw [embed_roomS [j] q hq] at h2
          rw [← h2] at hdep
          simp at hdep
        rw [embed_room0 [j] q hq0] at h2
        have hixeq : ix = (j - 1 + 1) * doors + p.door := by
          have hdm := Nat.div_add_mod ix doors
          have hj : j - 1 + 1 = j := by omega
          rw [hj, hjdiv, hpdoor, Nat.mul_comm]
          exact hdm.symm
        refine ⟨(j - 1 + 1) * doors + q.door,
          nodeIdx_lt rooms doors (j - 1 + 1) q.door (by omega) hqd, ?_, ?_⟩
        · rw [embIdx_copy doors q.door (j - 1) hqd]
          rw [← h2]
          have hj : j - 1 + 1 = j := by omega
          rw [hj]
        · obtain ⟨w, hw1, hweq⟩ := link_bound rooms doors pl M hA hpq
          have hnp : nodeIdx doors p = p.door := by
            unfold nodeIdx
            rw [hp0]
            omega
          have hnq : nodeIdx doors q = q.door := by
            unfold nodeIdx
            rw [hq0]
            omega
          rw [hnp, hnq] at hweq
          have hcc := hC p.door q.door (j - 1) hpd hqd (by omega)
          obtain ⟨w2, hw2eq, hw2le⟩ := hcc w hweq
          rw [hixeq]
          exact ⟨w2, by omega, hw2eq⟩

/-- A corridor out of a materialized node into a node of depth at least
2 must dive from a depth-1 door `([j], a)` straight into copy `j`. -/
theorem edge_dive (rooms doors : Nat) {pl : List (NodeIndex × NodeIndex)}
    (hval : validInput rooms doors pl)
    {ix : Nat} (hix : ix < (rooms + 1) * doors) {y1 : INode}
    (he : IEdge pl (embIdx doors ix) y1) (hdeep : 2 ≤ y1.1.length) :
    ∃ j a y1', 1 ≤ j ∧ j ≤ rooms ∧ a < doors ∧ ix = (j - 1 + 1) * doors + a ∧
      y1 = prep j y1' ∧ y1'.1 ≠ [] ∧ IEdge pl ((([] : List Nat), a) : INode) y1' := by
  have hd0 : 0 < doors := by
    have hv := hval.1
    omega
  obtain ⟨c, p, q, hpq, h1, h2⟩ := IEdge_iff.mp he
  obtain ⟨hpr, hpd, hqr, hqd⟩ := oedge_valid hval hpq
  cases c with
  | nil =>
      exfalso
      have hle := embed_depth_le [] q
      rw [h2] at hle
      simp at hle
      omega
  | cons j c2 =>
      have hc2len : c2.length = 0 := by
        have hge := embed_depth_ge (j :: c2) p
        rw [h1] at hge
        have hle := embIdx_depth doors ix
        have hcons : (j :: c2).length = c2.length + 1 := rfl
        omega
      have hc2 : c2 = [] := List.length_eq_zero.mp hc2len
      subst hc2
      have hp0 : p.room = 0 := by
        by_contra hp
        rw [embed_roomS [j] p hp] at h1
        have hle := embIdx_depth doors ix
        rw [← h1] at hle
        simp at hle
      rw [embed_room0 [j] p hp0] at h1
      rcases embIdx_cases doors rooms ix hd0 hix with ⟨hlt, heq⟩ | ⟨hge, hj1, hjle, hmodlt, heq⟩
      · rw [heq] at h1
        exact absurd (congrArg (fun z => z.1.length) h1) (by simp)
      · rw [heq] at h1
        simp only [Prod.mk.injEq, List.cons.injEq, and_true] at h1
        obtain ⟨hjdiv, hpdoor⟩ := h1
        have hq0 : ¬ q.room = 0 := by
          intro hq
          rw [embed_room0 [j] q hq] at h2
          rw [← h2] at hdeep
          simp at hdeep
        rw [embed_roomS [j] q hq0] at h2
        refine ⟨j, p.door, ([q.room], q.door), by omega, by omega, hpd, ?_, ?_, ?_, ?_⟩
        · have hdm := Nat.div_add_mod ix doors
          have hj : j - 1 + 1 = j := by omega
          rw [hj, hjdiv, hpdoor, Nat.mul_comm]
          exact hdm.symm
        · rw [← h2]
          rfl
        · simp
        · have hpe : embed [] p = ((([] : List Nat), p.door) : INode) :=
            embed_room0 [] p hp0
          have hqe : embed [] q = ((([q.room] : List Nat), q.door) : INode) := by
            rw [embed_roomS [] q hq0]
            rfl
          rw [← hpe, ← hqe]
          exact IEdge_of_oedge [] hpq

/-- A corridor leaving a node strictly inside copy `j` stays inside copy
`j` and projects down to a corridor of the copy. -/
theorem edge_from_deep {pl : List (NodeIndex × NodeIndex)} {j : Nat} {u0 v : INode}
    (hu : u0.1 ≠ []) (he : IEdge pl (prep j u0) v) :
    ∃ v2, v = prep j v2 ∧ IEdge pl u0 v2 := by
  obtain ⟨c, p, q, hpq, h1, h2⟩ := IEdge_iff.mp he
  have hulen : 1 ≤ u0.1.length := List.length_pos.mpr hu
  have hcne : c ≠ [] := by
    intro hc
    subst hc
    have hle := embed_depth_le [] p
    rw [h1] at hle
    have hplen : (prep j u0).1.length = u0.1.length + 1 := rfl
    simp at hle
    omega
  obtain ⟨c0, hc0⟩ : ∃ c0, c = j :: c0 := by
    cases c with
    | nil => exact absurd rfl hcne
    | cons ch ct =>
        refine ⟨ct, ?_⟩
        have hhead : ch = j := by
          by_cases hp : p.room = 0
          · rw [embed_room0 (ch :: ct) p hp] at h1
            have hfst := congrArg (fun z => z.1) h1
            simp [prep] at hfst
            exact hfst.1
          · rw [embed_roomS (ch :: ct) p hp] at h1
            have hfst := congrArg (fun z => z.1) h1
            simp [prep] at hfst
            exact hfst.1
        rw [hhead]
  subst hc0
  have h1b : prep j (embed c0 p) = prep j u0 := by
    rw [embed_prep]
    exact h1
  have hup : embed c0 p = u0 := prep_inj h1b
  refine ⟨embed c0 q, ?_, ?_⟩
  · rw [← h2, ← embed_prep]
  · rw [← hup]
    exact IEdge_of_oedge c0 hpq

/-- Splitting a walk that starts strictly inside copy `j` at its first
return to depth at most 1: the deep prefix projects down to a walk of
the copy ending at an outer door `b`, and the remainder restarts at the
copy's door `([j], b)`. -/
theorem deep_split (rooms doors : Nat) {pl : List (NodeIndex × NodeIndex)}
    (hval : validInput rooms doors pl) (K j : Nat) :
    ∀ (n : Nat) (u0 y : INode), ReachD pl (K + 1) (prep j u0) y n → u0.1 ≠ [] →
      y.1.length ≤ 1 →
      ∃ b n1 n2, n = n1 + n2 ∧ 1 ≤ n1 ∧ b < doors ∧
        ReachD pl K u0 ((([] : List Nat), b) : INode) n1 ∧
        ReachD pl (K + 1) ((([j] : List Nat), b) : INode) y n2 := by
  intro n
  induction n using Nat.strong_induction_on with
  | _ n ihn =>
    intro u0 y hreach hu hy
    cases hreach with
    | refl =>
        exfalso
        have hlen : (prep j u0).1.length = u0.1.length + 1 := rfl
        have hpos : 1 ≤ u0.1.length := List.length_pos.mpr hu
        omega
    | @step _ y1 _ n2 he hd hr =>
        obtain ⟨y1b, hy1eq, heb⟩ := edge_from_deep hu he
        subst hy1eq
        by_cases hz : y1b.1 = []
        · obtain ⟨c1, b1⟩ := y1b
          have hc1 : c1 = [] := hz
          subst hc1
          have hb : b1 < doors := (iedge_snd hval heb).2
          refine ⟨b1, 1, n2, by omega, Nat.le_refl 1, hb, ?_, ?_⟩
          · exact ReachD.step heb (Nat.zero_le K) (ReachD.refl _)
          · exact hr
        · have hdb : y1b.1.length ≤ K := by
            have hlen : (prep j y1b).1.length = y1b.1.length + 1 := rfl
            omega
          obtain ⟨b, m1, m2, hsum, hm1, hb, hr1, hr2⟩ := ihn n2 (by omega) y1b y hr hz hy
          refine ⟨b, m1 + 1, m2, by omega, by omega, hb, ?_, hr2⟩
          exact ReachD.step heb hdb hr1

/-- Completeness of a solution-like matrix against depth-bounded walks:
by induction on the depth bound (deep excursions into a copy project
down one level) and the walk length. -/
theorem comp_main (rooms doors : Nat) (pl : List (NodeIndex × NodeIndex))
    (M : List (Option Nat))
    (hval : validInput rooms doors pl)
    (hA : ∀ f ∈ (Template.make rooms doors pl).all_links,
      cellLE (dmGet ((rooms + 1) * doors) M (nodeIdx doors f.1) (nodeIdx doors f.2)) (some 1))
    (hcl : Closed ((rooms + 1) * doors) M)
    (hC : ∀ u v r, u < doors → v < doors → r < rooms →
      cellLE (dmGet ((rooms + 1) * doors) M ((r + 1) * doors + u) ((r + 1) * doors + v))
        (dmGet ((rooms + 1) * doors) M u v)) :
    ∀ (k m ix iy : Nat), ix < (rooms + 1) * doors → iy < (rooms + 1) * doors →
      ReachD pl k (embIdx doors ix) (embIdx doors iy) m →
      ∃ w, w ≤ m ∧ dmGet ((rooms + 1) * doors) M ix iy = some w := by
  have hd0 : 0 < doors := by
    have hv := hval.1
    omega
  have hdt : doors ≤ (rooms + 1) * doors := by
    calc doors = 1 * doors := by ring
      _ ≤ (rooms + 1) * doors := Nat.mul_le_mul_right doors (by omega)
  intro k
  induction k using Nat.strong_induction_on with
  | _ k ihk =>
    intro m
    induction m using Nat.strong_induction_on with
    | _ m ihm =>
      intro ix iy hix hiy hreach
      revert hreach
      generalize hgx : embIdx doors ix = x
      generalize hgy : embIdx doors iy = y
      intro hreach
      cases hreach with
      | refl =>
          have hxy : ix = iy := embIdx_inj doors ix iy (hgx.trans hgy.symm)
          subst hxy
          refine ⟨0, Nat.zero_le _, ?_⟩
          unfold dmGet
          rw [if_pos rfl]
      | @step _ y1 _ n2 he hd hr =>
          rw [← hgx] at he
          rw [← hgy] at hr
          by_cases hdep1 : y1.1.length ≤ 1
          · obtain ⟨i1, hi1lt, hi1eq, w1, hw1le, hw1⟩ :=
              edge_shallow_bound rooms doors pl M hval hA hC ix hix he hdep1
            rw [← hi1eq] at hr
            obtain ⟨w2, hw2le, hw2⟩ := ihm n2 (by omega) i1 iy hi1lt hiy hr
            obtain ⟨w, hw, hwle⟩ := closed_tri hcl hix hi1lt hiy hw1 hw2
            exact ⟨w, by omega, hw⟩
          · have hdeep : 2 ≤ y1.1.length := by omega
            obtain ⟨j, a, y1b, hj1, hjle, ha, hixeq, hy1eq, hy1ne, he0⟩ :=
              edge_dive rooms doors hval hix he hdeep
            subst hy1eq
            have hk2 : 2 ≤ k := by
              have hlen : (prep j y1b).1.length = y1b.1.length + 1 := rfl
              have hpos : 1 ≤ y1b.1.length := List.length_pos.mpr hy1ne
              omega
            have hkk : k = k - 2 + 1 + 1 := by omega
            rw [hkk] at hr hd
            obtain ⟨b, n1, m2, hsum, hn1, hb, hr1, hr2⟩ :=
              deep_split rooms doors hval (k - 2 + 1) j n2 y1b (embIdx doors iy) hr
                hy1ne (embIdx_depth doors iy)
            have hdb : y1b.1.length ≤ k - 2 + 1 := by
              have hlen : (prep j y1b).1.length = y1b.1.length + 1 := rfl
              omega
            have hr0 : ReachD pl (k - 2 + 1) (embIdx doors a) (embIdx doors b) (n1 + 1) := by
              rw [embIdx_outer doors a ha, embIdx_outer doors b hb]
              exact ReachD.step he0 hdb hr1
            obtain ⟨w0, hw0le, hw0⟩ := ihk (k - 2 + 1) (by omega) (n1 + 1) a b
              (Nat.lt_of_lt_of_le ha hdt) (Nat.lt_of_lt_of_le hb hdt) hr0
            have hcc := hC a b (j - 1) ha hb (by omega)
            obtain ⟨w1, hw1, hw1le⟩ := hcc w0 hw0
            have hico : embIdx doors ((j - 1 + 1) * doors + b) = (([j] : List Nat), b) := by
              rw [embIdx_copy doors b (j - 1) hb]
              have hj : j - 1 + 1 = j := by omega
              rw [hj]
            rw [← hico] at hr2
            have hicolt : (j - 1 + 1) * doors + b < (rooms + 1) * doors :=
              nodeIdx_lt rooms doors (j - 1 + 1) b (by omega) hb
            have hrrest : ReachD pl k (embIdx doors ((j - 1 + 1) * doors + b))
                (embIdx doors iy) m2 := by
              rw [hkk]
              exact hr2
            obtain ⟨w2, hw2le, hw2⟩ := ihm m2 (by omega) ((j - 1 + 1) * doors + b) iy
              hicolt hiy hrrest
            rw [← hixeq] at hw1
            obtain ⟨w, hw, hwle⟩ := closed_tri hcl hix hicolt hiy hw1 hw2
            exact ⟨w, by omega, hw⟩

/-- Claim C1: after `DistMatrix` is constructed from a valid template,
`get` is exact against the infinite self-similar labyrinth on every
pair of materialized nodes: it returns 0 for equal node identities
(equal flattened indices); a returned value `w` is realized by a real
labyrinth walk of length exactly `w` and no shorter walk exists; `None`
is returned exactly when no finite walk of any nesting depth connects
the two nodes; and whenever some walk exists, a value bounded by its
length is returned. -/
theorem distances_exact (rooms doors : Nat) (pl : List (NodeIndex × NodeIndex))
    (pick : List (Nat × Nat) → Nat) (fuel : Nat) (st : St)
    (hval : validInput rooms doors pl)
    (hfill : fill (Template.make rooms doors pl) pick fuel = some st) :
    ∀ n1 n2 : NodeIndex, n1.room ≤ rooms → n1.door < doors →
      n2.room ≤ rooms → n2.door < doors →
      (nodeIdx doors n1 = nodeIdx doors n2 →
        dmGetNode (Template.make rooms doors pl) st n1 n2 = some 0) ∧
      (∀ w, dmGetNode (Template.make rooms doors pl) st n1 n2 = some w →
        Reach pl (embed [] n1) (embed [] n2) w ∧
        ∀ m, Reach pl (embed [] n1) (embed [] n2) m → w ≤ m) ∧
      (dmGetNode (Template.make rooms doors pl) st n1 n2 = none →
        ∀ m, ¬ Reach pl (embed [] n1) (embed [] n2) m) ∧
      (∀ m, Reach pl (embed [] n1) (embed [] n2) m →
        ∃ w, w ≤ m ∧ dmGetNode (Template.make rooms doors pl) st n1 n2 = some w) := by
  obtain ⟨hsA, hscl, hsC⟩ := fill_isSolution rooms doors pl pick fuel st hval hfill
  have hsound := fill_sound rooms doors pl pick fuel st hval hfill
  have hcomp := comp_main rooms doors pl st.data hval hsA hscl hsC
  intro n1 n2 hro1 hdo1 hro2 hdo2
  have hx : nodeIdx doors n1 < (rooms + 1) * doors := nodeIdx_lt rooms doors _ _ hro1 hdo1
  have hy : nodeIdx doors n2 < (rooms + 1) * doors := nodeIdx_lt rooms doors _ _ hro2 hdo2
  have hget : dmGetNode (Template.make rooms doors pl) st n1 n2
      = dmGet ((rooms + 1) * doors) st.data (nodeIdx doors n1) (nodeIdx doors n2) := rfl
  have he1 : embIdx doors (nodeIdx doors n1) = embed [] n1 := embed_nil_embIdx doors n1 hdo1
  have he2 : embIdx doors (nodeIdx doors n2) = embed [] n2 := embed_nil_embIdx doors n2 hdo2
  have hcompl : ∀ m, Reach pl (embed [] n1) (embed [] n2) m →
      ∃ w, w ≤ m ∧ dmGet ((rooms + 1) * doors) st.data (nodeIdx doors n1)
        (nodeIdx doors n2) = some w := by
    intro m hreach
    rw [← he1, ← he2] at hreach
    obtain ⟨k, hk⟩ := Reach_toD hreach
    exact hcomp k m (nodeIdx doors n1) (nodeIdx doors n2) hx hy hk
  refine ⟨?_, ?_, ?_, ?_⟩
  · intro heq
    rw [hget]
    unfold dmGet
    rw [if_pos heq]
  · intro w hw
    rw [hget] at hw
    obtain ⟨m, hm, hreach⟩ := hsound (nodeIdx doors n1) (nodeIdx doors n2) hx hy w hw
    rw [he1, he2] at hreach
    have hmin : ∀ m2, Reach pl (embed [] n1) (embed [] n2) m2 → w ≤ m2 := by
      intro m2 hm2
      obtain ⟨w2, hw2le, hw2⟩ := hcompl m2 hm2
      rw [hw] at hw2
      have hww : w = w2 := Option.some.inj hw2
      omega
    have hwm : w = m := by
      have hle := hmin m hreach
      omega
    refine ⟨?_, hmin⟩
    rw [hwm]
    exact hreach
  · intro hnone m hreach
    obtain ⟨w, hwle, hw⟩ := hcompl m hreach
    rw [hget] at hnone
    rw [hnone] at hw
    exact Option.noConfusion hw
  · intro m hreach
    obtain ⟨w, hwle, hw⟩ := hcompl m hreach
    rw [hget]
    exact ⟨w, hwle, hw⟩

/-- Witness for C1 at the concrete valid template of `tEx` and the node
pair `(0,0) - (0,1)`. -/
theorem distances_exact_witness :
    (nodeIdx 3 ⟨0, 0⟩ = nodeIdx 3 ⟨0, 1⟩ →
      dmGetNode (Template.make 1 3 [(⟨0, 0⟩, ⟨0, 2⟩), (⟨0, 2⟩, ⟨0, 1⟩), (⟨1, 0⟩, ⟨1, 1⟩)])
        stEx ⟨0, 0⟩ ⟨0, 1⟩ = some 0) ∧
    (∀ w, dmGetNode (Template.make 1 3 [(⟨0, 0⟩, ⟨0, 2⟩), (⟨0, 2⟩, ⟨0, 1⟩), (⟨1, 0⟩, ⟨1, 1⟩)])
        stEx ⟨0, 0⟩ ⟨0, 1⟩ = some w →
      Reach [(⟨0, 0⟩, ⟨0, 2⟩), (⟨0, 2⟩, ⟨0, 1⟩), (⟨1, 0⟩, ⟨1, 1⟩)]
        (embed [] ⟨0, 0⟩) (embed [] ⟨0, 1⟩) w ∧
      ∀ m, Reach [(⟨0, 0⟩, ⟨0, 2⟩), (⟨0, 2⟩, ⟨0, 1⟩), (⟨1, 0⟩, ⟨1, 1⟩)]
        (embed [] ⟨0, 0⟩) (embed [] ⟨0, 1⟩) m → w ≤ m) ∧
    (dmGetNode (Template.make 1 3 [(⟨0, 0⟩, ⟨0, 2⟩), (⟨0, 2⟩, ⟨0, 1⟩), (⟨1, 0⟩, ⟨1, 1⟩)])
        stEx ⟨0, 0⟩ ⟨0, 1⟩ = none →
      ∀ m, ¬ Reach [(⟨0, 0⟩, ⟨0, 2⟩), (⟨0, 2⟩, ⟨0, 1⟩), (⟨1, 0⟩, ⟨1, 1⟩)]
        (embed [] ⟨0, 0⟩) (embed [] ⟨0, 1⟩) m) ∧
    (∀ m, Reach [(⟨0, 0⟩, ⟨0, 2⟩), (⟨0, 2⟩, ⟨0, 1⟩), (⟨1, 0⟩, ⟨1, 1⟩)]
        (embed [] ⟨0, 0⟩) (embed [] ⟨0, 1⟩) m →
      ∃ w, w ≤ m ∧
        dmGetNode (Template.make 1 3 [(⟨0, 0⟩, ⟨0, 2⟩), (⟨0, 2⟩, ⟨0, 1⟩), (⟨1, 0⟩, ⟨1, 1⟩)])
          stEx ⟨0, 0⟩ ⟨0, 1⟩ = some w) :=
  distances_exact 1 3 [(⟨0, 0⟩, ⟨0, 2⟩), (⟨0, 2⟩, ⟨0, 1⟩), (⟨1, 0⟩, ⟨1, 1⟩)]
    pick0 100 stEx (by decide) (by decide) ⟨0, 0⟩ ⟨0, 1⟩
    (by decide) (by decide) (by decide) (by decide)
